import Mathlib

/-!
# Flag illustrator: pixel buffer, flag patterns and text exports

A shallow embedding of the C++ modules `LibUtility`, `UJImage`, `FlagIllustrator`,
`ColourIllustrator`, `GrayscaleIllustrator` and `BWIllustrator`, and of `main`.

Conventions of the embedding.

* A C++ `int` is a Lean `Int`.  Every arithmetic expression of the modelled code
  (`_rows - 1`, `intThickness * 2`, `getHeight() / 3`, the channel sum of a pixel
  whose channels are in `[0,255]`) stays far inside the 32-bit range for the
  dimensions the program admits, so no wrap-around is modelled.
* A call that ends the process (`std::exit`, a failed `assert`, a `new[]` of
  negative length) is a value of `Abort` returned in `Except`.
* `for (int i = 0; i < n; ++i) body` is `forUpTo n body`, a structural recursion that
  threads the mutated state through the iterations.  The bound `n` is read when the
  loop is entered: no loop body of the program changes the dimension that bounds it.
* The heap grid `UJPixel**` of `UJImage` is a list of rows, each a list of pixels;
  the object owned through `UJImage* _image` is held by value.  A `new` of
  non-negative length succeeds: running out of memory is not modelled.
* Where sharing of storage is the question (copies), the same members are also given
  over a free store with addresses (`Heap`, `UJImageObj`, `FlagObj`): a `new` puts its
  array or object at a fresh address, and `view` reads an object back as a value.
* `main` is modelled on its argument strings: `std::stoi` on a run of digits is the
  decimal value, or a failure when the value exceeds `INT_MAX`.
* `assert` is active (the program is built without `NDEBUG`).
* A `double` is the exact value it holds and the operations on it are those of
  IEEE 754 binary64 in the default rounding mode.
* Text written to `std::cerr` is not modelled; `std::endl` contributes `"\n"`.
-/

namespace FlagSpec

/-! ## LibUtility -/

/-- The pixel record `UJPixel` of `LibUtility`: three `int` channels. -/
structure UJPixel where
  intRed : Int
  intGreen : Int
  intBlue : Int
  deriving DecidableEq, Repr

/-- The enumeration `ExitCode` of `LibUtility`. -/
inductive ExitCode where
  | SUCCESS
  | ERROR_RANGE
  | ERROR_ARGS
  | ERROR_CONV
  deriving DecidableEq, Repr

/-- The enumeration `FlagType` of `LibUtility`. -/
inductive FlagType where
  | AUSTRIA
  | JAPAN
  | NIGERIA
  deriving DecidableEq, Repr

/-- The ways a call can end the process instead of returning. -/
inductive Abort where
  /-- The call `std::exit(code)`. -/
  | exit (code : ExitCode)
  /-- A `new T[n]` with negative `n` (`std::bad_array_new_length`, never caught). -/
  | badArrayNewLength
  /-- A failed `assert`. -/
  | assertFail
  deriving DecidableEq, Repr

deriving instance DecidableEq for Except

/-! ## Loops -/

/-- Iterations `i, i+1, ...` of a loop body, `k` of them, threading the state; an
aborting iteration ends the loop. -/
def loopFrom {σ : Type} (body : Int → σ → Except Abort σ) : Nat → Int → σ → Except Abort σ
  | 0, _, s => Except.ok s
  | k + 1, i, s =>
    match body i s with
    | Except.ok s' => loopFrom body k (i + 1) s'
    | Except.error e => Except.error e

/-- The loop `for (int i = 0; i < n; ++i) body`: it runs `n` iterations when `n > 0`
and none otherwise. -/
def forUpTo {σ : Type} (n : Int) (body : Int → σ → Except Abort σ) (s : σ) : Except Abort σ :=
  loopFrom body n.toNat 0 s

/-- Iterations of a loop body that cannot abort. -/
def pureLoopFrom {σ : Type} (body : Int → σ → σ) : Nat → Int → σ → σ
  | 0, _, s => s
  | k + 1, i, s => pureLoopFrom body k (i + 1) (body i s)

/-- The loop `for (int i = 0; i < n; ++i) body` for a body that cannot abort. -/
def pureForUpTo {σ : Type} (n : Int) (body : Int → σ → σ) (s : σ) : σ :=
  pureLoopFrom body n.toNat 0 s

/-! ## UJImage -/

/-- The class `UJImage`: the grid `_image` with its dimensions `_rows` and `_cols`. -/
structure UJImage where
  _image : List (List UJPixel)
  _rows : Int
  _cols : Int
  deriving DecidableEq, Repr

/-- The content of a pixel that `new UJPixel[n]` leaves uninitialised. -/
def indeterminate : UJPixel := ⟨0, 0, 0⟩

/-- The read `_image[r][c]`, at indices that a range check or a loop bound has made
non-negative and in bounds. -/
def UJImage.load (img : UJImage) (r c : Int) : UJPixel :=
  (img._image.getD r.toNat []).getD c.toNat indeterminate

/-- The write `_image[r][c] = p`, at indices that a range check or a loop bound has made
non-negative and in bounds. -/
def UJImage.store (img : UJImage) (r c : Int) (p : UJPixel) : UJImage :=
  { img with _image := img._image.modify (fun row => row.set c.toNat p) r.toNat }

/-- The write `_image[r] = new UJPixel[n]` for `n ≥ 0`. -/
def UJImage.newRow (img : UJImage) (r : Int) (n : Int) : UJImage :=
  { img with _image := img._image.set r.toNat (List.replicate n.toNat indeterminate) }

/-- The member `UJImage::alloc`, run on a fresh object. -/
def UJImage.alloc (intRows intCols : Int) : Except Abort UJImage :=
  if intRows < 0 then Except.error Abort.badArrayNewLength
  else
    forUpTo intRows
      (fun r img =>
        if img._cols < 0 then Except.error Abort.badArrayNewLength
        else
          forUpTo img._cols
            (fun c img => Except.ok (img.store r c ⟨255, 255, 255⟩))
            (img.newRow r img._cols))
      { _image := List.replicate intRows.toNat [], _rows := intRows, _cols := intCols }

/-- The constructor `UJImage::UJImage(int, int)`. -/
def UJImage.mk2 (intRows intCols : Int) : Except Abort UJImage :=
  UJImage.alloc intRows intCols

/-- The constructor `UJImage::UJImage()`. -/
def UJImage.mk0 : Except Abort UJImage :=
  UJImage.mk2 2 2

/-- The member `UJImage::enforceRange`. -/
def UJImage.enforceRange (intValue intMin intMax : Int) : Except Abort Unit :=
  if intValue < intMin ∨ intValue > intMax then Except.error (Abort.exit ExitCode.ERROR_RANGE)
  else Except.ok ()

/-- The member `UJImage::getHeight`. -/
def UJImage.getHeight (img : UJImage) : Int := img._rows

/-- The member `UJImage::getWidth`. -/
def UJImage.getWidth (img : UJImage) : Int := img._cols

/-- The member `UJImage::getPixel`. -/
def UJImage.getPixel (img : UJImage) (intRow intCol : Int) : Except Abort UJPixel :=
  match UJImage.enforceRange intRow 0 (img._rows - 1) with
  | Except.error e => Except.error e
  | Except.ok _ =>
    match UJImage.enforceRange intCol 0 (img._cols - 1) with
    | Except.error e => Except.error e
    | Except.ok _ => Except.ok (img.load intRow intCol)

/-- The member `UJImage::setPixel`, with the buffer as the call leaves it: the second
component is the object at the point where the call returns or ends the process. -/
def UJImage.setPixelExec (img : UJImage) (intRow intCol : Int) (recPixel : UJPixel) :
    Except Abort Unit × UJImage :=
  match UJImage.enforceRange intRow 0 (img._rows - 1) with
  | Except.error e => (Except.error e, img)
  | Except.ok _ =>
    match UJImage.enforceRange intCol 0 (img._cols - 1) with
    | Except.error e => (Except.error e, img)
    | Except.ok _ =>
      match UJImage.enforceRange recPixel.intRed 0 255 with
      | Except.error e => (Except.error e, img)
      | Except.ok _ =>
        match UJImage.enforceRange recPixel.intGreen 0 255 with
        | Except.error e => (Except.error e, img)
        | Except.ok _ =>
          match UJImage.enforceRange recPixel.intBlue 0 255 with
          | Except.error e => (Except.error e, img)
          | Except.ok _ => (Except.ok (), img.store intRow intCol recPixel)

/-- The member `UJImage::setPixel` as a step of a larger computation: the object after
the call when it returns, the abort when it does not. -/
def UJImage.setPixel (img : UJImage) (intRow intCol : Int) (recPixel : UJPixel) :
    Except Abort UJImage :=
  match img.setPixelExec intRow intCol recPixel with
  | (Except.ok _, img') => Except.ok img'
  | (Except.error e, _) => Except.error e

/-- The range of a colour channel, `[0,255]`, for the three channels of a pixel. -/
def UJPixel.Valid (p : UJPixel) : Prop :=
  (0 ≤ p.intRed ∧ p.intRed ≤ 255) ∧ (0 ≤ p.intGreen ∧ p.intGreen ≤ 255) ∧
    (0 ≤ p.intBlue ∧ p.intBlue ≤ 255)

instance (p : UJPixel) : Decidable p.Valid := by
  unfold UJPixel.Valid; infer_instance

/-- The member `UJImage::clone`, run on `img` with argument `objOriginal`. -/
def UJImage.clone (img objOriginal : UJImage) : Except Abort UJImage :=
  if img._rows ≠ objOriginal._rows then Except.error Abort.assertFail
  else if img._cols ≠ objOriginal._cols then Except.error Abort.assertFail
  else
    forUpTo img._rows
      (fun r img =>
        forUpTo img._cols
          (fun c img => Except.ok (img.store r c (objOriginal.load r c)))
          img)
      img

/-- The copy constructor `UJImage::UJImage(const UJImage&)`. -/
def UJImage.copy (objOriginal : UJImage) : Except Abort UJImage :=
  match UJImage.mk2 objOriginal._rows objOriginal._cols with
  | Except.error e => Except.error e
  | Except.ok img => img.clone objOriginal

/-- The representation invariant stated at the head of `UJImage.cpp`: `_image` has
`_rows` rows, each of `_cols` pixels. -/
def UJImage.WF (img : UJImage) : Prop :=
  0 ≤ img._rows ∧ img._image.length = img._rows.toNat ∧
    ∀ row ∈ img._image, 0 ≤ img._cols ∧ row.length = img._cols.toNat

instance (img : UJImage) : Decidable img.WF := by
  unfold UJImage.WF; infer_instance

/-- Every pixel held in the grid has its three channels in `[0,255]`. -/
def UJImage.ValidPixels (img : UJImage) : Prop :=
  ∀ row ∈ img._image, ∀ p ∈ row, UJPixel.Valid p

instance (img : UJImage) : Decidable img.ValidPixels := by
  unfold UJImage.ValidPixels; infer_instance

/-! ## Text output -/

/-- The text that `operator<<` writes for an `int`: its decimal digits, after a `-` when
it is negative. -/
def decimal (n : Int) : String :=
  match n with
  | Int.ofNat m => Nat.repr m
  | Int.negSucc m => "-" ++ Nat.repr (m + 1)

/-- The member `UJImage::toPPM`; the state of the loops is the text written so far. -/
def UJImage.toPPM (img : UJImage) : String :=
  let ssPPM := "P3" ++ "\n" ++ decimal img._cols ++ " " ++ decimal img._rows ++ "\n"
    ++ decimal 255 ++ "\n"
  pureForUpTo img._rows
    (fun r ssPPM =>
      pureForUpTo img._cols
        (fun c ssPPM =>
          ssPPM ++ decimal (img.load r c).intRed ++ " "
            ++ decimal (img.load r c).intGreen ++ " "
            ++ decimal (img.load r c).intBlue ++ " ")
        ssPPM
        ++ "\n")
    ssPPM

/-! ## Double-precision arithmetic

The `double` values of `drawJPFlag` are non-negative and finite, far from overflow and
from the subnormal range; such a value is held exactly as `mant * 2 ^ expo`.  The
operations are those of IEEE 754 binary64 with the default rounding (to nearest, ties
to even, 53 significant bits). -/

/-- A non-negative finite `double`, by its exact value `mant * 2 ^ expo`. -/
structure Dbl where
  mant : Nat
  expo : Int
  deriving Repr

/-- Search for the least `k` from a start with `n < 2 ^ k`. -/
def bitLenFrom (n : Nat) : Nat → Nat → Nat
  | 0, k => k
  | fuel + 1, k => if n < 2 ^ k then k else bitLenFrom n fuel (k + 1)

/-- Number of binary digits of `n`: the least `k` with `n < 2 ^ k`. -/
def bitLen (n : Nat) : Nat := bitLenFrom n n 0

/-- Digit-by-digit integer square root: the bits `b-1, ..., 0` are tried in turn on top
of the partial root `r`. -/
def isqrtBits (n : Nat) : Nat → Nat → Nat
  | 0, r => r
  | b + 1, r => if (r + 2 ^ b) ^ 2 ≤ n then isqrtBits n b (r + 2 ^ b) else isqrtBits n b r

/-- Integer square root, `⌊√n⌋`: half the binary digits of `n` are enough for the root. -/
def isqrt (n : Nat) : Nat := isqrtBits n ((bitLen n + 1) / 2) 0

/-- Rounding to nearest, ties to even, to 53 significant bits, of the real number
`(m + δ) * 2 ^ e`, where `δ = 0` when `sticky` is `false` and `0 < δ < 1` when it is
`true` (in which case `m` has more than 53 bits). -/
def Dbl.round (m : Nat) (sticky : Bool) (e : Int) : Dbl :=
  let s := bitLen m - 53
  if s = 0 then ⟨m, e⟩
  else
    let q := m / 2 ^ s
    let rem := m % 2 ^ s
    let half := 2 ^ (s - 1)
    if rem > half ∨ (rem = half ∧ (sticky = true ∨ q % 2 = 1)) then ⟨q + 1, e + s⟩
    else ⟨q, e + s⟩

/-- The conversion `static_cast<double>(n)` of a non-negative `int`; it is exact. -/
def Dbl.ofInt (n : Int) : Dbl := ⟨n.toNat, 0⟩

/-- The literal `0.3`: the double nearest to 3/10, `5404319552844595 * 2 ^ (-54)`. -/
def Dbl.pointThree : Dbl := ⟨5404319552844595, -54⟩

/-- The product `a * b` of two doubles. -/
def Dbl.mul (a b : Dbl) : Dbl := Dbl.round (a.mant * b.mant) false (a.expo + b.expo)

/-- The sum `a + b` of two doubles. -/
def Dbl.add (a b : Dbl) : Dbl :=
  let e := min a.expo b.expo
  Dbl.round (a.mant * 2 ^ (a.expo - e).toNat + b.mant * 2 ^ (b.expo - e).toNat) false e

/-- The call `std::pow(x, 2)` on an `int` argument: the square, which is exact since
`x * x < 2 ^ 53` for every `int` the program passes. -/
def Dbl.powTwo (x : Int) : Dbl := ⟨(x * x).toNat, 0⟩

/-- The call `std::sqrt(a)`, correctly rounded: the argument is scaled to
`n * 2 ^ (expo - t)` with `expo - t` even and `n` of more than 106 bits, so that
`⌊√n⌋` has more than 53 bits. -/
def Dbl.sqrt (a : Dbl) : Dbl :=
  let t := 108 + (a.expo % 2).toNat
  let n := a.mant * 2 ^ t
  let r := isqrt n
  Dbl.round r (decide (r * r ≠ n)) ((a.expo - t) / 2)

/-- The comparison `a <= b` of two doubles. -/
def Dbl.le (a b : Dbl) : Bool :=
  let e := min a.expo b.expo
  decide (a.mant * 2 ^ (a.expo - e).toNat ≤ b.mant * 2 ^ (b.expo - e).toNat)

/-- The number of low bits that `Dbl.round` drops from `m`. -/
def roundShift (m : Nat) : Nat := bitLen m - 53

/-- The significand that `Dbl.round` keeps of `m`. -/
def roundMant (m : Nat) (sticky : Bool) : Nat := (Dbl.round m sticky 0).mant

/-- The value of `Dbl.round m sticky e` in units of `2 ^ e`. -/
def roundNat (m : Nat) (sticky : Bool) : Nat := roundMant m sticky * 2 ^ roundShift m

/-- The value of `std::sqrt` of the integer `D`, in units of `2 ^ (-54)`. -/
def sqrtKey (D : Nat) : Nat :=
  roundNat (isqrt (D * 2 ^ 108)) (decide (isqrt (D * 2 ^ 108) * isqrt (D * 2 ^ 108) ≠ D * 2 ^ 108))

/-- The value of `0.3 * static_cast<double>(h)`, in units of `2 ^ (-54)`. -/
def radKey (h : Nat) : Nat := roundNat (5404319552844595 * h) false

/-! ## FlagIllustrator -/

/-- The class `FlagIllustrator`: the owned `UJImage`. -/
structure FlagIllustrator where
  _image : UJImage
  deriving DecidableEq, Repr

/-- The constant `FlagIllustrator::DEF_HEIGHT`. -/
def FlagIllustrator.DEF_HEIGHT : Int := 480

/-- The constant `FlagIllustrator::DEF_WIDTH`. -/
def FlagIllustrator.DEF_WIDTH : Int := 640

/-- The member `FlagIllustrator::enforceRange`. -/
def FlagIllustrator.enforceRange (intArg intMin intMax : Int) : Except Abort Unit :=
  if intArg < intMin ∨ intArg > intMax then Except.error (Abort.exit ExitCode.ERROR_RANGE)
  else Except.ok ()

/-- The member `FlagIllustrator::alloc`, run on a fresh object. -/
def FlagIllustrator.alloc (intHeight intWidth : Int) : Except Abort FlagIllustrator :=
  match UJImage.mk2 intHeight intWidth with
  | Except.error e => Except.error e
  | Except.ok img => Except.ok ⟨img⟩

/-- The constructor `FlagIllustrator::FlagIllustrator(int, int)`. -/
def FlagIllustrator.mk2 (intHeight intWidth : Int) : Except Abort FlagIllustrator :=
  match FlagIllustrator.enforceRange intHeight 0 10000 with
  | Except.error e => Except.error e
  | Except.ok _ =>
    match FlagIllustrator.enforceRange intWidth 0 10000 with
    | Except.error e => Except.error e
    | Except.ok _ => FlagIllustrator.alloc intHeight intWidth

/-- The constructor `FlagIllustrator::FlagIllustrator()`. -/
def FlagIllustrator.mk0 : Except Abort FlagIllustrator :=
  FlagIllustrator.mk2 FlagIllustrator.DEF_HEIGHT FlagIllustrator.DEF_WIDTH

/-- The call `_image->setPixel(r, c, p)` made by a member of `FlagIllustrator`. -/
def FlagIllustrator.put (f : FlagIllustrator) (r c : Int) (p : UJPixel) :
    Except Abort FlagIllustrator :=
  match f._image.setPixel r c p with
  | Except.error e => Except.error e
  | Except.ok img => Except.ok ⟨img⟩

/-- The member `FlagIllustrator::drawAuFlag`; `/` on `int` truncates. -/
def FlagIllustrator.drawAuFlag (f : FlagIllustrator) : Except Abort FlagIllustrator :=
  let intThickness := Int.tdiv f._image.getHeight 3
  let recRed : UJPixel := ⟨239, 51, 64⟩
  let recWhite : UJPixel := ⟨255, 255, 255⟩
  forUpTo f._image.getHeight
    (fun r f =>
      forUpTo f._image.getWidth
        (fun c f =>
          if r > intThickness ∧ r < intThickness * 2 then f.put r c recWhite
          else f.put r c recRed)
        f)
    f

/-- The member `FlagIllustrator::distance`. -/
def FlagIllustrator.distance (intY1 intY2 intX1 intX2 : Int) : Dbl :=
  Dbl.sqrt (Dbl.add (Dbl.powTwo (intX2 - intX1)) (Dbl.powTwo (intY2 - intY1)))

/-- The member `FlagIllustrator::drawJPFlag`. -/
def FlagIllustrator.drawJPFlag (f : FlagIllustrator) : Except Abort FlagIllustrator :=
  let recRed : UJPixel := ⟨188, 0, 45⟩
  let recWhite : UJPixel := ⟨255, 255, 255⟩
  let dblRadius := Dbl.mul Dbl.pointThree (Dbl.ofInt f._image.getHeight)
  let intCR := Int.tdiv f._image.getHeight 2
  let intCC := Int.tdiv f._image.getWidth 2
  forUpTo f._image.getHeight
    (fun r f =>
      forUpTo f._image.getWidth
        (fun c f =>
          if Dbl.le (FlagIllustrator.distance r intCR c intCC) dblRadius = true then
            f.put r c recRed
          else f.put r c recWhite)
        f)
    f

/-- The member `FlagIllustrator::drawNGFlag`. -/
def FlagIllustrator.drawNGFlag (f : FlagIllustrator) : Except Abort FlagIllustrator :=
  let intThickness := Int.tdiv f._image.getWidth 3
  let recGreen : UJPixel := ⟨27, 115, 57⟩
  let recWhite : UJPixel := ⟨255, 255, 255⟩
  forUpTo f._image.getHeight
    (fun r f =>
      forUpTo f._image.getWidth
        (fun c f =>
          if c > intThickness ∧ c < intThickness * 2 then f.put r c recWhite
          else f.put r c recGreen)
        f)
    f

/-- The member `FlagIllustrator::illustrate`. -/
def FlagIllustrator.illustrate (f : FlagIllustrator) (eType : FlagType) :
    Except Abort FlagIllustrator :=
  match eType with
  | FlagType.AUSTRIA => f.drawAuFlag
  | FlagType.JAPAN => f.drawJPFlag
  | FlagType.NIGERIA => f.drawNGFlag

/-- The member `FlagIllustrator::clone`, run on `f` with argument `objOriginal`. -/
def FlagIllustrator.clone (f objOriginal : FlagIllustrator) : Except Abort FlagIllustrator :=
  if f._image.getHeight ≠ objOriginal._image.getHeight then Except.error Abort.assertFail
  else if f._image.getWidth ≠ objOriginal._image.getWidth then Except.error Abort.assertFail
  else
    forUpTo f._image.getHeight
      (fun r f =>
        forUpTo f._image.getWidth
          (fun c f =>
            match objOriginal._image.getPixel r c with
            | Except.error e => Except.error e
            | Except.ok p => f.put r c p)
          f)
      f

/-- The copy constructor `FlagIllustrator::FlagIllustrator(const FlagIllustrator&)`. -/
def FlagIllustrator.copy (objOriginal : FlagIllustrator) : Except Abort FlagIllustrator :=
  match FlagIllustrator.mk2 objOriginal._image.getHeight objOriginal._image.getWidth with
  | Except.error e => Except.error e
  | Except.ok f => f.clone objOriginal

/-! ## The three exporters -/

/-- The member `ColourIllustrator::exportImage`. -/
def ColourIllustrator.exportImage (f : FlagIllustrator) : String :=
  f._image.toPPM

/-- The member `GrayscaleIllustrator::average`; `/` on `int` truncates.  The sum is that
of the integers, which is the `int` sum whenever it fits, as it does for channels in
`[0,255]`, the only ones `setPixel` lets into a buffer. -/
def GrayscaleIllustrator.average (recPixel : UJPixel) : Int :=
  Int.tdiv (recPixel.intRed + recPixel.intGreen + recPixel.intBlue) 3

/-- The member `GrayscaleIllustrator::exportImage`. -/
def GrayscaleIllustrator.exportImage (f : FlagIllustrator) : Except Abort String :=
  let ssPGM := "P2" ++ "\n" ++ decimal f._image.getWidth ++ " " ++ decimal f._image.getHeight
    ++ "\n" ++ decimal 255 ++ "\n"
  forUpTo f._image.getHeight
    (fun r ssPGM =>
      match
        forUpTo f._image.getWidth
          (fun c ssPGM =>
            match f._image.getPixel r c with
            | Except.error e => Except.error e
            | Except.ok p =>
              let intIntensity := GrayscaleIllustrator.average p
              Except.ok (ssPGM ++ decimal intIntensity ++ " "))
          ssPGM
      with
      | Except.error e => Except.error e
      | Except.ok ssPGM => Except.ok (ssPGM ++ "\n"))
    ssPGM

/-- The member `BWIllustrator::isWhite`. -/
def BWIllustrator.isWhite (recPixel : UJPixel) : Bool :=
  decide (recPixel.intRed = 255) && decide (recPixel.intGreen = 255)
    && decide (recPixel.intBlue = 255)

/-- The member `BWIllustrator::exportImage`. -/
def BWIllustrator.exportImage (f : FlagIllustrator) : Except Abort String :=
  let ssPBM := "P1" ++ "\n" ++ decimal f._image.getWidth ++ " " ++ decimal f._image.getHeight
    ++ "\n"
  forUpTo f._image.getHeight
    (fun r ssPBM =>
      match
        forUpTo f._image.getWidth
          (fun c ssPBM =>
            match f._image.getPixel r c with
            | Except.error e => Except.error e
            | Except.ok p =>
              let intBitValue : Int := if BWIllustrator.isWhite p = true then 0 else 1
              Except.ok (ssPBM ++ decimal intBitValue ++ " "))
          ssPBM
      with
      | Except.error e => Except.error e
      | Except.ok ssPBM => Except.ok (ssPBM ++ "\n"))
    ssPBM

/-! ## The colour written by a drawing member -/

/-- The pixel that `illustrate(eType)` passes to `setPixel` for cell `(r, c)` of a buffer of
height `h` and width `w`: the colour chosen by the `if` of the drawing member. -/
def paint (eType : FlagType) (h w r c : Int) : UJPixel :=
  match eType with
  | FlagType.AUSTRIA =>
    if r > Int.tdiv h 3 ∧ r < Int.tdiv h 3 * 2 then ⟨255, 255, 255⟩ else ⟨239, 51, 64⟩
  | FlagType.JAPAN =>
    if Dbl.le (FlagIllustrator.distance r (Int.tdiv h 2) c (Int.tdiv w 2))
        (Dbl.mul Dbl.pointThree (Dbl.ofInt h)) = true
    then ⟨188, 0, 45⟩ else ⟨255, 255, 255⟩
  | FlagType.NIGERIA =>
    if c > Int.tdiv w 3 ∧ c < Int.tdiv w 3 * 2 then ⟨255, 255, 255⟩ else ⟨27, 115, 57⟩

/-! ## Reachable states -/

/-- The buffer states that a program reaches: from a constructor, by calls of `setPixel`
that return and by copy construction. -/
inductive UJImage.Reachable : UJImage → Prop where
  | mk0 (img : UJImage) : UJImage.mk0 = Except.ok img → UJImage.Reachable img
  | mk2 (intRows intCols : Int) (img : UJImage) :
      UJImage.mk2 intRows intCols = Except.ok img → UJImage.Reachable img
  | copy (X Y : UJImage) : UJImage.Reachable X → UJImage.copy X = Except.ok Y →
      UJImage.Reachable Y
  | setPixel (img img' : UJImage) (r c : Int) (p : UJPixel) : UJImage.Reachable img →
      img.setPixel r c p = Except.ok img' → UJImage.Reachable img'

/-- The renderer states that a program reaches: from a constructor, by calls of
`illustrate` and of `_image->setPixel` that return and by copy construction. -/
inductive FlagIllustrator.Reachable : FlagIllustrator → Prop where
  | mk0 (f : FlagIllustrator) : FlagIllustrator.mk0 = Except.ok f → FlagIllustrator.Reachable f
  | mk2 (intHeight intWidth : Int) (f : FlagIllustrator) :
      FlagIllustrator.mk2 intHeight intWidth = Except.ok f → FlagIllustrator.Reachable f
  | copy (X Y : FlagIllustrator) : FlagIllustrator.Reachable X →
      FlagIllustrator.copy X = Except.ok Y → FlagIllustrator.Reachable Y
  | illustrate (f f' : FlagIllustrator) (eType : FlagType) : FlagIllustrator.Reachable f →
      f.illustrate eType = Except.ok f' → FlagIllustrator.Reachable f'
  | setPixel (f f' : FlagIllustrator) (r c : Int) (p : UJPixel) : FlagIllustrator.Reachable f →
      f.put r c p = Except.ok f' → FlagIllustrator.Reachable f'

/-- The 2×2 white buffer that the default constructor of `UJImage` returns. -/
def sampleWhite : UJImage :=
  { _image := [[⟨255, 255, 255⟩, ⟨255, 255, 255⟩], [⟨255, 255, 255⟩, ⟨255, 255, 255⟩]],
    _rows := 2, _cols := 2 }

/-- The buffer `sampleWhite` after `setPixel(0, 1, (1,2,3))`. -/
def sampleWritten : UJImage :=
  { _image := [[⟨255, 255, 255⟩, ⟨1, 2, 3⟩], [⟨255, 255, 255⟩, ⟨255, 255, 255⟩]],
    _rows := 2, _cols := 2 }

/-! ## main -/

/-- The loop `for (char ch : s)` of `tryExtractIntInRange` on the characters still to read,
with the characters of `num` collected so far; the `break` ends it. -/
def digitRun : List Char → List Char → List Char
  | [], num => num
  | ch :: rest, num =>
    if ch.isDigit = true then digitRun rest (num ++ [ch])
    else if num ≠ [] then num
    else digitRun rest num

/-- The call `std::stoi(num)` on a non-empty string of decimal digits: its value, or `none`
when the value exceeds `INT_MAX` and `std::out_of_range` is thrown. -/
def stoi (num : List Char) : Option Int :=
  let v : Nat := num.foldl (fun acc ch => 10 * acc + (ch.toNat - 48)) 0
  if v > 2147483647 then none else some (v : Int)

/-- The function `tryExtractIntInRange` of `main.cpp` on the characters of `s` (a byte of
a character outside ASCII is no digit, and neither is that character): `some v` is the
result `true` with `out = v`, `none` is the result `false`, which leaves `out` as it was. -/
def tryExtractIntInRange (s : String) (minv maxv : Int) : Option Int :=
  let num := digitRun s.data []
  if num = [] then none
  else
    match stoi num with
    | none => none
    | some val => if val < minv ∨ val > maxv then none else some val

/-- The loop of `main` over `argv[1..]`, with the vector `found` collected so far; it ends
when `found` holds two values. -/
def mainCollect : List String → List Int → List Int
  | [], found => found
  | arg :: rest, found =>
    if found.length < 2 then
      match tryExtractIntInRange arg 0 2 with
      | some val => mainCollect rest (found ++ [val])
      | none => mainCollect rest found
    else found

/-- The two selectors that `main` goes on with for the arguments `argv[1..]`: `found[0]`,
which it casts to `FlagType`, and `intIllustratorChoice`. -/
def mainSelectors (args : List String) : Except Abort (Int × Int) :=
  let found := mainCollect args []
  if found.length < 1 then Except.error (Abort.exit ExitCode.ERROR_ARGS)
  else Except.ok (found.getD 0 0, if found.length ≥ 2 then found.getD 1 0 else 0)

/-- The conversion `static_cast<FlagType>(v)`: the enumerator of value `v`, if there is one. -/
def castFlagType (v : Int) : Option FlagType :=
  if v = 0 then some FlagType.AUSTRIA
  else if v = 1 then some FlagType.JAPAN
  else if v = 2 then some FlagType.NIGERIA
  else none

/-- The function `main` on the arguments `argv[1..]`: the text written to `std::cout`
(`exportImage()` and `std::endl`).  A `FlagType` that names no enumerator matches no `case`
of the `switch` of `illustrate`. -/
def main (args : List String) : Except Abort String :=
  match mainSelectors args with
  | Except.error e => Except.error e
  | Except.ok (sel, intIllustratorChoice) =>
    if intIllustratorChoice = 0 ∨ intIllustratorChoice = 1 ∨ intIllustratorChoice = 2 then
      match FlagIllustrator.mk0 with
      | Except.error e => Except.error e
      | Except.ok pIllustrator =>
        match
          (match castFlagType sel with
            | some eType => pIllustrator.illustrate eType
            | none => Except.ok pIllustrator)
        with
        | Except.error e => Except.error e
        | Except.ok drawn =>
          if intIllustratorChoice = 0 then
            Except.ok (ColourIllustrator.exportImage drawn ++ "\n")
          else if intIllustratorChoice = 1 then
            match GrayscaleIllustrator.exportImage drawn with
            | Except.error e => Except.error e
            | Except.ok text => Except.ok (text ++ "\n")
          else
            match BWIllustrator.exportImage drawn with
            | Except.error e => Except.error e
            | Except.ok text => Except.ok (text ++ "\n")
    else Except.error (Abort.exit ExitCode.ERROR_CONV)

/-! ## Objects on the free store

For the claims about copies that must not share storage, the grid of a `UJImage` and the
`UJImage` of a `FlagIllustrator` are held by reference: an address is the position of an
array, or of an object, in the free store, and `new` puts what it makes at the end. -/

/-- The fields of a `UJImage` object: `_image` is the address of its array of row
pointers. -/
structure UJImageObj where
  _image : Nat
  _rows : Int
  _cols : Int
  deriving DecidableEq, Repr

/-- The free store: the arrays made by `new UJPixel[n]`, the arrays made by
`new UJPixel*[n]` and the objects made by `new UJImage(...)`. -/
structure Heap where
  pix : List (List UJPixel)
  tab : List (List Nat)
  img : List UJImageObj
  deriving DecidableEq, Repr

/-- The pointer `_image[r]`. -/
def UJImageObj.rowAddr (o : UJImageObj) (H : Heap) (r : Int) : Nat :=
  (H.tab.getD o._image []).getD r.toNat 0

/-- The read `_image[r][c]` in the free store. -/
def UJImageObj.load (o : UJImageObj) (H : Heap) (r c : Int) : UJPixel :=
  (H.pix.getD (o.rowAddr H r) []).getD c.toNat indeterminate

/-- The write `_image[r][c] = p` in the free store. -/
def UJImageObj.store (o : UJImageObj) (H : Heap) (r c : Int) (p : UJPixel) : Heap :=
  { H with pix := H.pix.modify (fun row => row.set c.toNat p) (o.rowAddr H r) }

/-- The write `_image[r] = new UJPixel[n]` in the free store. -/
def UJImageObj.newRow (o : UJImageObj) (H : Heap) (r : Int) (n : Int) : Heap :=
  { H with
    pix := H.pix ++ [List.replicate n.toNat indeterminate],
    tab := H.tab.modify (fun t => t.set r.toNat H.pix.length) o._image }

/-- The member `UJImage::alloc` in the free store, run on a fresh object: the object and
the store after the call. -/
def UJImageObj.alloc (H : Heap) (intRows intCols : Int) : Except Abort (UJImageObj × Heap) :=
  if intRows < 0 then Except.error Abort.badArrayNewLength
  else
    let o : UJImageObj := { _image := H.tab.length, _rows := intRows, _cols := intCols }
    match
      forUpTo o._rows
        (fun r H =>
          if o._cols < 0 then Except.error Abort.badArrayNewLength
          else
            forUpTo o._cols
              (fun c H => Except.ok (o.store H r c ⟨255, 255, 255⟩))
              (o.newRow H r o._cols))
        { H with tab := H.tab ++ [List.replicate intRows.toNat 0] }
    with
    | Except.error e => Except.error e
    | Except.ok H' => Except.ok (o, H')

/-- The member `UJImage::getPixel` in the free store. -/
def UJImageObj.getPixel (o : UJImageObj) (H : Heap) (intRow intCol : Int) :
    Except Abort UJPixel :=
  match UJImage.enforceRange intRow 0 (o._rows - 1) with
  | Except.error e => Except.error e
  | Except.ok _ =>
    match UJImage.enforceRange intCol 0 (o._cols - 1) with
    | Except.error e => Except.error e
    | Except.ok _ => Except.ok (o.load H intRow intCol)

/-- The member `UJImage::setPixel` in the free store: the store after the call. -/
def UJImageObj.setPixel (o : UJImageObj) (H : Heap) (intRow intCol : Int) (recPixel : UJPixel) :
    Except Abort Heap :=
  match UJImage.enforceRange intRow 0 (o._rows - 1) with
  | Except.error e => Except.error e
  | Except.ok _ =>
    match UJImage.enforceRange intCol 0 (o._cols - 1) with
    | Except.error e => Except.error e
    | Except.ok _ =>
      match UJImage.enforceRange recPixel.intRed 0 255 with
      | Except.error e => Except.error e
      | Except.ok _ =>
        match UJImage.enforceRange recPixel.intGreen 0 255 with
        | Except.error e => Except.error e
        | Except.ok _ =>
          match UJImage.enforceRange recPixel.intBlue 0 255 with
          | Except.error e => Except.error e
          | Except.ok _ => Except.ok (o.store H intRow intCol recPixel)

/-- The member `UJImage::clone` in the free store, run on `o` with argument `objOriginal`. -/
def UJImageObj.clone (o : UJImageObj) (H : Heap) (objOriginal : UJImageObj) : Except Abort Heap :=
  if o._rows ≠ objOriginal._rows then Except.error Abort.assertFail
  else if o._cols ≠ objOriginal._cols then Except.error Abort.assertFail
  else
    forUpTo o._rows
      (fun r H =>
        forUpTo o._cols
          (fun c H => Except.ok (o.store H r c (objOriginal.load H r c)))
          H)
      H

/-- The copy constructor `UJImage::UJImage(const UJImage&)` in the free store: the new
object and the store after the call. -/
def UJImageObj.copy (H : Heap) (objOriginal : UJImageObj) : Except Abort (UJImageObj × Heap) :=
  match UJImageObj.alloc H objOriginal._rows objOriginal._cols with
  | Except.error e => Except.error e
  | Except.ok (o, H') =>
    match o.clone H' objOriginal with
    | Except.error e => Except.error e
    | Except.ok H'' => Except.ok (o, H'')

/-- The buffer that an object holds in the free store, as the value of its grid. -/
def UJImageObj.view (o : UJImageObj) (H : Heap) : UJImage :=
  { _image := (H.tab.getD o._image []).map (fun a => H.pix.getD a []),
    _rows := o._rows, _cols := o._cols }

/-- The object `o` is laid out in the store `H`: its array of row pointers is there, has
one entry for each row, and every entry is the address of an array of pixels. -/
def UJImageObj.Owned (o : UJImageObj) (H : Heap) : Prop :=
  o._image < H.tab.length ∧ (H.tab.getD o._image []).length = o._rows.toNat ∧
    ∀ a ∈ H.tab.getD o._image [], a < H.pix.length

instance (o : UJImageObj) (H : Heap) : Decidable (o.Owned H) := by
  unfold UJImageObj.Owned; infer_instance

/-- The fields of a `FlagIllustrator` object: `_image` is the address of its `UJImage`. -/
structure FlagObj where
  _image : Nat
  deriving DecidableEq, Repr

/-- The object `*_image` of a renderer. -/
def FlagObj.image (f : FlagObj) (H : Heap) : UJImageObj :=
  H.img.getD f._image ⟨0, 0, 0⟩

/-- The member `FlagIllustrator::alloc` in the free store: `_image = new UJImage(...)`. -/
def FlagObj.alloc (H : Heap) (intHeight intWidth : Int) : Except Abort (FlagObj × Heap) :=
  match UJImageObj.alloc H intHeight intWidth with
  | Except.error e => Except.error e
  | Except.ok (o, H') => Except.ok (⟨H'.img.length⟩, { H' with img := H'.img ++ [o] })

/-- The constructor `FlagIllustrator::FlagIllustrator(int, int)` in the free store. -/
def FlagObj.mk2 (H : Heap) (intHeight intWidth : Int) : Except Abort (FlagObj × Heap) :=
  match FlagIllustrator.enforceRange intHeight 0 10000 with
  | Except.error e => Except.error e
  | Except.ok _ =>
    match FlagIllustrator.enforceRange intWidth 0 10000 with
    | Except.error e => Except.error e
    | Except.ok _ => FlagObj.alloc H intHeight intWidth

/-- The member `FlagIllustrator::drawAuFlag` in the free store. -/
def FlagObj.drawAuFlag (f : FlagObj) (H : Heap) : Except Abort Heap :=
  let intThickness := Int.tdiv (f.image H)._rows 3
  let recRed : UJPixel := ⟨239, 51, 64⟩
  let recWhite : UJPixel := ⟨255, 255, 255⟩
  forUpTo (f.image H)._rows
    (fun r H =>
      forUpTo (f.image H)._cols
        (fun c H =>
          if r > intThickness ∧ r < intThickness * 2 then (f.image H).setPixel H r c recWhite
          else (f.image H).setPixel H r c recRed)
        H)
    H

/-- The member `FlagIllustrator::drawJPFlag` in the free store. -/
def FlagObj.drawJPFlag (f : FlagObj) (H : Heap) : Except Abort Heap :=
  let recRed : UJPixel := ⟨188, 0, 45⟩
  let recWhite : UJPixel := ⟨255, 255, 255⟩
  let dblRadius := Dbl.mul Dbl.pointThree (Dbl.ofInt (f.image H)._rows)
  let intCR := Int.tdiv (f.image H)._rows 2
  let intCC := Int.tdiv (f.image H)._cols 2
  forUpTo (f.image H)._rows
    (fun r H =>
      forUpTo (f.image H)._cols
        (fun c H =>
          if Dbl.le (FlagIllustrator.distance r intCR c intCC) dblRadius = true then
            (f.image H).setPixel H r c recRed
          else (f.image H).setPixel H r c recWhite)
        H)
    H

/-- The member `FlagIllustrator::drawNGFlag` in the free store. -/
def FlagObj.drawNGFlag (f : FlagObj) (H : Heap) : Except Abort Heap :=
  let intThickness := Int.tdiv (f.image H)._cols 3
  let recGreen : UJPixel := ⟨27, 115, 57⟩
  let recWhite : UJPixel := ⟨255, 255, 255⟩
  forUpTo (f.image H)._rows
    (fun r H =>
      forUpTo (f.image H)._cols
        (fun c H =>
          if c > intThickness ∧ c < intThickness * 2 then (f.image H).setPixel H r c recWhite
          else (f.image H).setPixel H r c recGreen)
        H)
    H

/-- The member `FlagIllustrator::illustrate` in the free store. -/
def FlagObj.illustrate (f : FlagObj) (H : Heap) (eType : FlagType) : Except Abort Heap :=
  match eType with
  | FlagType.AUSTRIA => f.drawAuFlag H
  | FlagType.JAPAN => f.drawJPFlag H
  | FlagType.NIGERIA => f.drawNGFlag H

/-- The member `FlagIllustrator::clone` in the free store, run on `f` with argument
`objOriginal`. -/
def FlagObj.clone (f : FlagObj) (H : Heap) (objOriginal : FlagObj) : Except Abort Heap :=
  if (f.image H)._rows ≠ (objOriginal.image H)._rows then Except.error Abort.assertFail
  else if (f.image H)._cols ≠ (objOriginal.image H)._cols then Except.error Abort.assertFail
  else
    forUpTo (f.image H)._rows
      (fun r H =>
        forUpTo (f.image H)._cols
          (fun c H =>
            match (objOriginal.image H).getPixel H r c with
            | Except.error e => Except.error e
            | Except.ok p => (f.image H).setPixel H r c p)
          H)
      H

/-- The copy constructor `FlagIllustrator::FlagIllustrator(const FlagIllustrator&)` in the
free store: the new object and the store after the call. -/
def FlagObj.copy (H : Heap) (objOriginal : FlagObj) : Except Abort (FlagObj × Heap) :=
  match FlagObj.mk2 H (objOriginal.image H)._rows (objOriginal.image H)._cols with
  | Except.error e => Except.error e
  | Except.ok (f, H') =>
    match f.clone H' objOriginal with
    | Except.error e => Except.error e
    | Except.ok H'' => Except.ok (f, H'')

/-- The renderer that an object holds in the free store, as a value. -/
def FlagObj.view (f : FlagObj) (H : Heap) : FlagIllustrator :=
  ⟨(f.image H).view H⟩

/-- The renderer `f` is laid out in the store `H`: its `UJImage` is there and is laid out
in `H`. -/
def FlagObj.Owned (f : FlagObj) (H : Heap) : Prop :=
  f._image < H.img.length ∧ (f.image H).Owned H

instance (f : FlagObj) (H : Heap) : Decidable (f.Owned H) := by
  unfold FlagObj.Owned; infer_instance

/-- The store `H'` has the row-pointer arrays and the objects of `H`, and the pixel arrays
of `H` at every address below `L`. -/
def Heap.AgreeBelow (L : Nat) (H H' : Heap) : Prop :=
  H'.tab = H.tab ∧ H'.img = H.img ∧ ∀ b, b < L → H'.pix[b]? = H.pix[b]?

/-- The store `H'` has the row-pointer arrays and the objects of `H`, and the pixel arrays
of `H` at every address from `L` on. -/
def Heap.AgreeFrom (L : Nat) (H H' : Heap) : Prop :=
  H'.tab = H.tab ∧ H'.img = H.img ∧ ∀ b, L ≤ b → H'.pix[b]? = H.pix[b]?

/-- The object `o` holds the same pixels in the stores `H` and `H'`: its grid is the same
and `getPixel` returns the same at every row and column. -/
def UJImageObj.SamePixels (o : UJImageObj) (H H' : Heap) : Prop :=
  o.view H' = o.view H ∧ ∀ r c, o.getPixel H' r c = o.getPixel H r c

/-- The renderer `f` holds the same pixels in the stores `H` and `H'`: it owns the same
`UJImage`, which holds the same pixels. -/
def FlagObj.SamePixels (f : FlagObj) (H H' : Heap) : Prop :=
  f.image H' = f.image H ∧ (f.image H).SamePixels H H'

/-- A store that holds one renderer, at address 0, whose 2×2 buffer has had
`setPixel(0, 1, (1,2,3))`. -/
def sampleHeap : Heap :=
  { pix := [[⟨255, 255, 255⟩, ⟨1, 2, 3⟩], [⟨255, 255, 255⟩, ⟨255, 255, 255⟩]],
    tab := [[0, 1]],
    img := [⟨0, 2, 2⟩] }

/-- The store `sampleHeap` after the copy construction of its renderer, and of the buffer
of its renderer. -/
def sampleHeapCopy : Heap :=
  { pix := [[⟨255, 255, 255⟩, ⟨1, 2, 3⟩], [⟨255, 255, 255⟩, ⟨255, 255, 255⟩],
      [⟨255, 255, 255⟩, ⟨1, 2, 3⟩], [⟨255, 255, 255⟩, ⟨255, 255, 255⟩]],
    tab := [[0, 1], [2, 3]],
    img := [⟨0, 2, 2⟩, ⟨1, 2, 2⟩] }

/-- The store `sampleHeapCopy` after pattern C has been drawn on the copied renderer: only
the rows of the copy have changed. -/
def sampleHeapDrawn : Heap :=
  { pix := [[⟨255, 255, 255⟩, ⟨1, 2, 3⟩], [⟨255, 255, 255⟩, ⟨255, 255, 255⟩],
      [⟨27, 115, 57⟩, ⟨27, 115, 57⟩], [⟨27, 115, 57⟩, ⟨27, 115, 57⟩]],
    tab := [[0, 1], [2, 3]],
    img := [⟨0, 2, 2⟩, ⟨1, 2, 2⟩] }

/-! ## Reading the colour export back -/

/-- The value of a digit character. -/
def digitValue (c : Char) : Nat := c.toNat - 48

/-- The number that a list of digit characters writes, after the digits of `a`. -/
def readDigits (a : Nat) (l : List Char) : Nat :=
  l.foldl (fun a c => 10 * a + digitValue c) a

/-- The text that the inner loop of `UJImage::toPPM` appends for one cell. -/
def cellText (p : UJPixel) : String :=
  decimal p.intRed ++ " " ++ decimal p.intGreen ++ " " ++ decimal p.intBlue ++ " "

/-- The cells that the loops of `UJImage::toPPM` visit, row by row. -/
def UJImage.cells (img : UJImage) : List (List UJPixel) :=
  (List.range img._rows.toNat).map (fun (r : Nat) =>
    (List.range img._cols.toNat).map (fun (c : Nat) => img.load r c))

/-! ## Sample objects -/

/-- A 7×2 buffer of arbitrary valid pixels. -/
def sampleImage : UJImage :=
  { _image := [[⟨1, 2, 3⟩, ⟨4, 5, 6⟩], [⟨7, 8, 9⟩, ⟨10, 11, 12⟩], [⟨0, 0, 0⟩, ⟨255, 255, 255⟩],
      [⟨13, 14, 15⟩, ⟨16, 17, 18⟩], [⟨255, 0, 0⟩, ⟨254, 255, 255⟩], [⟨19, 20, 21⟩, ⟨22, 23, 24⟩],
      [⟨25, 26, 27⟩, ⟨28, 29, 30⟩]],
    _rows := 7, _cols := 2 }

/-- A renderer that owns `sampleImage`. -/
def sampleFlag : FlagIllustrator := ⟨sampleImage⟩

/-- The white pixel `{255, 255, 255}`. -/
def white : UJPixel := ⟨255, 255, 255⟩

/-! ## Loop rules -/

/-- Invariant rule for `loopFrom`: a body that returns and re-establishes the invariant
on every index of the loop makes the loop return with the invariant at the end. -/
theorem loopFrom_inv {σ : Type} (body : Int → σ → Except Abort σ) (P : Int → σ → Prop) :
    ∀ (k : Nat) (i : Int) (s : σ), P i s →
      (∀ j t, i ≤ j → j < i + k → P j t → ∃ t', body j t = Except.ok t' ∧ P (j + 1) t') →
      ∃ s', loopFrom body k i s = Except.ok s' ∧ P (i + k) s' := by
  intro k
  induction k with
  | zero =>
    intro i s h _
    exact ⟨s, rfl, by simpa using h⟩
  | succ k ih =>
    intro i s h hb
    obtain ⟨t, ht, hP⟩ := hb i s (le_refl i) (by push_cast; omega) h
    obtain ⟨s', hs', hP'⟩ := ih (i + 1) t hP (fun j u h1 h2 hu =>
      hb j u (by omega) (by push_cast; omega) hu)
    refine ⟨s', ?_, ?_⟩
    · simp only [loopFrom, ht, hs']
    · have e : i + ((k + 1 : Nat) : Int) = i + 1 + (k : Int) := by push_cast; ring
      rw [e]; exact hP'

/-- Invariant rule for `forUpTo` with a non-negative bound. -/
theorem forUpTo_inv {σ : Type} (n : Int) (hn : 0 ≤ n) (body : Int → σ → Except Abort σ)
    (P : Int → σ → Prop) (s : σ) (h0 : P 0 s)
    (hb : ∀ j t, 0 ≤ j → j < n → P j t → ∃ t', body j t = Except.ok t' ∧ P (j + 1) t') :
    ∃ s', forUpTo n body s = Except.ok s' ∧ P n s' := by
  have hk : ((n.toNat : Nat) : Int) = n := Int.toNat_of_nonneg hn
  obtain ⟨s', h1, h2⟩ := loopFrom_inv body P n.toNat 0 s h0 (fun j t h1 h2 ht =>
    hb j t h1 (by omega) ht)
  refine ⟨s', h1, ?_⟩
  have e : (0 : Int) + ((n.toNat : Nat) : Int) = n := by omega
  rw [e] at h2; exact h2

/-- A `forUpTo` loop whose bound is not positive returns the state it was given. -/
theorem forUpTo_nonpos {σ : Type} (n : Int) (hn : n ≤ 0) (body : Int → σ → Except Abort σ)
    (s : σ) : forUpTo n body s = Except.ok s := by
  have : n.toNat = 0 := by omega
  simp [forUpTo, this, loopFrom]

/-! ## The grid of a buffer -/

theorem store_rows (img : UJImage) (r c : Int) (p : UJPixel) :
    (img.store r c p)._rows = img._rows := rfl

theorem store_cols (img : UJImage) (r c : Int) (p : UJPixel) :
    (img.store r c p)._cols = img._cols := rfl

theorem store_length (img : UJImage) (r c : Int) (p : UJPixel) :
    (img.store r c p)._image.length = img._image.length := by
  simp [UJImage.store]

theorem store_getElem? (img : UJImage) (r c : Int) (p : UJPixel) (i : Nat) :
    (img.store r c p)._image[i]? =
      (img._image[i]?).map (fun row => if r.toNat = i then row.set c.toNat p else row) := by
  simp [UJImage.store, List.getElem?_modify]

/-- The grid that `alloc` builds: `n` rows of `m` white pixels. -/
theorem alloc_row (R C r : Int) (hr0 : 0 ≤ r) (hrR : r < R) (hC : 0 ≤ C) (img : UJImage)
    (h1 : img._rows = R) (h2 : img._cols = C) (h3 : img._image.length = R.toNat)
    (h4 : ∀ i, i < r.toNat → img._image[i]? = some (List.replicate C.toNat white)) :
    ∃ t, forUpTo img._cols (fun c img => Except.ok (img.store r c ⟨255, 255, 255⟩))
          (img.newRow r img._cols) = Except.ok t ∧
      t._rows = R ∧ t._cols = C ∧ t._image.length = R.toNat ∧
      ∀ i, i < (r + 1).toNat → t._image[i]? = some (List.replicate C.toNat white) := by
  have hrlt : r.toNat < img._image.length := by omega
  obtain ⟨t, ht, q1, q2, q3, q4, row, q5, q6, q7⟩ := forUpTo_inv img._cols (by omega)
    (fun c img => Except.ok (img.store r c ⟨255, 255, 255⟩))
    (fun c t => t._rows = R ∧ t._cols = C ∧ t._image.length = R.toNat ∧
      (∀ i, i < r.toNat → t._image[i]? = some (List.replicate C.toNat white)) ∧
      ∃ row, t._image[r.toNat]? = some row ∧ row.length = C.toNat ∧
        ∀ j, j < c.toNat → row[j]? = some white)
    (img.newRow r img._cols)
    (by
      refine ⟨h1, h2, by simp [UJImage.newRow, h3], ?_, ?_⟩
      · intro i hi
        have : r.toNat ≠ i := by omega
        simp [UJImage.newRow, List.getElem?_set, this, h4 i hi]
      · refine ⟨List.replicate C.toNat indeterminate, ?_, by simp, ?_⟩
        · simp [UJImage.newRow, List.getElem?_set, hrlt, h2]
        · intro j hj; simp at hj)
    (by
      intro c t hc0 hcC ⟨q1, q2, q3, q4, row, q5, q6, q7⟩
      refine ⟨_, rfl, q1, q2, by rw [store_length]; exact q3, ?_, ?_⟩
      · intro i hi
        have : r.toNat ≠ i := by omega
        rw [store_getElem?, q4 i hi]; simp [this]
      · refine ⟨row.set c.toNat ⟨255, 255, 255⟩, ?_, by simpa using q6, ?_⟩
        · rw [store_getElem?, q5]; simp
        · intro j hj
          rw [List.getElem?_set]
          by_cases hjc : c.toNat = j
          · have : c.toNat < row.length := by omega
            simp [hjc ▸ this, hjc, white]
          · simp only [hjc, if_false]
            exact q7 j (by omega))
  rw [h2] at q7
  refine ⟨t, ht, q1, q2, q3, ?_⟩
  intro i hi
  by_cases hir : i = r.toNat
  · subst hir
    rw [q5]
    congr 1
    apply List.ext_getElem?
    intro j
    by_cases hj : j < C.toNat
    · rw [q7 j (by omega)]; simp [hj]
    · have : row.length ≤ j := by omega
      simp [List.getElem?_eq_none this, hj]
      omega
  · exact q4 i (by omega)

/-- Closed form of `alloc` on non-negative dimensions. -/
theorem alloc_eq (R C : Int) (hR : 0 ≤ R) (hC : 0 ≤ C) :
    UJImage.alloc R C = Except.ok
      { _image := List.replicate R.toNat (List.replicate C.toNat white), _rows := R, _cols := C } := by
  have hR' : ¬ R < 0 := by omega
  simp only [UJImage.alloc, hR', if_false]
  have key := forUpTo_inv R hR
    (fun r (img : UJImage) =>
        if img._cols < 0 then Except.error Abort.badArrayNewLength
        else
          forUpTo img._cols
            (fun c img => Except.ok (img.store r c ⟨255, 255, 255⟩))
            (img.newRow r img._cols))
    (fun r t => t._rows = R ∧ t._cols = C ∧ t._image.length = R.toNat ∧
      ∀ i, i < r.toNat → t._image[i]? = some (List.replicate C.toNat white))
    { _image := List.replicate R.toNat [], _rows := R, _cols := C }
    ⟨rfl, rfl, by simp, by intro i hi; simp at hi⟩
    (by
      intro r t hr0 hrR ⟨q1, q2, q3, q4⟩
      have hC' : ¬ t._cols < 0 := by omega
      simp only [hC', if_false]
      exact alloc_row R C r hr0 hrR hC t q1 q2 q3 q4)
  obtain ⟨t, ht, q1, q2, q3, q4⟩ := key
  rw [ht]
  congr 1
  obtain ⟨g, rows, cols⟩ := t
  simp only at q1 q2 q3 q4
  subst q1 q2
  simp only [UJImage.mk.injEq, and_true]
  apply List.ext_getElem?
  intro i
  by_cases hi : i < rows.toNat
  · rw [q4 i hi]; simp [hi]
  · have : g.length ≤ i := by omega
    simp [List.getElem?_eq_none this, hi]
    omega

theorem enforceRange_ok (v lo hi : Int) (h1 : lo ≤ v) (h2 : v ≤ hi) :
    UJImage.enforceRange v lo hi = Except.ok () := by
  have : ¬ (v < lo ∨ v > hi) := by omega
  simp [UJImage.enforceRange, this]

theorem enforceRange_error (v lo hi : Int) (h : v < lo ∨ hi < v) :
    UJImage.enforceRange v lo hi = Except.error (Abort.exit ExitCode.ERROR_RANGE) := by
  have : v < lo ∨ v > hi := by omega
  simp [UJImage.enforceRange, this]

/-- The two outcomes of `setPixel`, by the five range checks. -/
theorem setPixelExec_eq (img : UJImage) (r c : Int) (p : UJPixel) :
    img.setPixelExec r c p =
      if (r < 0 ∨ img._rows - 1 < r) ∨ (c < 0 ∨ img._cols - 1 < c) ∨
          (p.intRed < 0 ∨ 255 < p.intRed) ∨ (p.intGreen < 0 ∨ 255 < p.intGreen) ∨
          (p.intBlue < 0 ∨ 255 < p.intBlue)
      then (Except.error (Abort.exit ExitCode.ERROR_RANGE), img)
      else (Except.ok (), img.store r c p) := by
  by_cases h1 : r < 0 ∨ img._rows - 1 < r
  · simp [UJImage.setPixelExec, enforceRange_error _ _ _ h1, h1]
  rw [UJImage.setPixelExec, enforceRange_ok r 0 (img._rows - 1) (by omega) (by omega)]
  by_cases h2 : c < 0 ∨ img._cols - 1 < c
  · simp [enforceRange_error _ _ _ h2, h2]
  rw [enforceRange_ok c 0 (img._cols - 1) (by omega) (by omega)]
  by_cases h3 : p.intRed < 0 ∨ 255 < p.intRed
  · simp [enforceRange_error _ _ _ h3, h3]
  rw [enforceRange_ok p.intRed 0 255 (by omega) (by omega)]
  by_cases h4 : p.intGreen < 0 ∨ 255 < p.intGreen
  · simp [enforceRange_error _ _ _ h4, h4]
  rw [enforceRange_ok p.intGreen 0 255 (by omega) (by omega)]
  by_cases h5 : p.intBlue < 0 ∨ 255 < p.intBlue
  · simp [enforceRange_error _ _ _ h5, h5]
  rw [enforceRange_ok p.intBlue 0 255 (by omega) (by omega)]
  rw [if_neg (by tauto)]

/-- An in-bounds `getPixel` returns the cell. -/
theorem getPixel_ok (img : UJImage) (r c : Int) (hr0 : 0 ≤ r) (hr : r < img._rows)
    (hc0 : 0 ≤ c) (hc : c < img._cols) : img.getPixel r c = Except.ok (img.load r c) := by
  simp [UJImage.getPixel, enforceRange_ok r 0 (img._rows - 1) hr0 (by omega),
    enforceRange_ok c 0 (img._cols - 1) hc0 (by omega)]

/-- An in-bounds `setPixel` of a valid pixel returns, having written the cell. -/
theorem setPixel_ok (img : UJImage) (r c : Int) (p : UJPixel) (hr0 : 0 ≤ r)
    (hr : r < img._rows) (hc0 : 0 ≤ c) (hc : c < img._cols) (hp : p.Valid) :
    img.setPixel r c p = Except.ok (img.store r c p) := by
  obtain ⟨⟨a1, a2⟩, ⟨b1, b2⟩, ⟨c1, c2⟩⟩ := hp
  simp [UJImage.setPixel, UJImage.setPixelExec,
    enforceRange_ok r 0 (img._rows - 1) hr0 (by omega),
    enforceRange_ok c 0 (img._cols - 1) hc0 (by omega),
    enforceRange_ok _ 0 255 a1 a2, enforceRange_ok _ 0 255 b1 b2, enforceRange_ok _ 0 255 c1 c2]

/-- The invariant `WF` survives a write. -/
theorem store_WF (img : UJImage) (r c : Int) (p : UJPixel) (h : img.WF) :
    (img.store r c p).WF := by
  obtain ⟨h1, h2, h3⟩ := h
  refine ⟨h1, by rw [store_length]; exact h2, ?_⟩
  intro row hrow
  obtain ⟨i, hi, rfl⟩ := List.getElem_of_mem hrow
  have hi' : i < img._image.length := by rw [store_length] at hi; exact hi
  have e := store_getElem? img r c p i
  rw [List.getElem?_eq_getElem hi, List.getElem?_eq_getElem hi'] at e
  simp only [Option.map_some', Option.some.injEq] at e
  rw [e]
  have := h3 _ (List.getElem_mem hi')
  split <;> simpa using this

/-- Reading the cell just written, inside a well-formed buffer. -/
theorem load_store_same (img : UJImage) (r c : Int) (p : UJPixel) (h : img.WF)
    (hr0 : 0 ≤ r) (hr : r < img._rows) (hc0 : 0 ≤ c) (hc : c < img._cols) :
    (img.store r c p).load r c = p := by
  obtain ⟨h1, h2, h3⟩ := h
  have hi : r.toNat < img._image.length := by omega
  have hrow := (h3 _ (List.getElem_mem hi)).2
  simp only [UJImage.load, List.getD_eq_getElem?_getD, store_getElem?,
    List.getElem?_eq_getElem hi, Option.map_some', if_true, Option.getD_some]
  have hj : c.toNat < (img._image[r.toNat]).length := by omega
  simp [List.getElem?_set, hj]

/-- Reading another cell than the one written. -/
theorem load_store_other (img : UJImage) (r c r' c' : Int) (p : UJPixel)
    (hr0 : 0 ≤ r) (hc0 : 0 ≤ c) (hr0' : 0 ≤ r') (hc0' : 0 ≤ c') (hne : r' ≠ r ∨ c' ≠ c) :
    (img.store r c p).load r' c' = img.load r' c' := by
  simp only [UJImage.load, List.getD_eq_getElem?_getD, store_getElem?]
  by_cases hrr : r.toNat = r'.toNat
  · have hcc : c.toNat ≠ c'.toNat := by omega
    cases hg : img._image[r'.toNat]? with
    | none => simp
    | some row => simp [hrr, List.getElem?_set, hcc]
  · cases hg : img._image[r'.toNat]? with
    | none => simp
    | some row => simp [hrr]

/-- The buffer built by `alloc` satisfies the representation invariant. -/
theorem alloc_WF (R C : Int) (hR : 0 ≤ R) (hC : 0 ≤ C) :
    UJImage.WF
      { _image := List.replicate R.toNat (List.replicate C.toNat white), _rows := R, _cols := C } := by
  refine ⟨hR, by simp, ?_⟩
  intro row hrow
  rw [List.eq_of_mem_replicate hrow]
  exact ⟨hC, by simp⟩

/-- Every cell of the grid built by `alloc` reads white. -/
theorem alloc_load (R C r c : Int) (hr0 : 0 ≤ r) (hr : r < R) (hc0 : 0 ≤ c) (hc : c < C) :
    UJImage.load
      { _image := List.replicate R.toNat (List.replicate C.toNat white), _rows := R, _cols := C }
      r c = white := by
  have h1 : r.toNat < R.toNat := by omega
  have h2 : c.toNat < C.toNat := by omega
  simp [UJImage.load, List.getElem?_replicate, h1, h2]

/-- An in-bounds `put` of a valid pixel returns, having written the cell. -/
theorem put_ok (f : FlagIllustrator) (r c : Int) (p : UJPixel) (hr0 : 0 ≤ r)
    (hr : r < f._image._rows) (hc0 : 0 ≤ c) (hc : c < f._image._cols) (hp : p.Valid) :
    f.put r c p = Except.ok ⟨f._image.store r c p⟩ := by
  simp [FlagIllustrator.put, setPixel_ok f._image r c p hr0 hr hc0 hc hp]

/-- One row of a fill, for a state `g` that holds the buffer `get g`: the loop over the
columns of row `r` whose step writes `col r c` at cell `(r, c)` keeps the rows above as
they are and completes row `r`. -/
theorem grid_fill_row {σ : Type} (get : σ → UJImage) (H W r : Int) (hr0 : 0 ≤ r) (hr : r < H)
    (col : Int → Int → UJPixel) (step : Int → Int → σ → Except Abort σ)
    (hstep : ∀ r c g, 0 ≤ r → r < H → 0 ≤ c → c < W → (get g)._rows = H → (get g)._cols = W →
      ∃ g', step r c g = Except.ok g' ∧ get g' = (get g).store r c (col r c))
    (f : σ) (h1 : (get f)._rows = H) (h2 : (get f)._cols = W) (h3 : (get f).WF)
    (h4 : ∀ r' c', 0 ≤ r' → r' < r → 0 ≤ c' → c' < W → (get f).load r' c' = col r' c') :
    ∃ f', forUpTo W (fun c g => step r c g) f = Except.ok f' ∧
      (get f')._rows = H ∧ (get f')._cols = W ∧ (get f').WF ∧
      ∀ r' c', 0 ≤ r' → r' < r + 1 → 0 ≤ c' → c' < W →
        (get f').load r' c' = col r' c' := by
  by_cases hW : W ≤ 0
  · refine ⟨f, forUpTo_nonpos _ hW _ _, h1, h2, h3, ?_⟩
    intro r' c' _ _ hc0 hc; omega
  have key := forUpTo_inv W (by omega)
    (fun c g => step r c g)
    (fun c f' => (get f')._rows = H ∧ (get f')._cols = W ∧ (get f').WF ∧
      (∀ r' c', 0 ≤ r' → r' < r → 0 ≤ c' → c' < W → (get f').load r' c' = col r' c') ∧
      ∀ c', 0 ≤ c' → c' < c → (get f').load r c' = col r c')
    f ⟨h1, h2, h3, h4, by intro c' a b; omega⟩
    (by
      intro c t hc0 hcW ⟨q1, q2, q3, q4, q5⟩
      obtain ⟨t', ht', e⟩ := hstep r c t hr0 hr hc0 hcW q1 q2
      refine ⟨t', ht', ?_⟩
      beta_reduce
      rw [e]
      refine ⟨q1, q2, store_WF _ _ _ _ q3, ?_, ?_⟩
      · intro r' c' a b c0 d
        rw [load_store_other _ r c r' c' _ hr0 hc0 a c0 (Or.inl (by omega))]
        exact q4 r' c' a b c0 d
      · intro c' a b
        by_cases hcc : c' = c
        · subst hcc
          exact load_store_same _ r c' _ q3 hr0 (by omega) hc0 (by omega)
        · rw [load_store_other _ r c r c' _ hr0 hc0 hr0 a (Or.inr hcc)]
          exact q5 c' a (by omega))
  obtain ⟨f', hf', q1, q2, q3, q4, q5⟩ := key
  refine ⟨f', hf', q1, q2, q3, ?_⟩
  intro r' c' a b c0 d
  by_cases hrr : r' = r
  · subst hrr
    exact q5 c' c0 d
  · exact q4 r' c' a (by omega) c0 d

/-- A fill, for a state `g` that holds the buffer `get g` and bounds its inner loop by
`wd g`, the width of that buffer: the two nested loops whose step writes `col r c` at cell
`(r, c)` return, keep the dimensions and the invariant, and leave `col r c` in every cell. -/
theorem grid_fill {σ : Type} (get : σ → UJImage) (wd : σ → Int)
    (hwd : ∀ g, wd g = (get g)._cols) (f : σ) (hwf : (get f).WF)
    (col : Int → Int → UJPixel) (step : Int → Int → σ → Except Abort σ)
    (hstep : ∀ r c g, 0 ≤ r → r < (get f)._rows → 0 ≤ c → c < (get f)._cols →
      (get g)._rows = (get f)._rows → (get g)._cols = (get f)._cols →
      ∃ g', step r c g = Except.ok g' ∧ get g' = (get g).store r c (col r c)) :
    ∃ f', forUpTo (get f)._rows
        (fun r g => forUpTo (wd g) (fun c g => step r c g) g) f = Except.ok f' ∧
      (get f')._rows = (get f)._rows ∧ (get f')._cols = (get f)._cols ∧ (get f').WF ∧
      ∀ r c, 0 ≤ r → r < (get f)._rows → 0 ≤ c → c < (get f)._cols →
        (get f').load r c = col r c := by
  have key := forUpTo_inv (get f)._rows hwf.1
    (fun r g => forUpTo (wd g) (fun c g => step r c g) g)
    (fun r f' => (get f')._rows = (get f)._rows ∧ (get f')._cols = (get f)._cols ∧
      (get f').WF ∧
      ∀ r' c', 0 ≤ r' → r' < r → 0 ≤ c' → c' < (get f)._cols →
        (get f').load r' c' = col r' c')
    f ⟨rfl, rfl, hwf, by intro r' c' a b; omega⟩
    (by
      intro r t hr0 hrH ⟨q1, q2, q3, q4⟩
      beta_reduce
      rw [hwd t, q2]
      exact grid_fill_row get (get f)._rows (get f)._cols r hr0 hrH col step hstep t q1 q2 q3 q4)
  obtain ⟨f', hf', q1, q2, q3, q4⟩ := key
  exact ⟨f', hf', q1, q2, q3, fun r c a b c0 d => q4 r c a b c0 d⟩

/-- A fill through `put`: the two nested loops over the rows and the columns of a renderer
whose step is `put r c (col r c)` with valid pixels return, keep the dimensions and the
invariant, and leave `col r c` in every cell. -/
theorem fill_loops (f : FlagIllustrator) (hwf : f._image.WF) (col : Int → Int → UJPixel)
    (hv : ∀ r c, 0 ≤ r → r < f._image._rows → 0 ≤ c → c < f._image._cols → (col r c).Valid)
    (step : Int → Int → FlagIllustrator → Except Abort FlagIllustrator)
    (hstep : ∀ r c g, 0 ≤ r → r < f._image._rows → 0 ≤ c → c < f._image._cols →
      step r c g = g.put r c (col r c)) :
    ∃ f', forUpTo f._image.getHeight
        (fun r g => forUpTo g._image.getWidth (fun c g => step r c g) g) f = Except.ok f' ∧
      f'._image._rows = f._image._rows ∧ f'._image._cols = f._image._cols ∧ f'._image.WF ∧
      ∀ r c, 0 ≤ r → r < f._image._rows → 0 ≤ c → c < f._image._cols →
        f'._image.load r c = col r c :=
  grid_fill (fun g => g._image) (fun g => g._image.getWidth) (fun _ => rfl) f hwf col step
    (by
      intro r c g hr0 hr hc0 hc e1 e2
      beta_reduce at e1 e2 hr hc
      refine ⟨⟨g._image.store r c (col r c)⟩, ?_, rfl⟩
      rw [hstep r c g hr0 hr hc0 hc,
        put_ok g r c _ hr0 (by omega) hc0 (by omega) (hv r c hr0 hr hc0 hc)])

/-! ## Loops that append text -/

theorem join_cons (a : String) (l : List String) :
    String.join (a :: l) = a ++ String.join l := by
  apply String.ext
  simp [String.join_eq]

/-- A loop that appends `g j` at index `j` writes the texts of its indices in order. -/
theorem pureLoopFrom_append (g : Int → String) :
    ∀ (k : Nat) (i : Int) (s : String),
      pureLoopFrom (fun j t => t ++ g j) k i s =
        s ++ String.join ((List.range k).map (fun j => g (i + (j : Nat)))) := by
  intro k
  induction k with
  | zero => intro i s; simp [pureLoopFrom, String.join]
  | succ k ih =>
    intro i s
    rw [pureLoopFrom, ih, List.range_succ_eq_map, List.map_cons, join_cons,
      String.append_assoc, List.map_map]
    congr 3
    · simp
    · apply List.map_congr_left
      intro j _
      simp only [Function.comp_apply]
      congr 1
      push_cast
      ring

/-- A loop whose body, on the indices of the loop, returns the text with `g j` appended
returns the texts of its indices in order. -/
theorem loopFrom_append (body : Int → String → Except Abort String) (g : Int → String) :
    ∀ (k : Nat) (i : Int) (s : String),
      (∀ j t, i ≤ j → j < i + k → body j t = Except.ok (t ++ g j)) →
      loopFrom body k i s =
        Except.ok (s ++ String.join ((List.range k).map (fun j => g (i + (j : Nat))))) := by
  intro k
  induction k with
  | zero => intro i s _; simp [loopFrom, String.join]
  | succ k ih =>
    intro i s h
    rw [loopFrom, h i s (le_refl i) (by push_cast; omega)]
    simp only
    rw [ih (i + 1) (s ++ g i) (fun j t h1 h2 => h j t (by omega) (by push_cast; omega)),
      List.range_succ_eq_map, List.map_cons, join_cons, String.append_assoc, List.map_map]
    congr 4
    · simp
    · apply List.map_congr_left
      intro j _
      simp only [Function.comp_apply]
      congr 1
      push_cast
      ring

theorem text_P2 (x : String) : "P2" ++ ("\n" ++ x) = "P2\n" ++ x := by
  rw [← String.append_assoc]
  congr 1

theorem text_P1 (x : String) : "P1" ++ ("\n" ++ x) = "P1\n" ++ x := by
  rw [← String.append_assoc]
  congr 1

theorem text_P3 (x : String) : "P3" ++ ("\n" ++ x) = "P3\n" ++ x := by
  rw [← String.append_assoc]
  congr 1

theorem text_255 (x : String) : "\n" ++ (decimal 255 ++ ("\n" ++ x)) = "\n255\n" ++ x := by
  rw [← String.append_assoc, ← String.append_assoc]
  congr 1

theorem text_3_2 (x : String) :
    "P3\n" ++ (decimal 3 ++ (" " ++ (decimal 2 ++ ("\n255\n" ++ x)))) = "P3\n3 2\n255\n" ++ x := by
  rw [← String.append_assoc, ← String.append_assoc, ← String.append_assoc,
    ← String.append_assoc]
  congr 1

/-- The two nested loops of a text export that reads each cell through `getPixel` and
appends its token and a space, ending each row with a newline: they return the header
followed by the rows in order. -/
theorem export_grid (img : UJImage) (tok : UJPixel → String) (hdr : String) :
    forUpTo img.getHeight
      (fun r ss =>
        match
          forUpTo img.getWidth
            (fun c ss =>
              match img.getPixel r c with
              | Except.error e => Except.error e
              | Except.ok p => Except.ok (ss ++ tok p ++ " "))
            ss
        with
        | Except.error e => Except.error e
        | Except.ok ss => Except.ok (ss ++ "\n"))
      hdr =
    Except.ok (hdr ++ String.join ((List.range img.getHeight.toNat).map (fun (r : Nat) =>
      String.join ((List.range img.getWidth.toNat).map (fun (c : Nat) =>
        tok (img.load r c) ++ " ")) ++ "\n"))) := by
  simp only [UJImage.getHeight, UJImage.getWidth]
  rw [forUpTo, loopFrom_append _ (fun r =>
      String.join ((List.range img._cols.toNat).map (fun (c : Nat) =>
        tok (img.load r c) ++ " ")) ++ "\n")]
  · simp only [zero_add]
  · intro r t hr0 hr
    have hr' : r < img._rows := by omega
    rw [forUpTo, loopFrom_append _ (fun c => tok (img.load r c) ++ " ")]
    · simp only [zero_add, String.append_assoc]
    · intro c u hc0 hc
      rw [getPixel_ok img r c hr0 hr' hc0 (by omega)]
      simp only [String.append_assoc]

/-- The bit that the binary export writes for a pixel. -/
theorem bit_text (p : UJPixel) :
    decimal (if BWIllustrator.isWhite p = true then 0 else 1) =
      if p = ⟨255, 255, 255⟩ then "0" else "1" := by
  obtain ⟨a, b, c⟩ := p
  by_cases h : a = 255 ∧ b = 255 ∧ c = 255
  · obtain ⟨rfl, rfl, rfl⟩ := h
    decide
  · have h1 : BWIllustrator.isWhite ⟨a, b, c⟩ = false := by
      simp only [BWIllustrator.isWhite, Bool.and_eq_false_imp, Bool.and_eq_true,
        decide_eq_true_eq, decide_eq_false_iff_not]
      tauto
    have h2 : ¬ ((⟨a, b, c⟩ : UJPixel) = ⟨255, 255, 255⟩) := by
      intro e
      injection e with e1 e2 e3
      exact h ⟨e1, e2, e3⟩
    rw [h1, if_neg h2]
    decide

/-- A well-formed buffer with a row has a non-negative width. -/
theorem WF_cols_nonneg (img : UJImage) (h : img.WF) (hr : 0 < img._rows) : 0 ≤ img._cols := by
  obtain ⟨_, h2, h3⟩ := h
  have hi : 0 < img._image.length := by omega
  exact (h3 _ (List.getElem_mem hi)).1

/-- In a well-formed buffer of valid pixels every in-bounds cell reads a valid pixel. -/
theorem load_valid (img : UJImage) (h : img.WF) (hv : img.ValidPixels) (r c : Int)
    (hr0 : 0 ≤ r) (hr : r < img._rows) (hc0 : 0 ≤ c) (hc : c < img._cols) :
    (img.load r c).Valid := by
  obtain ⟨_, h2, h3⟩ := h
  have hi : r.toNat < img._image.length := by omega
  have hrow := (h3 _ (List.getElem_mem hi)).2
  have hj : c.toNat < (img._image[r.toNat]).length := by omega
  have e : img.load r c = (img._image[r.toNat])[c.toNat] := by
    simp [UJImage.load, List.getElem?_eq_getElem hi, List.getElem?_eq_getElem hj]
  rw [e]
  exact hv _ (List.getElem_mem hi) _ (List.getElem_mem hj)

/-- The constructor `UJImage(rows, cols)` on the dimensions of a well-formed buffer. -/
theorem mk2_of_WF (X : UJImage) (h : X.WF) :
    ∃ img, UJImage.mk2 X._rows X._cols = Except.ok img ∧
      img._rows = X._rows ∧ img._cols = X._cols ∧ img.WF ∧
      ∀ r c, 0 ≤ r → r < X._rows → 0 ≤ c → c < X._cols → img.load r c = white := by
  by_cases hr : 0 < X._rows
  · have hc := WF_cols_nonneg X h hr
    exact ⟨_, alloc_eq _ _ h.1 hc, rfl, rfl, alloc_WF _ _ h.1 hc,
      fun r c a b c0 d => alloc_load _ _ r c a b c0 d⟩
  · have h0 : X._rows = 0 := by have := h.1; omega
    refine ⟨⟨[], 0, X._cols⟩, ?_, h0.symm, rfl, ⟨le_refl _, rfl, by simp⟩, ?_⟩
    · rw [UJImage.mk2, h0]
      simp [UJImage.alloc, forUpTo, loopFrom]
    · intro r c a b; omega

/-- The member `UJImage::clone` on a well-formed buffer of the dimensions of the original:
no assertion fails and every cell is copied. -/
theorem clone_ok (img X : UJImage) (hwf : img.WF) (h1 : img._rows = X._rows)
    (h2 : img._cols = X._cols) :
    ∃ Y, img.clone X = Except.ok Y ∧ Y._rows = X._rows ∧ Y._cols = X._cols ∧ Y.WF ∧
      ∀ r c, 0 ≤ r → r < X._rows → 0 ≤ c → c < X._cols → Y.load r c = X.load r c := by
  have hne1 : ¬ img._rows ≠ X._rows := by simp [h1]
  have hne2 : ¬ img._cols ≠ X._cols := by simp [h2]
  simp only [UJImage.clone, hne1, hne2, if_false]
  obtain ⟨Y, hY, q1, q2, q3, q4⟩ := grid_fill (fun g : UJImage => g) (fun g => g._cols)
    (fun _ => rfl) img hwf (fun r c => X.load r c)
    (fun r c g => Except.ok (g.store r c (X.load r c)))
    (by intro r c g _ _ _ _ _ _; exact ⟨_, rfl, rfl⟩)
  refine ⟨Y, hY, by rw [q1, h1], by rw [q2, h2], q3, ?_⟩
  intro r c a b c0 d
  exact q4 r c a (by rw [h1]; exact b) c0 (by rw [h2]; exact d)

/-- The member `FlagIllustrator::clone` on a well-formed renderer of the dimensions of the
original, whose pixels are valid: no assertion fails, no range check fails and every cell
is copied. -/
theorem flag_clone_ok (f X : FlagIllustrator) (hwf : f._image.WF)
    (h1 : f._image._rows = X._image._rows) (h2 : f._image._cols = X._image._cols)
    (hX : X._image.WF) (hv : X._image.ValidPixels) :
    ∃ Y, f.clone X = Except.ok Y ∧ Y._image._rows = X._image._rows ∧
      Y._image._cols = X._image._cols ∧ Y._image.WF ∧
      ∀ r c, 0 ≤ r → r < X._image._rows → 0 ≤ c → c < X._image._cols →
        Y._image.load r c = X._image.load r c := by
  have hne1 : ¬ f._image.getHeight ≠ X._image.getHeight := by
    simp [UJImage.getHeight, h1]
  have hne2 : ¬ f._image.getWidth ≠ X._image.getWidth := by
    simp [UJImage.getWidth, h2]
  simp only [FlagIllustrator.clone, hne1, hne2, if_false]
  obtain ⟨Y, hY, q1, q2, q3, q4⟩ := fill_loops f hwf (fun r c => X._image.load r c)
    (by
      intro r c a b c0 d
      exact load_valid _ hX hv r c a (by rw [← h1]; exact b) c0 (by rw [← h2]; exact d))
    (fun r c g =>
      match X._image.getPixel r c with
      | Except.error e => Except.error e
      | Except.ok p => g.put r c p)
    (by
      intro r c g a b c0 d
      beta_reduce
      rw [getPixel_ok _ r c a (by rw [← h1]; exact b) c0 (by rw [← h2]; exact d)])
  refine ⟨Y, hY, by rw [q1, h1], by rw [q2, h2], q3, ?_⟩
  intro r c a b c0 d
  exact q4 r c a (by rw [h1]; exact b) c0 (by rw [h2]; exact d)

/-! ## Double-precision arithmetic: binary digits and integer square root -/

theorem bitLenFrom_spec (n : Nat) :
    ∀ (fuel k : Nat), (∀ j, j < k → 2 ^ j ≤ n) → n < 2 ^ (k + fuel) →
      n < 2 ^ bitLenFrom n fuel k ∧ ∀ j, j < bitLenFrom n fuel k → 2 ^ j ≤ n := by
  intro fuel
  induction fuel with
  | zero => intro k h1 h2; exact ⟨by simpa [bitLenFrom] using h2, by simpa [bitLenFrom] using h1⟩
  | succ fuel ih =>
    intro k h1 h2
    by_cases h : n < 2 ^ k
    · rw [bitLenFrom, if_pos h]
      exact ⟨h, h1⟩
    · rw [bitLenFrom, if_neg h]
      apply ih (k + 1)
      · intro j hj
        by_cases hjk : j = k
        · subst hjk; omega
        · exact h1 j (by omega)
      · have e : k + 1 + fuel = k + (fuel + 1) := by omega
        rw [e]; exact h2

/-- The value `bitLen n` is the least `k` with `n < 2 ^ k`. -/
theorem bitLen_spec (n : Nat) : n < 2 ^ bitLen n ∧ ∀ j, j < bitLen n → 2 ^ j ≤ n :=
  bitLenFrom_spec n n 0 (by intro j hj; omega) (by simpa using Nat.lt_two_pow n)

theorem bitLen_le_of_lt (n k : Nat) (h : n < 2 ^ k) : bitLen n ≤ k := by
  by_contra hc
  have := (bitLen_spec n).2 k (by omega)
  omega

theorem bitLen_mono (m n : Nat) (h : m ≤ n) : bitLen m ≤ bitLen n :=
  bitLen_le_of_lt m _ (lt_of_le_of_lt h (bitLen_spec n).1)

theorem isqrtBits_spec (n : Nat) :
    ∀ (b r : Nat), r ^ 2 ≤ n → n < (r + 2 ^ b) ^ 2 →
      isqrtBits n b r ^ 2 ≤ n ∧ n < (isqrtBits n b r + 1) ^ 2 := by
  intro b
  induction b with
  | zero => intro r h1 h2; exact ⟨by simpa [isqrtBits] using h1, by simpa [isqrtBits] using h2⟩
  | succ b ih =>
    intro r h1 h2
    by_cases h : (r + 2 ^ b) ^ 2 ≤ n
    · rw [isqrtBits, if_pos h]
      apply ih _ h
      have e : r + 2 ^ b + 2 ^ b = r + 2 ^ (b + 1) := by rw [pow_succ]; omega
      rw [e]; exact h2
    · rw [isqrtBits, if_neg h]
      exact ih r h1 (by omega)

/-- The value `isqrt n` is the integer square root of `n`. -/
theorem isqrt_spec (n : Nat) : isqrt n ^ 2 ≤ n ∧ n < (isqrt n + 1) ^ 2 := by
  apply isqrtBits_spec
  · simp
  · have h1 := (bitLen_spec n).1
    have h2 : 2 ^ bitLen n ≤ (2 ^ ((bitLen n + 1) / 2)) ^ 2 := by
      rw [← pow_mul]
      exact Nat.pow_le_pow_right (by decide) (by omega)
    simpa using lt_of_lt_of_le h1 h2

theorem isqrt_mono (m n : Nat) (h : m ≤ n) : isqrt m ≤ isqrt n := by
  by_contra hc
  have h1 := (isqrt_spec m).1
  have h2 := (isqrt_spec n).2
  have h3 : (isqrt n + 1) ^ 2 ≤ isqrt m ^ 2 := Nat.pow_le_pow_left (by omega) 2
  omega

/-! ## Double-precision arithmetic: rounding -/

theorem round_eq (m : Nat) (sticky : Bool) (e : Int) :
    Dbl.round m sticky e = ⟨roundMant m sticky, e + roundShift m⟩ := by
  simp only [roundMant, roundShift, Dbl.round]
  split_ifs with h1 h2 <;> simp [h1]

/-- A number of at most 53 bits is kept as it is. -/
theorem roundNat_exact (m : Nat) (sticky : Bool) (h : m < 2 ^ 53) : roundNat m sticky = m := by
  have hb : bitLen m - 53 = 0 := by have := bitLen_le_of_lt m 53 h; omega
  simp [roundNat, roundMant, roundShift, Dbl.round, hb]

/-- The shape of a rounding: either nothing is dropped, or `m` has `53 + s` bits with
`s > 0` and the result is the multiple of `2 ^ s` just below or just above `m`. -/
theorem roundNat_cases (m : Nat) (sticky : Bool) :
    (roundShift m = 0 ∧ roundNat m sticky = m) ∨
    (0 < roundShift m ∧ 2 ^ (52 + roundShift m) ≤ m ∧ m < 2 ^ (53 + roundShift m) ∧
      (roundNat m sticky = m / 2 ^ roundShift m * 2 ^ roundShift m ∨
       roundNat m sticky = (m / 2 ^ roundShift m + 1) * 2 ^ roundShift m)) := by
  by_cases hs : roundShift m = 0
  · left
    refine ⟨hs, ?_⟩
    simp only [roundShift] at hs
    simp [roundNat, roundMant, roundShift, Dbl.round, hs]
  · right
    have hs' : bitLen m - 53 ≠ 0 := hs
    have hb := bitLen_spec m
    have e1 : 53 + roundShift m = bitLen m := by simp only [roundShift]; omega
    refine ⟨by omega, ?_, by rw [e1]; exact hb.1, ?_⟩
    · exact hb.2 _ (by simp only [roundShift]; omega)
    · simp only [roundNat, roundMant, Dbl.round, hs', if_false]
      split_ifs
      · right; rfl
      · left; rfl

/-- Rounding moves a number up by at most one part in `2 ^ 52`. -/
theorem roundNat_upper (m : Nat) (sticky : Bool) :
    2 ^ 52 * roundNat m sticky ≤ (2 ^ 52 + 1) * m := by
  rcases roundNat_cases m sticky with ⟨_, h⟩ | ⟨_, h1, _, h | h⟩
  · rw [h]; exact Nat.mul_le_mul_right m (by decide)
  · rw [h]
    have := Nat.div_mul_le_self m (2 ^ roundShift m)
    calc 2 ^ 52 * (m / 2 ^ roundShift m * 2 ^ roundShift m) ≤ 2 ^ 52 * m :=
          Nat.mul_le_mul_left _ this
      _ ≤ (2 ^ 52 + 1) * m := Nat.mul_le_mul_right m (by decide)
  · rw [h]
    have h2 := Nat.div_mul_le_self m (2 ^ roundShift m)
    have h3 : 2 ^ 52 * 2 ^ roundShift m ≤ m := by rw [← pow_add]; exact h1
    calc 2 ^ 52 * ((m / 2 ^ roundShift m + 1) * 2 ^ roundShift m)
        = 2 ^ 52 * (m / 2 ^ roundShift m * 2 ^ roundShift m) + 2 ^ 52 * 2 ^ roundShift m := by
          ring
      _ ≤ 2 ^ 52 * m + m := Nat.add_le_add (Nat.mul_le_mul_left _ h2) h3
      _ = (2 ^ 52 + 1) * m := by ring

/-- Rounding moves a number down by at most one part in `2 ^ 52`. -/
theorem roundNat_lower (m : Nat) (sticky : Bool) :
    (2 ^ 52 - 1) * m ≤ 2 ^ 52 * roundNat m sticky := by
  have key : ∀ x : Nat, m ≤ x + m / 2 ^ 52 → (2 ^ 52 - 1) * m ≤ 2 ^ 52 * x := by
    intro x hx
    have := Nat.div_mul_le_self m (2 ^ 52)
    have e : (2 : Nat) ^ 52 = 4503599627370496 := by norm_num
    rw [e] at this hx ⊢
    omega
  apply key
  rcases roundNat_cases m sticky with ⟨_, h⟩ | ⟨_, h1, _, h | h⟩
  · rw [h]; omega
  · rw [h]
    have h3 : 2 ^ roundShift m ≤ m / 2 ^ 52 := by
      rw [Nat.le_div_iff_mul_le (by positivity), ← pow_add, add_comm]; exact h1
    have h4 := Nat.div_add_mod m (2 ^ roundShift m)
    have h5 := Nat.mod_lt m (show 0 < 2 ^ roundShift m by positivity)
    have h6 : m / 2 ^ roundShift m * 2 ^ roundShift m = 2 ^ roundShift m * (m / 2 ^ roundShift m) :=
      Nat.mul_comm _ _
    omega
  · rw [h]
    have h4 := Nat.div_add_mod m (2 ^ roundShift m)
    have h5 := Nat.mod_lt m (show 0 < 2 ^ roundShift m by positivity)
    have h6 : (m / 2 ^ roundShift m + 1) * 2 ^ roundShift m =
        2 ^ roundShift m * (m / 2 ^ roundShift m) + 2 ^ roundShift m := by ring
    omega

/-! ## Double-precision arithmetic: the disc test -/

/-- Strictly inside the disc: the rounded distance is at most the rounded radius. -/
theorem sqrtKey_le_radKey (h D : Nat) (hh : h ≤ 10000) (hD : 100 * D < 9 * h ^ 2) :
    sqrtKey D ≤ radKey h := by
  have hr := (isqrt_spec (D * 2 ^ 108)).1
  have up := roundNat_upper (isqrt (D * 2 ^ 108))
    (decide (isqrt (D * 2 ^ 108) * isqrt (D * 2 ^ 108) ≠ D * 2 ^ 108))
  have lo := roundNat_lower (5404319552844595 * h) false
  rw [← sqrtKey] at up
  rw [← radKey] at lo
  generalize isqrt (D * 2 ^ 108) = r at hr up
  have hx : h ^ 2 ≤ 100000000 := by
    calc h ^ 2 ≤ 10000 ^ 2 := Nat.pow_le_pow_left hh 2
      _ = 100000000 := by norm_num
  have key : 4503599627370497 * r ≤ 4503599627370495 * (5404319552844595 * h) := by
    apply (Nat.pow_le_pow_iff_left (two_ne_zero)).1
    apply Nat.le_of_mul_le_mul_left _ (show 0 < 100 by decide)
    have e1 : 100 * (4503599627370497 * r) ^ 2 = 4503599627370497 ^ 2 * (100 * r ^ 2) := by ring
    have e2 : 100 * (4503599627370495 * (5404319552844595 * h)) ^ 2 =
        4503599627370495 ^ 2 * (54043195528445950 ^ 2 * h ^ 2) := by ring
    rw [e1, e2]
    generalize h ^ 2 = x at hx hD
    generalize r ^ 2 = rr at hr
    norm_num at hr ⊢
    omega
  norm_num at up lo
  omega


/-- Strictly outside the disc: the rounded distance exceeds the rounded radius. -/
theorem radKey_lt_sqrtKey (h D : Nat) (hh : h ≤ 10000) (hD : 9 * h ^ 2 < 100 * D) :
    radKey h < sqrtKey D := by
  have hr := (isqrt_spec (D * 2 ^ 108)).2
  have lo := roundNat_lower (isqrt (D * 2 ^ 108))
    (decide (isqrt (D * 2 ^ 108) * isqrt (D * 2 ^ 108) ≠ D * 2 ^ 108))
  have up := roundNat_upper (5404319552844595 * h) false
  rw [← sqrtKey] at lo
  rw [← radKey] at up
  generalize isqrt (D * 2 ^ 108) = r at hr lo
  have hx : h ^ 2 ≤ 100000000 := by
    calc h ^ 2 ≤ 10000 ^ 2 := Nat.pow_le_pow_left hh 2
      _ = 100000000 := by norm_num
  have key : 4503599627370497 * (5404319552844595 * h) + 4503599627370495
      < 4503599627370495 * (r + 1) := by
    apply (Nat.pow_lt_pow_iff_left (two_ne_zero)).1
    apply Nat.lt_of_mul_lt_mul_left (a := 100)
    have e1 : 100 * (4503599627370497 * (5404319552844595 * h) + 4503599627370495) ^ 2 =
        (4503599627370497 * 54043195528445950) ^ 2 * h ^ 2
          + 2 * (4503599627370497 * 54043195528445950) * 45035996273704950 * h
          + 45035996273704950 ^ 2 := by ring
    have e2 : 100 * (4503599627370495 * (r + 1)) ^ 2 =
        4503599627370495 ^ 2 * (100 * (r + 1) ^ 2) := by ring
    rw [e1, e2]
    generalize h ^ 2 = x at hx hD
    generalize (r + 1) ^ 2 = rr at hr
    norm_num at hr ⊢
    omega
  norm_num at up lo
  omega

theorem isqrt_sq (a : Nat) : isqrt (a ^ 2) = a := by
  have h1 := (isqrt_spec (a ^ 2)).1
  have h2 := (isqrt_spec (a ^ 2)).2
  rw [Nat.pow_le_pow_iff_left two_ne_zero] at h1
  rw [Nat.pow_lt_pow_iff_left two_ne_zero] at h2
  omega

theorem roundNat_rem (m : Nat) (sticky : Bool) (hs : 0 < roundShift m) :
    roundNat m sticky =
      if m % 2 ^ roundShift m > 2 ^ (roundShift m - 1) ∨
          (m % 2 ^ roundShift m = 2 ^ (roundShift m - 1) ∧
            (sticky = true ∨ m / 2 ^ roundShift m % 2 = 1))
      then (m / 2 ^ roundShift m + 1) * 2 ^ roundShift m
      else m / 2 ^ roundShift m * 2 ^ roundShift m := by
  have hs' : bitLen m - 53 ≠ 0 := by simp only [roundShift] at hs; omega
  simp only [roundNat, roundMant, roundShift, Dbl.round, hs', if_false]
  split_ifs <;> rfl

/-- On the circle itself the height is a multiple of ten. -/
theorem sq_case (h D : Nat) (hD : 100 * D = 9 * h ^ 2) : ∃ k, h = 10 * k ∧ D = 9 * k ^ 2 := by
  have h100 : 100 ∣ h ^ 2 :=
    Nat.Coprime.dvd_of_dvd_mul_left (by decide : Nat.Coprime 100 9) ⟨D, hD.symm⟩
  have h2 : 2 ∣ h := Nat.Prime.dvd_of_dvd_pow Nat.prime_two (Dvd.dvd.trans (by decide) h100)
  have h5 : 5 ∣ h := Nat.Prime.dvd_of_dvd_pow Nat.prime_five (Dvd.dvd.trans (by decide) h100)
  obtain ⟨k, hk⟩ := Nat.Coprime.mul_dvd_of_dvd_of_dvd (by decide : Nat.Coprime 2 5) h2 h5
  refine ⟨k, hk, ?_⟩
  subst hk
  have : 100 * D = 100 * (9 * k ^ 2) := by rw [hD]; ring
  exact Nat.eq_of_mul_eq_mul_left (by decide) this


/-- A multiple of `2 ^ 54` below `2 ^ 107` is representable. -/
theorem roundNat_multiple (a : Nat) (sticky : Bool) (ha : a < 2 ^ 53) :
    roundNat (a * 2 ^ 54) sticky = a * 2 ^ 54 := by
  rcases roundNat_cases (a * 2 ^ 54) sticky with ⟨_, h⟩ | ⟨hs, _, h2, _⟩
  · exact h
  · have hlt : a * 2 ^ 54 < 2 ^ 107 := by
      calc a * 2 ^ 54 < 2 ^ 53 * 2 ^ 54 := Nat.mul_lt_mul_of_pos_right ha (by positivity)
        _ = 2 ^ 107 := by norm_num
    have hs54 : roundShift (a * 2 ^ 54) ≤ 54 := by
      have := bitLen_le_of_lt _ 107 hlt
      simp only [roundShift]; omega
    have hdvd : 2 ^ roundShift (a * 2 ^ 54) ∣ a * 2 ^ 54 :=
      Dvd.dvd.mul_left (pow_dvd_pow 2 hs54) a
    have hrem : a * 2 ^ 54 % 2 ^ roundShift (a * 2 ^ 54) = 0 := Nat.mod_eq_zero_of_dvd hdvd
    have hpos : 0 < 2 ^ (roundShift (a * 2 ^ 54) - 1) := by positivity
    rw [roundNat_rem _ _ hs, hrem, if_neg (by omega)]
    exact Nat.div_mul_cancel hdvd

/-- The product `0.3 * (10 * k)` rounds to `3 * k` exactly. -/
theorem radKey_ten (k : Nat) (hk1 : 1 ≤ k) (hk : k ≤ 1000) :
    radKey (10 * k) = 3 * k * 2 ^ 54 := by
  have em : 5404319552844595 * (10 * k) = 3 * k * 2 ^ 54 - 2 * k := by norm_num; omega
  rw [radKey, em]
  generalize hm : 3 * k * 2 ^ 54 - 2 * k = m
  have hm53 : 2 ^ 53 ≤ m := by rw [← hm]; norm_num; omega
  have hm66 : m < 2 ^ 66 := by rw [← hm]; norm_num; omega
  have hs : 0 < roundShift m := by
    by_contra hc
    have h0 : bitLen m ≤ 53 := by simp only [roundShift] at hc; omega
    have h1 := (bitLen_spec m).1
    have h2 : 2 ^ bitLen m ≤ 2 ^ 53 := Nat.pow_le_pow_right (by decide) h0
    omega
  rcases roundNat_cases m false with ⟨h, _⟩ | ⟨_, h1, h2, _⟩
  · omega
  have hs14 : roundShift m < 14 := by
    have : 2 ^ (52 + roundShift m) < 2 ^ 66 := lt_of_le_of_lt h1 hm66
    have := (Nat.pow_lt_pow_iff_right (by decide : 1 < 2)).1 this
    omega
  obtain ⟨j, hj⟩ : ∃ j, roundShift m = j + 1 := ⟨roundShift m - 1, by omega⟩
  have hT : 2 ^ roundShift m = 2 * 2 ^ j := by rw [hj, pow_succ]; ring
  have hH : 2 ^ (roundShift m - 1) = 2 ^ j := by rw [hj]; rfl
  have h54 : (2 : Nat) ^ 54 = 2 ^ (54 - roundShift m) * 2 ^ roundShift m := by
    rw [← pow_add]; congr 1; omega
  have h52 : 2 ^ (52 + roundShift m) = 2 ^ 52 * 2 ^ roundShift m := pow_add 2 52 _
  have h53 : 2 ^ (53 + roundShift m) = 2 ^ 53 * 2 ^ roundShift m := pow_add 2 53 _
  rw [h52] at h1
  rw [h53] at h2
  have hQ : 3 * k * 2 ^ 54 = (3 * k * 2 ^ (54 - roundShift m)) * 2 ^ roundShift m := by
    rw [h54]; ring
  have hQ1 : 1 ≤ 3 * k * 2 ^ (54 - roundShift m) := by
    have : 0 < 2 ^ (54 - roundShift m) := by positivity
    nlinarith
  have hrem := roundNat_rem m false hs
  rw [hH] at hrem
  generalize 3 * k * 2 ^ (54 - roundShift m) = Q at hQ hQ1
  generalize 2 ^ roundShift m = T at hT h1 h2 hQ hrem
  generalize 2 ^ j = Hf at hT hrem
  have e54 : (2 : Nat) ^ 54 = 18014398509481984 := by norm_num
  have e53 : (2 : Nat) ^ 53 = 9007199254740992 := by norm_num
  rw [e53] at h2
  rw [e54] at hm
  have hT6 : 6 * k ≤ T := by omega
  have hQT : T ≤ Q * T := Nat.le_mul_of_pos_left _ hQ1
  have hTQ : T * (Q - 1) = Q * T - T := by rw [Nat.mul_sub, mul_one, mul_comm]
  have hdm : m = T * (Q - 1) + (T - 2 * k) := by omega
  have hlt : T - 2 * k < T := by omega
  have hdiv : m / T = Q - 1 := by
    rw [hdm, Nat.mul_add_div (by omega), Nat.div_eq_of_lt hlt]; rfl
  have hmod : m % T = T - 2 * k := by
    rw [hdm, Nat.mul_add_mod, Nat.mod_eq_of_lt hlt]
  rw [hrem, hmod, hdiv, if_pos (Or.inl (by omega)), e54]
  have : Q - 1 + 1 = Q := by omega
  rw [this]
  omega

/-- The comparison `distance <= dblRadius` of `drawJPFlag`, on the exact values: for a
height up to 10000 the rounded square root of `D` is at most the rounded `0.3 * h`
exactly when `√D ≤ 0.3 * h`. -/
theorem sqrtKey_le_iff (h D : Nat) (hh : h ≤ 10000) :
    sqrtKey D ≤ radKey h ↔ 100 * D ≤ 9 * h ^ 2 := by
  constructor
  · intro hle
    by_contra hc
    have := radKey_lt_sqrtKey h D hh (by omega)
    omega
  · intro hle
    rcases Nat.lt_or_eq_of_le hle with hlt | heq
    · exact sqrtKey_le_radKey h D hh hlt
    · obtain ⟨k, rfl, rfl⟩ := sq_case h D heq
      have hk : k ≤ 1000 := by omega
      have e1 : 9 * k ^ 2 * 2 ^ 108 = (3 * k * 2 ^ 54) ^ 2 := by ring
      have e2 : sqrtKey (9 * k ^ 2) = roundNat (3 * k * 2 ^ 54) false := by
        simp only [sqrtKey, e1, isqrt_sq]
        congr 1
        simp [pow_two]
      rw [e2, roundNat_multiple (3 * k) false (by norm_num; omega)]
      rcases Nat.eq_zero_or_pos k with rfl | hk1
      · simp
      · rw [radKey_ten k hk1 hk]

/-- Two roundings at the same exponent compare as their values do. -/
theorem le_round (m1 m2 : Nat) (s1 s2 : Bool) (e : Int) :
    Dbl.le (Dbl.round m1 s1 e) (Dbl.round m2 s2 e) = decide (roundNat m1 s1 ≤ roundNat m2 s2) := by
  rw [round_eq, round_eq]
  simp only [Dbl.le, roundNat]
  apply decide_eq_decide.2
  generalize roundShift m1 = a
  generalize roundShift m2 = b
  generalize roundMant m1 s1 = x
  generalize roundMant m2 s2 = y
  have hmin : min (e + (a : Int)) (e + (b : Int)) = e + ((min a b : Nat) : Int) := by
    rcases Nat.le_total a b with h | h
    · rw [min_eq_left (by omega), Nat.min_eq_left h]
    · rw [min_eq_right (by omega), Nat.min_eq_right h]
  have ea : (e + (a : Int) - (e + ((min a b : Nat) : Int))).toNat = a - min a b := by omega
  have eb : (e + (b : Int) - (e + ((min a b : Nat) : Int))).toNat = b - min a b := by omega
  rw [hmin, ea, eb]
  have pa : 2 ^ a = 2 ^ (a - min a b) * 2 ^ min a b := by
    rw [← pow_add]; congr 1; omega
  have pb : 2 ^ b = 2 ^ (b - min a b) * 2 ^ min a b := by
    rw [← pow_add]; congr 1; omega
  rw [pa, pb, ← mul_assoc, ← mul_assoc]
  exact (mul_le_mul_iff_of_pos_right (by positivity)).symm

/-- The value of `distance` on coordinates of the program: the correctly rounded square
root of the integer `(x2 - x1)² + (y2 - y1)²`. -/
theorem distance_eq (y1 y2 x1 x2 : Int)
    (hx : (x2 - x1) * (x2 - x1) ≤ 100000000) (hy : (y2 - y1) * (y2 - y1) ≤ 100000000) :
    FlagIllustrator.distance y1 y2 x1 x2 =
      Dbl.round (isqrt ((((x2 - x1) * (x2 - x1)).toNat + ((y2 - y1) * (y2 - y1)).toNat) * 2 ^ 108))
        (decide (isqrt ((((x2 - x1) * (x2 - x1)).toNat + ((y2 - y1) * (y2 - y1)).toNat) * 2 ^ 108)
          * isqrt ((((x2 - x1) * (x2 - x1)).toNat + ((y2 - y1) * (y2 - y1)).toNat) * 2 ^ 108)
          ≠ (((x2 - x1) * (x2 - x1)).toNat + ((y2 - y1) * (y2 - y1)).toNat) * 2 ^ 108))
        (-54) := by
  generalize hD : ((x2 - x1) * (x2 - x1)).toNat + ((y2 - y1) * (y2 - y1)).toNat = D
  have hD53 : D < 2 ^ 53 := by
    have : D ≤ 200000000 := by omega
    calc D ≤ 200000000 := this
      _ < 2 ^ 53 := by norm_num
  have hb : bitLen D - 53 = 0 := by have := bitLen_le_of_lt D 53 hD53; omega
  have hadd : Dbl.add (Dbl.powTwo (x2 - x1)) (Dbl.powTwo (y2 - y1)) = ⟨D, 0⟩ := by
    simp [Dbl.add, Dbl.powTwo, Dbl.round, hD, hb]
  rw [FlagIllustrator.distance, hadd]
  simp [Dbl.sqrt]

/-- The value of `0.3 * static_cast<double>(h)`. -/
theorem radius_eq (h : Int) :
    Dbl.mul Dbl.pointThree (Dbl.ofInt h) = Dbl.round (5404319552844595 * h.toNat) false (-54) := by
  simp [Dbl.mul, Dbl.pointThree, Dbl.ofInt]

/-- The disc test of `drawJPFlag` at a cell `(r, c)` of a buffer of height `h` and width
`w`, both at most 10000, is the exact test `100 * ((r - h/2)² + (c - w/2)²) ≤ 9 * h²`. -/
theorem disc_test (h w r c : Int) (hh : h ≤ 10000) (hw : w ≤ 10000)
    (hr0 : 0 ≤ r) (hr : r < h) (hc0 : 0 ≤ c) (hc : c < w) :
    Dbl.le (FlagIllustrator.distance r (Int.tdiv h 2) c (Int.tdiv w 2))
        (Dbl.mul Dbl.pointThree (Dbl.ofInt h)) = true ↔
      100 * ((r - h / 2) ^ 2 + (c - w / 2) ^ 2) ≤ 9 * h ^ 2 := by
  have eh : Int.tdiv h 2 = h / 2 := Int.tdiv_eq_ediv (by omega) (by decide)
  have ew : Int.tdiv w 2 = w / 2 := Int.tdiv_eq_ediv (by omega) (by decide)
  rw [eh, ew]
  have bx : (w / 2 - c) * (w / 2 - c) ≤ 100000000 := by
    have h1 : -10000 ≤ w / 2 - c := by omega
    have h2 : w / 2 - c ≤ 10000 := by omega
    nlinarith
  have by' : (h / 2 - r) * (h / 2 - r) ≤ 100000000 := by
    have h1 : -10000 ≤ h / 2 - r := by omega
    have h2 : h / 2 - r ≤ 10000 := by omega
    nlinarith
  rw [distance_eq r (h / 2) c (w / 2) bx by', radius_eq, le_round, decide_eq_true_eq,
    ← sqrtKey, ← radKey, sqrtKey_le_iff _ _ (by omega)]
  have nx : 0 ≤ (w / 2 - c) * (w / 2 - c) := mul_self_nonneg _
  have ny : 0 ≤ (h / 2 - r) * (h / 2 - r) := mul_self_nonneg _
  have hn : 0 ≤ h := by omega
  zify
  rw [Int.toNat_of_nonneg nx, Int.toNat_of_nonneg ny, Int.toNat_of_nonneg hn]
  have e : (w / 2 - c) * (w / 2 - c) + (h / 2 - r) * (h / 2 - r) =
      (r - h / 2) ^ 2 + (c - w / 2) ^ 2 := by ring
  rw [e]

/-! ## Image buffer: construction and bounds-checked access -/

/-- C1: for every `rows ≥ 0` and `cols ≥ 0` the constructor `UJImage(rows, cols)` returns a
buffer whose `getHeight()` is `rows`, whose `getWidth()` is `cols` and whose `getPixel(r, c)`
is `(255,255,255)` at every `0 ≤ r < rows`, `0 ≤ c < cols`; the default constructor returns
the 2×2 all-white buffer. -/
theorem C1_fresh_buffer_white (rows cols : Int) (hrows : 0 ≤ rows) (hcols : 0 ≤ cols) :
    (∃ img, UJImage.mk2 rows cols = Except.ok img ∧
      img.getHeight = rows ∧ img.getWidth = cols ∧
      ∀ r c, 0 ≤ r → r < rows → 0 ≤ c → c < cols →
        img.getPixel r c = Except.ok ⟨255, 255, 255⟩) ∧
    UJImage.mk0 = Except.ok
      { _image := [[⟨255, 255, 255⟩, ⟨255, 255, 255⟩], [⟨255, 255, 255⟩, ⟨255, 255, 255⟩]],
        _rows := 2, _cols := 2 } := by
  constructor
  · refine ⟨_, alloc_eq rows cols hrows hcols, rfl, rfl, ?_⟩
    intro r c hr0 hr hc0 hc
    rw [getPixel_ok _ r c hr0 hr hc0 hc, alloc_load rows cols r c hr0 hr hc0 hc]
    rfl
  · decide

/-- Witness of C1 at `rows = 2`, `cols = 3`. -/
theorem C1_fresh_buffer_white_witness :
    ∃ img, UJImage.mk2 2 3 = Except.ok img ∧
      img.getHeight = 2 ∧ img.getWidth = 3 ∧
      ∀ r c, 0 ≤ r → r < 2 → 0 ≤ c → c < 3 →
        img.getPixel r c = Except.ok ⟨255, 255, 255⟩ :=
  (C1_fresh_buffer_white 2 3 (by decide) (by decide)).1

/-- C2: `getPixel(r, c)` takes the range-error path exactly when `r` is outside
`[0, rows-1]` or `c` is outside `[0, cols-1]`; `setPixel(r, c, p)` takes it exactly when
`r` or `c` is outside those intervals or a channel of `p` is outside `[0,255]`; a
`setPixel` that takes the error path leaves the buffer as it found it (`getPixel` is
`const` and has no buffer to leave). -/
theorem C2_range_enforcement (img : UJImage) (r c : Int) (p : UJPixel) :
    (img.getPixel r c = Except.error (Abort.exit ExitCode.ERROR_RANGE) ↔
      (r < 0 ∨ img.getHeight - 1 < r) ∨ (c < 0 ∨ img.getWidth - 1 < c)) ∧
    (img.setPixel r c p = Except.error (Abort.exit ExitCode.ERROR_RANGE) ↔
      (r < 0 ∨ img.getHeight - 1 < r) ∨ (c < 0 ∨ img.getWidth - 1 < c) ∨
        (p.intRed < 0 ∨ 255 < p.intRed) ∨ (p.intGreen < 0 ∨ 255 < p.intGreen) ∨
        (p.intBlue < 0 ∨ 255 < p.intBlue)) ∧
    ((img.setPixelExec r c p).1 = (img.setPixel r c p).map (fun _ => ())) ∧
    (∀ e, (img.setPixelExec r c p).1 = Except.error e → (img.setPixelExec r c p).2 = img) := by
  simp only [UJImage.getHeight, UJImage.getWidth]
  refine ⟨?_, ?_, ?_, ?_⟩
  · by_cases h1 : r < 0 ∨ img._rows - 1 < r
    · simp [UJImage.getPixel, enforceRange_error _ _ _ h1, h1]
    · by_cases h2 : c < 0 ∨ img._cols - 1 < c
      · simp [UJImage.getPixel, enforceRange_ok r 0 (img._rows - 1) (by omega) (by omega),
          enforceRange_error _ _ _ h2, h2]
      · simp [UJImage.getPixel, enforceRange_ok r 0 (img._rows - 1) (by omega) (by omega),
          enforceRange_ok c 0 (img._cols - 1) (by omega) (by omega), h1, h2]
  · rw [UJImage.setPixel, setPixelExec_eq]
    split_ifs with h <;> simp [h]
  · rw [UJImage.setPixel, setPixelExec_eq]
    split_ifs with h <;> rfl
  · intro e
    rw [setPixelExec_eq]
    split_ifs with h <;> simp

/-- C3: on a well-formed buffer, `setPixel(r, c, p)` at an in-bounds cell with a pixel whose
channels are in `[0,255]` returns; afterwards `getPixel(r, c)` is `p`, `getPixel` at every
other in-bounds cell is what it was, and `getHeight()` and `getWidth()` are unchanged. -/
theorem C3_setPixel_frame (img : UJImage) (r c : Int) (p : UJPixel) (hwf : img.WF)
    (hr0 : 0 ≤ r) (hr : r < img.getHeight) (hc0 : 0 ≤ c) (hc : c < img.getWidth)
    (hp : p.Valid) :
    ∃ img', img.setPixel r c p = Except.ok img' ∧
      img'.getPixel r c = Except.ok p ∧
      (∀ r' c', 0 ≤ r' → r' < img.getHeight → 0 ≤ c' → c' < img.getWidth →
        (r' ≠ r ∨ c' ≠ c) → img'.getPixel r' c' = img.getPixel r' c') ∧
      img'.getHeight = img.getHeight ∧ img'.getWidth = img.getWidth := by
  simp only [UJImage.getHeight, UJImage.getWidth] at *
  refine ⟨_, setPixel_ok img r c p hr0 hr hc0 hc hp, ?_, ?_, rfl, rfl⟩
  · rw [getPixel_ok _ r c hr0 (by rw [store_rows]; exact hr) hc0 (by rw [store_cols]; exact hc),
      load_store_same img r c p hwf hr0 hr hc0 hc]
  · intro r' c' hr0' hr' hc0' hc' hne
    rw [getPixel_ok _ r' c' hr0' (by rw [store_rows]; exact hr') hc0'
        (by rw [store_cols]; exact hc'),
      getPixel_ok _ r' c' hr0' hr' hc0' hc',
      load_store_other img r c r' c' p hr0 hc0 hr0' hc0' hne]

/-- Witness of C3: writing `(1,2,3)` at cell `(0,1)` of a 2×2 buffer. -/
theorem C3_setPixel_frame_witness :
    ∃ img', UJImage.setPixel ⟨[[⟨9, 9, 9⟩, ⟨8, 8, 8⟩], [⟨7, 7, 7⟩, ⟨6, 6, 6⟩]], 2, 2⟩ 0 1 ⟨1, 2, 3⟩
        = Except.ok img' ∧
      img'.getPixel 0 1 = Except.ok ⟨1, 2, 3⟩ ∧
      (∀ r' c', 0 ≤ r' →
        r' < UJImage.getHeight ⟨[[⟨9, 9, 9⟩, ⟨8, 8, 8⟩], [⟨7, 7, 7⟩, ⟨6, 6, 6⟩]], 2, 2⟩ →
        0 ≤ c' →
        c' < UJImage.getWidth ⟨[[⟨9, 9, 9⟩, ⟨8, 8, 8⟩], [⟨7, 7, 7⟩, ⟨6, 6, 6⟩]], 2, 2⟩ →
        (r' ≠ 0 ∨ c' ≠ 1) → img'.getPixel r' c' =
          UJImage.getPixel ⟨[[⟨9, 9, 9⟩, ⟨8, 8, 8⟩], [⟨7, 7, 7⟩, ⟨6, 6, 6⟩]], 2, 2⟩ r' c') ∧
      img'.getHeight = UJImage.getHeight ⟨[[⟨9, 9, 9⟩, ⟨8, 8, 8⟩], [⟨7, 7, 7⟩, ⟨6, 6, 6⟩]], 2, 2⟩ ∧
      img'.getWidth = UJImage.getWidth ⟨[[⟨9, 9, 9⟩, ⟨8, 8, 8⟩], [⟨7, 7, 7⟩, ⟨6, 6, 6⟩]], 2, 2⟩ :=
  C3_setPixel_frame ⟨[[⟨9, 9, 9⟩, ⟨8, 8, 8⟩], [⟨7, 7, 7⟩, ⟨6, 6, 6⟩]], 2, 2⟩ 0 1 ⟨1, 2, 3⟩
    (by decide) (by decide) (by decide) (by decide) (by decide) (by decide)

/-! ## Flag patterns -/

/-- C4: on a renderer of height `h` and width `w`, `illustrate(AUSTRIA)` returns and, with
`thickness = h / 3`, leaves in every cell `(r, c)` the middle colour `(255,255,255)` when
`thickness < r < 2 * thickness` and the outer colour `(239,51,64)` otherwise, whatever `c`
is; rows `thickness` and `2 * thickness` are outer; on a 480×640 buffer `thickness` is 160,
rows 159, 160 and 320 are outer and rows 161 to 319 are middle. -/
theorem C4_pattern_A (f : FlagIllustrator) (hwf : f._image.WF) :
    ∃ f', f.illustrate FlagType.AUSTRIA = Except.ok f' ∧
      f'._image.getHeight = f._image.getHeight ∧ f'._image.getWidth = f._image.getWidth ∧
      (∀ r c, 0 ≤ r → r < f._image.getHeight → 0 ≤ c → c < f._image.getWidth →
        f'._image.getPixel r c = Except.ok
          (if f._image.getHeight / 3 < r ∧ r < 2 * (f._image.getHeight / 3)
            then ⟨255, 255, 255⟩ else ⟨239, 51, 64⟩)) ∧
      (∀ c, 0 ≤ c → c < f._image.getWidth →
        (f._image.getHeight / 3 < f._image.getHeight →
          f'._image.getPixel (f._image.getHeight / 3) c = Except.ok ⟨239, 51, 64⟩) ∧
        (2 * (f._image.getHeight / 3) < f._image.getHeight →
          f'._image.getPixel (2 * (f._image.getHeight / 3)) c = Except.ok ⟨239, 51, 64⟩)) ∧
      (f._image.getHeight = 480 → f._image.getWidth = 640 →
        f._image.getHeight / 3 = 160 ∧
        ∀ c, 0 ≤ c → c < 640 →
          f'._image.getPixel 159 c = Except.ok ⟨239, 51, 64⟩ ∧
          f'._image.getPixel 160 c = Except.ok ⟨239, 51, 64⟩ ∧
          f'._image.getPixel 320 c = Except.ok ⟨239, 51, 64⟩ ∧
          ∀ r, 161 ≤ r → r ≤ 319 → f'._image.getPixel r c = Except.ok ⟨255, 255, 255⟩) := by
  have hH : 0 ≤ f._image._rows := hwf.1
  have hth : Int.tdiv f._image._rows 3 = f._image._rows / 3 :=
    Int.tdiv_eq_ediv hH (by decide)
  obtain ⟨f', hf', q1, q2, q3, q4⟩ := fill_loops f hwf
    (fun r _ => if r > Int.tdiv f._image.getHeight 3 ∧ r < Int.tdiv f._image.getHeight 3 * 2
      then ⟨255, 255, 255⟩ else ⟨239, 51, 64⟩)
    (by intro r c _ _ _ _; beta_reduce; split <;> decide)
    (fun r c g => if r > Int.tdiv f._image.getHeight 3 ∧ r < Int.tdiv f._image.getHeight 3 * 2
      then g.put r c ⟨255, 255, 255⟩ else g.put r c ⟨239, 51, 64⟩)
    (by intro r c g _ _ _ _; beta_reduce; split <;> rfl)
  simp only [UJImage.getHeight, UJImage.getWidth] at *
  have hpix : ∀ r c, 0 ≤ r → r < f._image._rows → 0 ≤ c → c < f._image._cols →
      f'._image.getPixel r c = Except.ok
        (if f._image._rows / 3 < r ∧ r < 2 * (f._image._rows / 3)
          then ⟨255, 255, 255⟩ else ⟨239, 51, 64⟩) := by
    intro r c hr0 hr hc0 hc
    rw [getPixel_ok _ r c hr0 (by omega) hc0 (by omega), q4 r c hr0 hr hc0 hc]
    have e : (r > f._image._rows / 3 ∧ r < f._image._rows / 3 * 2) ↔
        (f._image._rows / 3 < r ∧ r < 2 * (f._image._rows / 3)) := by
      constructor <;> intro h <;> omega
    simp only [hth, e]
  refine ⟨f', hf', q1, q2, hpix, ?_, ?_⟩
  · intro c hc0 hc
    constructor
    · intro h
      rw [hpix _ c (by omega) h hc0 hc, if_neg (by omega)]
    · intro h
      rw [hpix _ c (by omega) h hc0 hc, if_neg (by omega)]
  · intro h480 h640
    rw [h480, h640] at hpix
    refine ⟨by rw [h480]; decide, ?_⟩
    intro c hc0 hc
    refine ⟨?_, ?_, ?_, ?_⟩
    · rw [hpix 159 c (by decide) (by decide) hc0 hc]; rfl
    · rw [hpix 160 c (by decide) (by decide) hc0 hc]; rfl
    · rw [hpix 320 c (by decide) (by decide) hc0 hc]; rfl
    · intro r h1 h2
      rw [hpix r c (by omega) (by omega) hc0 hc, if_pos (by omega)]

/-- Witness of C4 on the 7×2 sample renderer: row 3 is the middle band. -/
theorem C4_pattern_A_witness :
    sampleFlag._image.WF ∧
    ∃ f', sampleFlag.illustrate FlagType.AUSTRIA = Except.ok f' ∧
      ∀ r c, 0 ≤ r → r < sampleFlag._image.getHeight → 0 ≤ c →
        c < sampleFlag._image.getWidth →
        f'._image.getPixel r c = Except.ok
          (if sampleFlag._image.getHeight / 3 < r ∧ r < 2 * (sampleFlag._image.getHeight / 3)
            then ⟨255, 255, 255⟩ else ⟨239, 51, 64⟩) :=
  ⟨by decide, (C4_pattern_A sampleFlag (by decide)).imp (fun _ h => ⟨h.1, h.2.2.2.1⟩)⟩

/-- C5: on a renderer of height `h` and width `w`, both at most 10000, `illustrate(JAPAN)`
returns and leaves in every cell `(r, c)` the disc colour `(188,0,45)` exactly when the
distance from `(r, c)` to the centre `(h / 2, w / 2)` is at most `0.3 * h`, that is when
`100 * ((r - h/2)² + (c - w/2)²) ≤ 9 * h²`, and the field colour `(255,255,255)` otherwise;
the centre cell is disc colour whenever `h ≥ 1` and `w ≥ 1`, and on a 10×10 buffer the four
corner cells are field colour.  The `double` computations of the code are those of
IEEE 754 binary64. -/
theorem C5_pattern_B (f : FlagIllustrator) (hwf : f._image.WF)
    (hh : f._image.getHeight ≤ 10000) (hw : f._image.getWidth ≤ 10000) :
    ∃ f', f.illustrate FlagType.JAPAN = Except.ok f' ∧
      f'._image.getHeight = f._image.getHeight ∧ f'._image.getWidth = f._image.getWidth ∧
      (∀ r c, 0 ≤ r → r < f._image.getHeight → 0 ≤ c → c < f._image.getWidth →
        f'._image.getPixel r c = Except.ok
          (if 100 * ((r - f._image.getHeight / 2) ^ 2 + (c - f._image.getWidth / 2) ^ 2)
              ≤ 9 * f._image.getHeight ^ 2
            then ⟨188, 0, 45⟩ else ⟨255, 255, 255⟩)) ∧
      (1 ≤ f._image.getHeight → 1 ≤ f._image.getWidth →
        f'._image.getPixel (f._image.getHeight / 2) (f._image.getWidth / 2)
          = Except.ok ⟨188, 0, 45⟩) ∧
      (f._image.getHeight = 10 → f._image.getWidth = 10 →
        f'._image.getPixel 0 0 = Except.ok ⟨255, 255, 255⟩ ∧
        f'._image.getPixel 0 9 = Except.ok ⟨255, 255, 255⟩ ∧
        f'._image.getPixel 9 0 = Except.ok ⟨255, 255, 255⟩ ∧
        f'._image.getPixel 9 9 = Except.ok ⟨255, 255, 255⟩) := by
  obtain ⟨f', hf', q1, q2, q3, q4⟩ := fill_loops f hwf
    (fun r c =>
      if Dbl.le (FlagIllustrator.distance r (Int.tdiv f._image.getHeight 2) c
          (Int.tdiv f._image.getWidth 2))
          (Dbl.mul Dbl.pointThree (Dbl.ofInt f._image.getHeight)) = true
      then ⟨188, 0, 45⟩ else ⟨255, 255, 255⟩)
    (by intro r c _ _ _ _; beta_reduce; split <;> decide)
    (fun r c g =>
      if Dbl.le (FlagIllustrator.distance r (Int.tdiv f._image.getHeight 2) c
          (Int.tdiv f._image.getWidth 2))
          (Dbl.mul Dbl.pointThree (Dbl.ofInt f._image.getHeight)) = true
      then g.put r c ⟨188, 0, 45⟩ else g.put r c ⟨255, 255, 255⟩)
    (by intro r c g _ _ _ _; beta_reduce; split <;> rfl)
  simp only [UJImage.getHeight, UJImage.getWidth] at *
  have hpix : ∀ r c, 0 ≤ r → r < f._image._rows → 0 ≤ c → c < f._image._cols →
      f'._image.getPixel r c = Except.ok
        (if 100 * ((r - f._image._rows / 2) ^ 2 + (c - f._image._cols / 2) ^ 2)
            ≤ 9 * f._image._rows ^ 2
          then ⟨188, 0, 45⟩ else ⟨255, 255, 255⟩) := by
    intro r c hr0 hr hc0 hc
    rw [getPixel_ok _ r c hr0 (by omega) hc0 (by omega), q4 r c hr0 hr hc0 hc]
    simp only [disc_test _ _ r c hh hw hr0 hr hc0 hc]
  refine ⟨f', hf', q1, q2, hpix, ?_, ?_⟩
  · intro h1 w1
    rw [hpix _ _ (by omega) (by omega) (by omega) (by omega), if_pos]
    simp only [sub_self]
    positivity
  · intro h10 w10
    rw [h10, w10] at hpix
    refine ⟨?_, ?_, ?_, ?_⟩
    · rw [hpix 0 0 (by decide) (by decide) (by decide) (by decide)]; rfl
    · rw [hpix 0 9 (by decide) (by decide) (by decide) (by decide)]; rfl
    · rw [hpix 9 0 (by decide) (by decide) (by decide) (by decide)]; rfl
    · rw [hpix 9 9 (by decide) (by decide) (by decide) (by decide)]; rfl

/-- Witness of C5 on the 7×2 sample renderer. -/
theorem C5_pattern_B_witness :
    sampleFlag._image.WF ∧ sampleFlag._image.getHeight ≤ 10000 ∧
    sampleFlag._image.getWidth ≤ 10000 ∧
    ∃ f', sampleFlag.illustrate FlagType.JAPAN = Except.ok f' ∧
      ∀ r c, 0 ≤ r → r < sampleFlag._image.getHeight → 0 ≤ c →
        c < sampleFlag._image.getWidth →
        f'._image.getPixel r c = Except.ok
          (if 100 * ((r - sampleFlag._image.getHeight / 2) ^ 2
                + (c - sampleFlag._image.getWidth / 2) ^ 2)
              ≤ 9 * sampleFlag._image.getHeight ^ 2
            then ⟨188, 0, 45⟩ else ⟨255, 255, 255⟩) :=
  ⟨by decide, by decide, by decide,
    (C5_pattern_B sampleFlag (by decide) (by decide) (by decide)).imp
      (fun _ h => ⟨h.1, h.2.2.2.1⟩)⟩

/-- C6: on a renderer of height `h` and width `w`, `illustrate(NIGERIA)` returns and, with
`thickness = w / 3`, leaves in every cell `(r, c)` the middle colour `(255,255,255)` when
`thickness < c < 2 * thickness` and the outer colour `(27,115,57)` otherwise, whatever `r`
is: all rows of a column get the same colour. -/
theorem C6_pattern_C (f : FlagIllustrator) (hwf : f._image.WF) :
    ∃ f', f.illustrate FlagType.NIGERIA = Except.ok f' ∧
      f'._image.getHeight = f._image.getHeight ∧ f'._image.getWidth = f._image.getWidth ∧
      (∀ r c, 0 ≤ r → r < f._image.getHeight → 0 ≤ c → c < f._image.getWidth →
        f'._image.getPixel r c = Except.ok
          (if f._image.getWidth / 3 < c ∧ c < 2 * (f._image.getWidth / 3)
            then ⟨255, 255, 255⟩ else ⟨27, 115, 57⟩)) ∧
      (∀ r r' c, 0 ≤ r → r < f._image.getHeight → 0 ≤ r' → r' < f._image.getHeight →
        0 ≤ c → c < f._image.getWidth →
        f'._image.getPixel r c = f'._image.getPixel r' c) := by
  obtain ⟨f', hf', q1, q2, q3, q4⟩ := fill_loops f hwf
    (fun _ c => if c > Int.tdiv f._image.getWidth 3 ∧ c < Int.tdiv f._image.getWidth 3 * 2
      then ⟨255, 255, 255⟩ else ⟨27, 115, 57⟩)
    (by intro r c _ _ _ _; beta_reduce; split <;> decide)
    (fun r c g => if c > Int.tdiv f._image.getWidth 3 ∧ c < Int.tdiv f._image.getWidth 3 * 2
      then g.put r c ⟨255, 255, 255⟩ else g.put r c ⟨27, 115, 57⟩)
    (by intro r c g _ _ _ _; beta_reduce; split <;> rfl)
  simp only [UJImage.getHeight, UJImage.getWidth] at *
  have hpix : ∀ r c, 0 ≤ r → r < f._image._rows → 0 ≤ c → c < f._image._cols →
      f'._image.getPixel r c = Except.ok
        (if f._image._cols / 3 < c ∧ c < 2 * (f._image._cols / 3)
          then ⟨255, 255, 255⟩ else ⟨27, 115, 57⟩) := by
    intro r c hr0 hr hc0 hc
    have hth : Int.tdiv f._image._cols 3 = f._image._cols / 3 :=
      Int.tdiv_eq_ediv (by omega) (by decide)
    rw [getPixel_ok _ r c hr0 (by omega) hc0 (by omega), q4 r c hr0 hr hc0 hc]
    have e : (c > f._image._cols / 3 ∧ c < f._image._cols / 3 * 2) ↔
        (f._image._cols / 3 < c ∧ c < 2 * (f._image._cols / 3)) := by
      constructor <;> intro h <;> omega
    simp only [hth, e]
  refine ⟨f', hf', q1, q2, hpix, ?_⟩
  intro r r' c hr0 hr hr0' hr' hc0 hc
  rw [hpix r c hr0 hr hc0 hc, hpix r' c hr0' hr' hc0 hc]

/-- Witness of C6 on the 7×2 sample renderer. -/
theorem C6_pattern_C_witness :
    sampleFlag._image.WF ∧
    ∃ f', sampleFlag.illustrate FlagType.NIGERIA = Except.ok f' ∧
      ∀ r c, 0 ≤ r → r < sampleFlag._image.getHeight → 0 ≤ c →
        c < sampleFlag._image.getWidth →
        f'._image.getPixel r c = Except.ok
          (if sampleFlag._image.getWidth / 3 < c ∧ c < 2 * (sampleFlag._image.getWidth / 3)
            then ⟨255, 255, 255⟩ else ⟨27, 115, 57⟩) :=
  ⟨by decide, (C6_pattern_C sampleFlag (by decide)).imp (fun _ h => ⟨h.1, h.2.2.2.1⟩)⟩

/-! ## Text exports -/

/-- C7: `ColourIllustrator::exportImage` is `UJImage::toPPM`, which returns `"P3\n"`, the
decimal width, a space, the decimal height, `"\n255\n"`, and then for each row from 0 to
`rows - 1` the texts `R G B ` of its cells from column 0 to `cols - 1` (each value followed
by a space) and a `"\n"`; the export of a buffer of 2 rows and 3 columns begins with
`"P3\n3 2\n255\n"`. -/
theorem C7_colour_export (f : FlagIllustrator) :
    ColourIllustrator.exportImage f = f._image.toPPM ∧
    f._image.toPPM =
      "P3\n" ++ decimal f._image.getWidth ++ " " ++ decimal f._image.getHeight ++ "\n255\n" ++
        String.join ((List.range f._image.getHeight.toNat).map (fun (r : Nat) =>
          String.join ((List.range f._image.getWidth.toNat).map (fun (c : Nat) =>
            decimal (f._image.load r c).intRed ++ " " ++
            decimal (f._image.load r c).intGreen ++ " " ++
            decimal (f._image.load r c).intBlue ++ " ")) ++ "\n")) ∧
    (∀ grid, ∃ rest, UJImage.toPPM ⟨grid, 2, 3⟩ = "P3\n3 2\n255\n" ++ rest) := by
  have gen : ∀ img : UJImage, img.toPPM =
      "P3\n" ++ decimal img._cols ++ " " ++ decimal img._rows ++ "\n255\n" ++
        String.join ((List.range img._rows.toNat).map (fun (r : Nat) =>
          String.join ((List.range img._cols.toNat).map (fun (c : Nat) =>
            decimal (img.load r c).intRed ++ " " ++
            decimal (img.load r c).intGreen ++ " " ++
            decimal (img.load r c).intBlue ++ " ")) ++ "\n")) := by
    intro img
    have inner : ∀ (r : Int) (t : String),
        pureForUpTo img._cols
          (fun c ssPPM =>
            ssPPM ++ decimal (img.load r c).intRed ++ " "
              ++ decimal (img.load r c).intGreen ++ " "
              ++ decimal (img.load r c).intBlue ++ " ") t ++ "\n" =
        t ++ (String.join ((List.range img._cols.toNat).map (fun c =>
            decimal (img.load r ((0 : Int) + (c : Nat))).intRed ++ " " ++
            decimal (img.load r ((0 : Int) + (c : Nat))).intGreen ++ " " ++
            decimal (img.load r ((0 : Int) + (c : Nat))).intBlue ++ " ")) ++ "\n") := by
      intro r t
      have := pureLoopFrom_append (fun c =>
            decimal (img.load r c).intRed ++ " " ++
            decimal (img.load r c).intGreen ++ " " ++
            decimal (img.load r c).intBlue ++ " ") img._cols.toNat 0 t
      rw [pureForUpTo]
      simp only [String.append_assoc] at this ⊢
      rw [this, String.append_assoc]
    simp only [UJImage.toPPM, inner]
    rw [pureForUpTo, pureLoopFrom_append]
    simp only [zero_add, String.append_assoc]
    rw [text_P3, text_255]
  refine ⟨rfl, gen f._image, ?_⟩
  intro grid
  rw [gen]
  simp only [String.append_assoc]
  rw [text_3_2]
  exact ⟨_, rfl⟩

/-- C8: `GrayscaleIllustrator::exportImage` returns `"P2\n"`, the decimal width, a space,
the decimal height, `"\n255\n"`, and then for each row from the top the decimal of
`(R + G + B) / 3` (truncating division) followed by a space for each cell from the left,
and a `"\n"`. -/
theorem C8_grayscale_export (f : FlagIllustrator) :
    GrayscaleIllustrator.exportImage f = Except.ok
      ("P2\n" ++ decimal f._image.getWidth ++ " " ++ decimal f._image.getHeight ++ "\n255\n" ++
        String.join ((List.range f._image.getHeight.toNat).map (fun (r : Nat) =>
          String.join ((List.range f._image.getWidth.toNat).map (fun (c : Nat) =>
            decimal (Int.tdiv ((f._image.load r c).intRed + (f._image.load r c).intGreen
              + (f._image.load r c).intBlue) 3) ++ " ")) ++ "\n"))) := by
  have h := export_grid f._image (fun p => decimal (GrayscaleIllustrator.average p))
    ("P2" ++ "\n" ++ decimal f._image.getWidth ++ " " ++ decimal f._image.getHeight
      ++ "\n" ++ decimal 255 ++ "\n")
  rw [GrayscaleIllustrator.exportImage]
  simp only [] at h ⊢
  rw [h]
  simp only [String.append_assoc, GrayscaleIllustrator.average]
  rw [text_P2, text_255]

/-- C9: `BWIllustrator::exportImage` returns `"P1\n"`, the decimal width, a space, the decimal
height and `"\n"` (no maximum-value line), and then for each row from the top the bit
followed by a space for each cell from the left, and a `"\n"`; the bit is `0` for a pixel
equal to `(255,255,255)` and `1` for every other pixel, so that `(255,255,255)` gives `0`
and `(254,255,255)` gives `1`. -/
theorem C9_binary_export (f : FlagIllustrator) :
    BWIllustrator.exportImage f = Except.ok
      ("P1\n" ++ decimal f._image.getWidth ++ " " ++ decimal f._image.getHeight ++ "\n" ++
        String.join ((List.range f._image.getHeight.toNat).map (fun (r : Nat) =>
          String.join ((List.range f._image.getWidth.toNat).map (fun (c : Nat) =>
            (if f._image.load r c = ⟨255, 255, 255⟩ then "0" else "1") ++ " ")) ++ "\n"))) ∧
    BWIllustrator.isWhite ⟨255, 255, 255⟩ = true ∧
    BWIllustrator.isWhite ⟨254, 255, 255⟩ = false ∧
    BWIllustrator.exportImage ⟨⟨[[⟨255, 255, 255⟩, ⟨254, 255, 255⟩]], 1, 2⟩⟩ =
      Except.ok "P1\n2 1\n0 1 \n" := by
  refine ⟨?_, by decide, by decide, by decide⟩
  have h := export_grid f._image
    (fun p => decimal (if BWIllustrator.isWhite p = true then 0 else 1))
    ("P1" ++ "\n" ++ decimal f._image.getWidth ++ " " ++ decimal f._image.getHeight ++ "\n")
  rw [BWIllustrator.exportImage]
  simp only [] at h ⊢
  rw [h]
  simp only [String.append_assoc, bit_text]
  rw [text_P1]

/-! ## Copy construction -/

/-- C10: the copy constructor of a buffer `X` returns a buffer `Y` with the height and the
width of `X` whose `getPixel(r, c)` is that of `X` at every in-bounds cell; the copy
constructor of a renderer `X` (dimensions in `[0,10000]`, valid pixels) returns a renderer
`Y` with the same properties.  Returning means that neither assertion of `clone` fails and
that no `setPixel` or `getPixel` of the cell-by-cell copy takes the range-error path. -/
theorem C10_copy_construction :
    (∀ X : UJImage, X.WF →
      ∃ Y, UJImage.copy X = Except.ok Y ∧
        Y.getHeight = X.getHeight ∧ Y.getWidth = X.getWidth ∧
        ∀ r c, 0 ≤ r → r < X.getHeight → 0 ≤ c → c < X.getWidth →
          Y.getPixel r c = X.getPixel r c) ∧
    (∀ X : FlagIllustrator, X._image.WF → X._image.getHeight ≤ 10000 →
      0 ≤ X._image.getWidth → X._image.getWidth ≤ 10000 → X._image.ValidPixels →
      ∃ Y, FlagIllustrator.copy X = Except.ok Y ∧
        Y._image.getHeight = X._image.getHeight ∧ Y._image.getWidth = X._image.getWidth ∧
        ∀ r c, 0 ≤ r → r < X._image.getHeight → 0 ≤ c → c < X._image.getWidth →
          Y._image.getPixel r c = X._image.getPixel r c) := by
  constructor
  · intro X hX
    obtain ⟨img, himg, e1, e2, hwf, _⟩ := mk2_of_WF X hX
    obtain ⟨Y, hY, q1, q2, q3, q4⟩ := clone_ok img X hwf e1 e2
    refine ⟨Y, by simp only [UJImage.copy, himg, hY], q1, q2, ?_⟩
    intro r c a b c0 d
    simp only [UJImage.getHeight, UJImage.getWidth] at b d
    rw [getPixel_ok Y r c a (by rw [q1]; exact b) c0 (by rw [q2]; exact d),
      getPixel_ok X r c a b c0 d, q4 r c a b c0 d]
  · intro X hX hh hw0 hw hv
    simp only [UJImage.getHeight, UJImage.getWidth] at hh hw0 hw
    obtain ⟨img, himg, e1, e2, hwf, _⟩ := mk2_of_WF X._image hX
    have hmk : FlagIllustrator.mk2 X._image.getHeight X._image.getWidth = Except.ok ⟨img⟩ := by
      have c1 : ¬ (X._image._rows < 0 ∨ X._image._rows > 10000) := by have := hX.1; omega
      have c2 : ¬ (X._image._cols < 0 ∨ X._image._cols > 10000) := by omega
      simp [FlagIllustrator.mk2, FlagIllustrator.enforceRange, FlagIllustrator.alloc,
        UJImage.getHeight, UJImage.getWidth, c1, c2, himg]
    obtain ⟨Y, hY, q1, q2, q3, q4⟩ := flag_clone_ok ⟨img⟩ X hwf e1 e2 hX hv
    refine ⟨Y, by simp only [FlagIllustrator.copy, hmk, hY], q1, q2, ?_⟩
    intro r c a b c0 d
    simp only [UJImage.getHeight, UJImage.getWidth] at b d
    rw [getPixel_ok Y._image r c a (by rw [q1]; exact b) c0 (by rw [q2]; exact d),
      getPixel_ok X._image r c a b c0 d, q4 r c a b c0 d]

/-- Witness of C10: the copies of the 7×2 sample buffer and of the renderer that owns it. -/
theorem C10_copy_construction_witness :
    (sampleImage.WF ∧ ∃ Y, UJImage.copy sampleImage = Except.ok Y ∧
        Y.getHeight = sampleImage.getHeight ∧ Y.getWidth = sampleImage.getWidth ∧
        ∀ r c, 0 ≤ r → r < sampleImage.getHeight → 0 ≤ c → c < sampleImage.getWidth →
          Y.getPixel r c = sampleImage.getPixel r c) ∧
    (sampleFlag._image.ValidPixels ∧ ∃ Y, FlagIllustrator.copy sampleFlag = Except.ok Y ∧
        Y._image.getHeight = sampleFlag._image.getHeight ∧
        Y._image.getWidth = sampleFlag._image.getWidth ∧
        ∀ r c, 0 ≤ r → r < sampleFlag._image.getHeight → 0 ≤ c →
          c < sampleFlag._image.getWidth →
          Y._image.getPixel r c = sampleFlag._image.getPixel r c) :=
  ⟨⟨by decide, C10_copy_construction.1 sampleImage (by decide)⟩,
    ⟨by decide, C10_copy_construction.2 sampleFlag (by decide) (by decide) (by decide)
      (by decide) (by decide)⟩⟩

/-! ## What `illustrate` leaves in the buffer -/

theorem paint_valid (eType : FlagType) (h w r c : Int) : (paint eType h w r c).Valid := by
  cases eType <;> simp only [paint] <;> split <;> decide

/-- For every selector, `illustrate` on a well-formed renderer returns, keeps the dimensions
and the invariant, and leaves `paint` in every cell. -/
theorem illustrate_fill (f : FlagIllustrator) (hwf : f._image.WF) (eType : FlagType) :
    ∃ f', f.illustrate eType = Except.ok f' ∧
      f'._image._rows = f._image._rows ∧ f'._image._cols = f._image._cols ∧ f'._image.WF ∧
      ∀ r c, 0 ≤ r → r < f._image._rows → 0 ≤ c → c < f._image._cols →
        f'._image.load r c = paint eType f._image._rows f._image._cols r c := by
  cases eType
  · exact fill_loops f hwf (fun r c => paint FlagType.AUSTRIA f._image._rows f._image._cols r c)
      (fun r c _ _ _ _ => paint_valid _ _ _ r c)
      (fun r c g =>
        if r > Int.tdiv f._image.getHeight 3 ∧ r < Int.tdiv f._image.getHeight 3 * 2
        then g.put r c ⟨255, 255, 255⟩ else g.put r c ⟨239, 51, 64⟩)
      (by intro r c g _ _ _ _; simp only [paint, UJImage.getHeight]; split <;> rfl)
  · exact fill_loops f hwf (fun r c => paint FlagType.JAPAN f._image._rows f._image._cols r c)
      (fun r c _ _ _ _ => paint_valid _ _ _ r c)
      (fun r c g =>
        if Dbl.le (FlagIllustrator.distance r (Int.tdiv f._image.getHeight 2) c
            (Int.tdiv f._image.getWidth 2))
            (Dbl.mul Dbl.pointThree (Dbl.ofInt f._image.getHeight)) = true
        then g.put r c ⟨188, 0, 45⟩ else g.put r c ⟨255, 255, 255⟩)
      (by
        intro r c g _ _ _ _
        simp only [paint, UJImage.getHeight, UJImage.getWidth]; split <;> rfl)
  · exact fill_loops f hwf (fun r c => paint FlagType.NIGERIA f._image._rows f._image._cols r c)
      (fun r c _ _ _ _ => paint_valid _ _ _ r c)
      (fun r c g =>
        if c > Int.tdiv f._image.getWidth 3 ∧ c < Int.tdiv f._image.getWidth 3 * 2
        then g.put r c ⟨255, 255, 255⟩ else g.put r c ⟨27, 115, 57⟩)
      (by intro r c g _ _ _ _; simp only [paint, UJImage.getWidth]; split <;> rfl)

/-- Two well-formed buffers of the same dimensions that read the same at every in-bounds
cell are the same buffer. -/
theorem WF_ext (a b : UJImage) (ha : a.WF) (hb : b.WF) (hr : a._rows = b._rows)
    (hc : a._cols = b._cols)
    (hl : ∀ r c, 0 ≤ r → r < a._rows → 0 ≤ c → c < a._cols → a.load r c = b.load r c) :
    a = b := by
  obtain ⟨ga, ra, ca⟩ := a
  obtain ⟨gb, rb, cb⟩ := b
  simp only at hr hc hl
  subst hr hc
  obtain ⟨a1, a2, a3⟩ := ha
  obtain ⟨b1, b2, b3⟩ := hb
  simp only at a1 a2 a3 b1 b2 b3
  simp only [UJImage.mk.injEq, and_true]
  apply List.ext_getElem (by omega)
  intro i h1 h2
  have la := (a3 _ (List.getElem_mem h1)).2
  have lb := (b3 _ (List.getElem_mem h2)).2
  apply List.ext_getElem (by omega)
  intro j h3 h4
  have := hl i j (by omega) (by omega) (by omega) (by omega)
  simpa [UJImage.load, List.getElem?_eq_getElem h1, List.getElem?_eq_getElem h2,
    List.getElem?_eq_getElem h3, List.getElem?_eq_getElem h4] using this

/-! ## Renderer construction -/

/-- The constructor `FlagIllustrator(height, width)` on dimensions in `[0,10000]`. -/
theorem flag_mk2_ok (h w : Int) (h0 : 0 ≤ h) (h1 : h ≤ 10000) (w0 : 0 ≤ w) (w1 : w ≤ 10000) :
    FlagIllustrator.mk2 h w = Except.ok
      ⟨{ _image := List.replicate h.toNat (List.replicate w.toNat white),
         _rows := h, _cols := w }⟩ := by
  have c1 : ¬ (h < 0 ∨ h > 10000) := by omega
  have c2 : ¬ (w < 0 ∨ w > 10000) := by omega
  simp [FlagIllustrator.mk2, FlagIllustrator.enforceRange, FlagIllustrator.alloc,
    UJImage.mk2, c1, c2, alloc_eq h w h0 w0]

/-- C12: `FlagIllustrator(height, width)` takes the range-error path exactly when `height`
or `width` is outside `[0,10000]`; otherwise it returns a renderer whose buffer has that
height and that width and reads `(255,255,255)` at every cell; the constructor without
arguments is `FlagIllustrator(480, 640)` and returns a renderer of height 480 and width
640. -/
theorem C12_renderer_construction (intHeight intWidth : Int) :
    (FlagIllustrator.mk2 intHeight intWidth = Except.error (Abort.exit ExitCode.ERROR_RANGE) ↔
      (intHeight < 0 ∨ 10000 < intHeight) ∨ (intWidth < 0 ∨ 10000 < intWidth)) ∧
    (0 ≤ intHeight ∧ intHeight ≤ 10000 → 0 ≤ intWidth ∧ intWidth ≤ 10000 →
      ∃ f, FlagIllustrator.mk2 intHeight intWidth = Except.ok f ∧
        f._image.getHeight = intHeight ∧ f._image.getWidth = intWidth ∧
        ∀ r c, 0 ≤ r → r < intHeight → 0 ≤ c → c < intWidth →
          f._image.getPixel r c = Except.ok ⟨255, 255, 255⟩) ∧
    FlagIllustrator.mk0 = FlagIllustrator.mk2 480 640 ∧
    (∃ f, FlagIllustrator.mk0 = Except.ok f ∧
      f._image.getHeight = 480 ∧ f._image.getWidth = 640) := by
  refine ⟨?_, ?_, rfl, ?_⟩
  · by_cases hh : intHeight < 0 ∨ intHeight > 10000
    · have : (intHeight < 0 ∨ 10000 < intHeight) := by omega
      simp [FlagIllustrator.mk2, FlagIllustrator.enforceRange, hh, this]
    · by_cases hw : intWidth < 0 ∨ intWidth > 10000
      · have : (intWidth < 0 ∨ 10000 < intWidth) := by omega
        simp [FlagIllustrator.mk2, FlagIllustrator.enforceRange, hh, hw, this]
      · rw [flag_mk2_ok intHeight intWidth (by omega) (by omega) (by omega) (by omega)]
        have : ¬ ((intHeight < 0 ∨ 10000 < intHeight) ∨ (intWidth < 0 ∨ 10000 < intWidth)) := by
          omega
        simp [this]
  · intro ⟨h0, h1⟩ ⟨w0, w1⟩
    refine ⟨_, flag_mk2_ok intHeight intWidth h0 h1 w0 w1, rfl, rfl, ?_⟩
    intro r c hr0 hr hc0 hc
    rw [getPixel_ok _ r c hr0 hr hc0 hc, alloc_load intHeight intWidth r c hr0 hr hc0 hc]
    rfl
  · exact ⟨_, flag_mk2_ok 480 640 (by decide) (by decide) (by decide) (by decide), rfl, rfl⟩

/-- Witness of C12 at `height = 3`, `width = 4`. -/
theorem C12_renderer_construction_witness :
    (0 ≤ (3 : Int) ∧ (3 : Int) ≤ 10000) ∧ (0 ≤ (4 : Int) ∧ (4 : Int) ≤ 10000) ∧
    ∃ f, FlagIllustrator.mk2 3 4 = Except.ok f ∧
      f._image.getHeight = 3 ∧ f._image.getWidth = 4 ∧
      ∀ r c, 0 ≤ r → r < 3 → 0 ≤ c → c < 4 →
        f._image.getPixel r c = Except.ok ⟨255, 255, 255⟩ :=
  ⟨by decide, by decide, (C12_renderer_construction 3 4).2.1 (by decide) (by decide)⟩

/-! ## `illustrate` depends on the dimensions only -/

/-- A renderer returned by `FlagIllustrator(height, width)` is well formed and has those
dimensions. -/
theorem flag_mk2_inv (h w : Int) (f : FlagIllustrator) (hf : FlagIllustrator.mk2 h w = Except.ok f) :
    f._image.WF ∧ f._image._rows = h ∧ f._image._cols = w ∧ f._image.ValidPixels := by
  by_cases hd : (0 ≤ h ∧ h ≤ 10000) ∧ (0 ≤ w ∧ w ≤ 10000)
  · obtain ⟨⟨h0, h1⟩, ⟨w0, w1⟩⟩ := hd
    rw [flag_mk2_ok h w h0 h1 w0 w1] at hf
    injection hf with hf
    subst hf
    refine ⟨alloc_WF h w h0 w0, rfl, rfl, ?_⟩
    intro row hrow p hp
    rw [List.eq_of_mem_replicate hrow] at hp
    rw [List.eq_of_mem_replicate hp]
    decide
  · exfalso
    by_cases hh : h < 0 ∨ h > 10000
    · simp [FlagIllustrator.mk2, FlagIllustrator.enforceRange, hh] at hf
    · have hw : w < 0 ∨ w > 10000 := by omega
      simp [FlagIllustrator.mk2, FlagIllustrator.enforceRange, hh, hw] at hf

/-- On two well-formed renderers of the same dimensions `illustrate` has the same outcome. -/
theorem illustrate_det (f g : FlagIllustrator) (hf : f._image.WF) (hg : g._image.WF)
    (hr : f._image._rows = g._image._rows) (hc : f._image._cols = g._image._cols)
    (eType : FlagType) : f.illustrate eType = g.illustrate eType := by
  obtain ⟨f', hf', a1, a2, a3, a4⟩ := illustrate_fill f hf eType
  obtain ⟨g', hg', b1, b2, b3, b4⟩ := illustrate_fill g hg eType
  rw [hf', hg']
  congr 1
  obtain ⟨i⟩ := f'
  obtain ⟨j⟩ := g'
  congr 1
  simp only at a1 a2 a3 a4 b1 b2 b3 b4
  apply WF_ext i j a3 b3 (by omega) (by omega)
  intro r c hr0 hr1 hc0 hc1
  rw [a4 r c hr0 (by omega) hc0 (by omega), b4 r c hr0 (by omega) hc0 (by omega), hr, hc]

/-- C13: for every selector `s` and any two renderers of the same height and width,
whatever their pixels, `illustrate(s)` returns the same renderer state on both and keeps the
height and the width; hence `illustrate(s)` applied to its own result returns that result
again, and `illustrate(t)` after `illustrate(s)` returns what `illustrate(t)` returns on a
freshly constructed renderer of those dimensions. -/
theorem C13_illustrate_overwrites (s : FlagType) (f g : FlagIllustrator)
    (hf : f._image.WF) (hg : g._image.WF)
    (hh : f._image.getHeight = g._image.getHeight)
    (hw : f._image.getWidth = g._image.getWidth) :
    ∃ f', f.illustrate s = Except.ok f' ∧ g.illustrate s = Except.ok f' ∧
      f'._image.getHeight = f._image.getHeight ∧ f'._image.getWidth = f._image.getWidth ∧
      f'.illustrate s = Except.ok f' ∧
      ∀ t, ∃ f'', f'.illustrate t = Except.ok f'' ∧
        ∀ f0, FlagIllustrator.mk2 f._image.getHeight f._image.getWidth = Except.ok f0 →
          f0.illustrate t = Except.ok f'' := by
  simp only [UJImage.getHeight, UJImage.getWidth] at *
  obtain ⟨f', hf', a1, a2, a3, _⟩ := illustrate_fill f hf s
  refine ⟨f', hf', ?_, a1, a2, ?_, ?_⟩
  · rw [← illustrate_det f g hf hg hh hw s]; exact hf'
  · rw [illustrate_det f' f a3 hf a1 a2 s]; exact hf'
  · intro t
    obtain ⟨f'', hf'', _⟩ := illustrate_fill f' a3 t
    refine ⟨f'', hf'', ?_⟩
    intro f0 h0
    obtain ⟨b1, b2, b3, _⟩ := flag_mk2_inv _ _ f0 h0
    rw [illustrate_det f0 f' b1 a3 (by omega) (by omega) t]; exact hf''

/-- Witness of C13 on the 7×2 sample renderer and a white renderer of the same size. -/
theorem C13_illustrate_overwrites_witness :
    ∃ f', sampleFlag.illustrate FlagType.NIGERIA = Except.ok f' ∧
      FlagIllustrator.illustrate
        ⟨⟨List.replicate 7 (List.replicate 2 white), 7, 2⟩⟩ FlagType.NIGERIA = Except.ok f' ∧
      f'._image.getHeight = sampleFlag._image.getHeight ∧
      f'._image.getWidth = sampleFlag._image.getWidth ∧
      f'.illustrate FlagType.NIGERIA = Except.ok f' ∧
      ∀ t, ∃ f'', f'.illustrate t = Except.ok f'' ∧
        ∀ f0, FlagIllustrator.mk2 sampleFlag._image.getHeight sampleFlag._image.getWidth
            = Except.ok f0 →
          f0.illustrate t = Except.ok f'' :=
  C13_illustrate_overwrites FlagType.NIGERIA sampleFlag
    ⟨⟨List.replicate 7 (List.replicate 2 white), 7, 2⟩⟩ (by decide) (by decide) (by decide)
    (by decide)

/-! ## The invariant of the reachable states -/

/-- A well-formed buffer whose in-bounds cells read valid pixels holds valid pixels only. -/
theorem validPixels_of_load (img : UJImage) (h : img.WF)
    (hl : ∀ r c, 0 ≤ r → r < img._rows → 0 ≤ c → c < img._cols → (img.load r c).Valid) :
    img.ValidPixels := by
  obtain ⟨h1, h2, h3⟩ := h
  intro row hrow p hp
  obtain ⟨i, hi, rfl⟩ := List.getElem_of_mem hrow
  obtain ⟨j, hj, rfl⟩ := List.getElem_of_mem hp
  have hlen := (h3 _ (List.getElem_mem hi)).2
  have := hl i j (by omega) (by omega) (by omega) (by omega)
  simpa [UJImage.load, List.getElem?_eq_getElem hi, List.getElem?_eq_getElem hj] using this

/-- A write of a valid pixel keeps the buffer well formed and its pixels valid. -/
theorem store_valid (img : UJImage) (r c : Int) (p : UJPixel) (h : img.WF)
    (hv : img.ValidPixels) (hr0 : 0 ≤ r) (hc0 : 0 ≤ c) (hp : p.Valid) :
    (img.store r c p).ValidPixels := by
  apply validPixels_of_load _ (store_WF img r c p h)
  intro r' c' a b c0 d
  rw [store_rows] at b
  rw [store_cols] at d
  by_cases e : r' = r ∧ c' = c
  · obtain ⟨rfl, rfl⟩ := e
    rw [load_store_same img r' c' p h a b c0 d]; exact hp
  · rw [load_store_other img r c r' c' p hr0 hc0 a c0 (by omega)]
    exact load_valid img h hv r' c' a b c0 d

/-- A `setPixel` that returns has passed its five range checks and has written the cell. -/
theorem setPixel_inv (img img' : UJImage) (r c : Int) (p : UJPixel)
    (h : img.setPixel r c p = Except.ok img') :
    (0 ≤ r ∧ r < img._rows) ∧ (0 ≤ c ∧ c < img._cols) ∧ p.Valid ∧ img' = img.store r c p := by
  rw [UJImage.setPixel, setPixelExec_eq] at h
  split_ifs at h with hc
  simp only [Except.ok.injEq] at h
  exact ⟨by omega, by omega, ⟨by omega, by omega, by omega⟩, h.symm⟩

/-- A buffer returned by `alloc` is well formed, white, and has the dimensions asked for. -/
theorem alloc_inv (R C : Int) (img : UJImage) (h : UJImage.alloc R C = Except.ok img) :
    img.WF ∧ img.ValidPixels ∧ img._rows = R ∧ img._cols = C := by
  by_cases hR : R < 0
  · simp [UJImage.alloc, hR] at h
  by_cases hR0 : R = 0
  · subst hR0
    simp [UJImage.alloc, forUpTo, loopFrom] at h
    subst h
    exact ⟨⟨le_refl _, rfl, by simp⟩, by intro row hrow; simp at hrow, rfl, rfl⟩
  by_cases hC : C < 0
  · exfalso
    obtain ⟨k, hk⟩ : ∃ k, R.toNat = k + 1 := ⟨R.toNat - 1, by omega⟩
    simp [UJImage.alloc, hR, forUpTo, hk, loopFrom, hC] at h
  · rw [alloc_eq R C (by omega) (by omega)] at h
    injection h with h
    subst h
    refine ⟨alloc_WF R C (by omega) (by omega), ?_, rfl, rfl⟩
    intro row hrow p hp
    rw [List.eq_of_mem_replicate hrow] at hp
    rw [List.eq_of_mem_replicate hp]
    decide

/-- A buffer returned by the copy constructor of a well-formed buffer of valid pixels is
well formed and holds valid pixels. -/
theorem copy_inv (X Y : UJImage) (hX : X.WF) (hv : X.ValidPixels)
    (h : UJImage.copy X = Except.ok Y) : Y.WF ∧ Y.ValidPixels := by
  obtain ⟨img, himg, e1, e2, hwf, _⟩ := mk2_of_WF X hX
  obtain ⟨Y', hY, q1, q2, q3, q4⟩ := clone_ok img X hwf e1 e2
  have e : Y = Y' := by
    simp only [UJImage.copy, himg, hY, Except.ok.injEq] at h
    exact h.symm
  subst e
  refine ⟨q3, validPixels_of_load Y q3 ?_⟩
  intro r c a b c0 d
  rw [q4 r c a (by omega) c0 (by omega)]
  exact load_valid X hX hv r c a (by omega) c0 (by omega)

/-- Every reachable buffer is well formed and holds valid pixels only. -/
theorem buffer_reachable_inv (img : UJImage) (h : img.Reachable) : img.WF ∧ img.ValidPixels := by
  induction h with
  | mk0 img h =>
    obtain ⟨a, b, _, _⟩ := alloc_inv 2 2 img h
    exact ⟨a, b⟩
  | mk2 R C img h =>
    obtain ⟨a, b, _, _⟩ := alloc_inv R C img h
    exact ⟨a, b⟩
  | copy X Y _ h ih => exact copy_inv X Y ih.1 ih.2 h
  | setPixel img img' r c p _ h ih =>
    obtain ⟨⟨a, _⟩, ⟨b, _⟩, hp, rfl⟩ := setPixel_inv img img' r c p h
    exact ⟨store_WF img r c p ih.1, store_valid img r c p ih.1 ih.2 a b hp⟩

/-- The constructor `FlagIllustrator(height, width)` returns only on dimensions in
`[0,10000]`. -/
theorem flag_mk2_range (h w : Int) (f : FlagIllustrator)
    (hf : FlagIllustrator.mk2 h w = Except.ok f) :
    (0 ≤ h ∧ h ≤ 10000) ∧ (0 ≤ w ∧ w ≤ 10000) := by
  by_contra hd
  by_cases hh : h < 0 ∨ h > 10000
  · simp [FlagIllustrator.mk2, FlagIllustrator.enforceRange, hh] at hf
  · have hw : w < 0 ∨ w > 10000 := by omega
    simp [FlagIllustrator.mk2, FlagIllustrator.enforceRange, hh, hw] at hf

/-- Every reachable renderer owns a well-formed buffer of valid pixels whose dimensions are
in `[0,10000]`. -/
theorem flag_reachable_inv (f : FlagIllustrator) (h : f.Reachable) :
    f._image.WF ∧ f._image.ValidPixels ∧ f._image._rows ≤ 10000 ∧
      0 ≤ f._image._cols ∧ f._image._cols ≤ 10000 := by
  have mk : ∀ (a b : Int) (f : FlagIllustrator), FlagIllustrator.mk2 a b = Except.ok f →
      f._image.WF ∧ f._image.ValidPixels ∧ f._image._rows ≤ 10000 ∧
        0 ≤ f._image._cols ∧ f._image._cols ≤ 10000 := by
    intro a b f h
    obtain ⟨q1, q2, q3, q4⟩ := flag_mk2_inv a b f h
    have hr := flag_mk2_range a b f h
    exact ⟨q1, q4, by omega, by omega, by omega⟩
  induction h with
  | mk0 f h => exact mk _ _ f h
  | mk2 a b f h => exact mk a b f h
  | copy X Y _ h ih =>
    obtain ⟨i1, i2, i3, i4, i5⟩ := ih
    obtain ⟨img, himg, e1, e2, hwf, _⟩ := mk2_of_WF X._image i1
    have hmk : FlagIllustrator.mk2 X._image.getHeight X._image.getWidth = Except.ok ⟨img⟩ := by
      have c1 : ¬ (X._image._rows < 0 ∨ X._image._rows > 10000) := by have := i1.1; omega
      have c2 : ¬ (X._image._cols < 0 ∨ X._image._cols > 10000) := by omega
      simp [FlagIllustrator.mk2, FlagIllustrator.enforceRange, FlagIllustrator.alloc,
        UJImage.getHeight, UJImage.getWidth, c1, c2, himg]
    obtain ⟨Y', hY, q1, q2, q3, q4⟩ := flag_clone_ok ⟨img⟩ X hwf e1 e2 i1 i2
    have e : Y = Y' := by
      simp only [FlagIllustrator.copy, hmk, hY, Except.ok.injEq] at h
      exact h.symm
    subst e
    refine ⟨q3, validPixels_of_load _ q3 ?_, by omega, by omega, by omega⟩
    intro r c a b c0 d
    rw [q4 r c a (by omega) c0 (by omega)]
    exact load_valid _ i1 i2 r c a (by omega) c0 (by omega)
  | illustrate f f' s _ h ih =>
    obtain ⟨i1, i2, i3, i4, i5⟩ := ih
    obtain ⟨g, hg, a1, a2, a3, a4⟩ := illustrate_fill f i1 s
    have e : f' = g := by rw [hg] at h; injection h with h; exact h.symm
    subst e
    refine ⟨a3, validPixels_of_load _ a3 ?_, by omega, by omega, by omega⟩
    intro r c a b c0 d
    rw [a4 r c a (by omega) c0 (by omega)]
    exact paint_valid _ _ _ _ _
  | setPixel f f' r c p _ h ih =>
    obtain ⟨i1, i2, i3, i4, i5⟩ := ih
    cases hs : f._image.setPixel r c p with
    | error e => simp [FlagIllustrator.put, hs] at h
    | ok img' =>
      simp only [FlagIllustrator.put, hs, Except.ok.injEq] at h
      subst h
      obtain ⟨⟨a, _⟩, ⟨b, _⟩, hp, rfl⟩ := setPixel_inv f._image img' r c p hs
      exact ⟨store_WF _ r c p i1, store_valid _ r c p i1 i2 a b hp, i3, i4, i5⟩

/-- C14: in every buffer state and in every renderer state reached from a constructor by
calls of `setPixel` and `illustrate` that return and by copy construction, every pixel held
has its red, green and blue channels in `[0,255]`, and so has the pixel that `getPixel`
returns at every in-bounds cell. -/
theorem C14_valid_pixel_invariant :
    (∀ img : UJImage, img.Reachable →
      img.ValidPixels ∧
      ∀ r c, 0 ≤ r → r < img.getHeight → 0 ≤ c → c < img.getWidth →
        ∃ p, img.getPixel r c = Except.ok p ∧ p.Valid) ∧
    (∀ f : FlagIllustrator, f.Reachable →
      f._image.ValidPixels ∧
      ∀ r c, 0 ≤ r → r < f._image.getHeight → 0 ≤ c → c < f._image.getWidth →
        ∃ p, f._image.getPixel r c = Except.ok p ∧ p.Valid) := by
  constructor
  · intro img h
    obtain ⟨a, b⟩ := buffer_reachable_inv img h
    refine ⟨b, ?_⟩
    intro r c hr0 hr hc0 hc
    exact ⟨_, getPixel_ok img r c hr0 hr hc0 hc, load_valid img a b r c hr0 hr hc0 hc⟩
  · intro f h
    obtain ⟨a, b, _⟩ := flag_reachable_inv f h
    refine ⟨b, ?_⟩
    intro r c hr0 hr hc0 hc
    exact ⟨_, getPixel_ok _ r c hr0 hr hc0 hc, load_valid _ a b r c hr0 hr hc0 hc⟩

/-- Witness of C14: the 2×2 buffer, and the 2×2 renderer, after `setPixel(0, 1, (1,2,3))`. -/
theorem C14_valid_pixel_invariant_witness :
    (sampleWritten.Reachable ∧ sampleWritten.ValidPixels) ∧
    (FlagIllustrator.Reachable ⟨sampleWritten⟩ ∧ sampleWritten.ValidPixels) :=
  ⟨⟨UJImage.Reachable.setPixel sampleWhite sampleWritten 0 1 ⟨1, 2, 3⟩
      (UJImage.Reachable.mk0 sampleWhite (by decide)) (by decide),
    (C14_valid_pixel_invariant.1 sampleWritten
      (UJImage.Reachable.setPixel sampleWhite sampleWritten 0 1 ⟨1, 2, 3⟩
        (UJImage.Reachable.mk0 sampleWhite (by decide)) (by decide))).1⟩,
   ⟨FlagIllustrator.Reachable.setPixel ⟨sampleWhite⟩ ⟨sampleWritten⟩ 0 1 ⟨1, 2, 3⟩
      (FlagIllustrator.Reachable.mk2 2 2 ⟨sampleWhite⟩ (by decide)) (by decide),
    (C14_valid_pixel_invariant.2 ⟨sampleWritten⟩
      (FlagIllustrator.Reachable.setPixel ⟨sampleWhite⟩ ⟨sampleWritten⟩ 0 1 ⟨1, 2, 3⟩
        (FlagIllustrator.Reachable.mk2 2 2 ⟨sampleWhite⟩ (by decide)) (by decide))).1⟩⟩

/-! ## Grayscale intensities -/

/-- The intensity of a valid pixel is in `[0,255]`. -/
theorem average_range (p : UJPixel) (hp : p.Valid) :
    0 ≤ GrayscaleIllustrator.average p ∧ GrayscaleIllustrator.average p ≤ 255 := by
  obtain ⟨⟨a1, a2⟩, ⟨b1, b2⟩, ⟨c1, c2⟩⟩ := hp
  rw [GrayscaleIllustrator.average, Int.tdiv_eq_ediv (by omega) (by decide)]
  omega

/-- C15: for every pixel with channels in `[0,255]`, `average(p)`, the truncated
`(R + G + B) / 3`, lies in `[0,255]`; so the grayscale export of every reachable renderer
is its header followed by tokens that are the decimals of integers in `[0,255]`; the
intensity of `(255,0,0)` is 85 and that of `(255,255,255)` is 255. -/
theorem C15_grayscale_range (p : UJPixel) (hp : p.Valid) :
    (GrayscaleIllustrator.average p = Int.tdiv (p.intRed + p.intGreen + p.intBlue) 3 ∧
      0 ≤ GrayscaleIllustrator.average p ∧ GrayscaleIllustrator.average p ≤ 255) ∧
    GrayscaleIllustrator.average ⟨255, 0, 0⟩ = 85 ∧
    GrayscaleIllustrator.average ⟨255, 255, 255⟩ = 255 ∧
    (∀ f : FlagIllustrator, f.Reachable →
      ∃ tok : Nat → Nat → Int,
        (∀ r c : Nat, (r : Int) < f._image.getHeight → (c : Int) < f._image.getWidth →
          0 ≤ tok r c ∧ tok r c ≤ 255) ∧
        GrayscaleIllustrator.exportImage f = Except.ok
          ("P2\n" ++ decimal f._image.getWidth ++ " " ++ decimal f._image.getHeight ++ "\n255\n" ++
            String.join ((List.range f._image.getHeight.toNat).map (fun (r : Nat) =>
              String.join ((List.range f._image.getWidth.toNat).map (fun (c : Nat) =>
                decimal (tok r c) ++ " ")) ++ "\n")))) := by
  refine ⟨⟨rfl, average_range p hp⟩, by decide, by decide, ?_⟩
  intro f hf
  obtain ⟨a, b, _⟩ := flag_reachable_inv f hf
  refine ⟨fun r c => GrayscaleIllustrator.average (f._image.load r c), ?_, ?_⟩
  · intro r c hr hc
    exact average_range _ (load_valid _ a b r c (by omega) hr (by omega) hc)
  · have h := export_grid f._image (fun p => decimal (GrayscaleIllustrator.average p))
      ("P2" ++ "\n" ++ decimal f._image.getWidth ++ " " ++ decimal f._image.getHeight
        ++ "\n" ++ decimal 255 ++ "\n")
    rw [GrayscaleIllustrator.exportImage]
    simp only [] at h ⊢
    rw [h]
    simp only [String.append_assoc]
    rw [text_P2, text_255]

/-- Witness of C15 at the pixel `(255,0,0)`. -/
theorem C15_grayscale_range_witness :
    UJPixel.Valid ⟨255, 0, 0⟩ ∧
    0 ≤ GrayscaleIllustrator.average ⟨255, 0, 0⟩ ∧ GrayscaleIllustrator.average ⟨255, 0, 0⟩ ≤ 255 :=
  ⟨by decide, (C15_grayscale_range ⟨255, 0, 0⟩ (by decide)).1.2⟩

/-! ## Pattern C is the transpose of Pattern A -/

/-- C16: for a renderer of height `h` and width `w` and a renderer of height `w` and width
`h`, the cell `(r, c)` after `illustrate(NIGERIA)` on the first is the middle colour
`(255,255,255)` exactly when the cell `(c, r)` after `illustrate(AUSTRIA)` on the second is
the middle colour, at every in-bounds `(r, c)`. -/
theorem C16_pattern_C_transpose (f g : FlagIllustrator) (hf : f._image.WF) (hg : g._image.WF)
    (h1 : g._image.getHeight = f._image.getWidth)
    (h2 : g._image.getWidth = f._image.getHeight) :
    ∃ f' g', f.illustrate FlagType.NIGERIA = Except.ok f' ∧
      g.illustrate FlagType.AUSTRIA = Except.ok g' ∧
      ∀ r c, 0 ≤ r → r < f._image.getHeight → 0 ≤ c → c < f._image.getWidth →
        (f'._image.getPixel r c = Except.ok ⟨255, 255, 255⟩ ↔
          g'._image.getPixel c r = Except.ok ⟨255, 255, 255⟩) := by
  simp only [UJImage.getHeight, UJImage.getWidth] at *
  obtain ⟨f', hf', a1, a2, a3, a4⟩ := illustrate_fill f hf FlagType.NIGERIA
  obtain ⟨g', hg', b1, b2, b3, b4⟩ := illustrate_fill g hg FlagType.AUSTRIA
  refine ⟨f', g', hf', hg', ?_⟩
  intro r c hr0 hr hc0 hc
  rw [getPixel_ok _ r c hr0 (by omega) hc0 (by omega),
    getPixel_ok _ c r hc0 (by omega) hr0 (by omega),
    a4 r c hr0 hr hc0 hc, b4 c r hc0 (by omega) hr0 (by omega), h1]
  simp only [paint]
  by_cases hm : c > Int.tdiv f._image._cols 3 ∧ c < Int.tdiv f._image._cols 3 * 2
  · simp [hm]
  · simp only [hm, if_false]
    constructor <;> intro h <;> exact absurd h (by decide)

/-- Witness of C16 on a 2×7 white renderer and the 7×2 sample renderer. -/
theorem C16_pattern_C_transpose_witness :
    ∃ f' g',
      FlagIllustrator.illustrate ⟨⟨List.replicate 2 (List.replicate 7 white), 2, 7⟩⟩
        FlagType.NIGERIA = Except.ok f' ∧
      sampleFlag.illustrate FlagType.AUSTRIA = Except.ok g' ∧
      ∀ r c, 0 ≤ r → r < 2 → 0 ≤ c → c < 7 →
        (f'._image.getPixel r c = Except.ok ⟨255, 255, 255⟩ ↔
          g'._image.getPixel c r = Except.ok ⟨255, 255, 255⟩) :=
  C16_pattern_C_transpose ⟨⟨List.replicate 2 (List.replicate 7 white), 2, 7⟩⟩ sampleFlag
    (by decide) (by decide) (by decide) (by decide)

/-! ## Drawing and exporting return -/

/-- C18: for every height and width in `[0,10000]` the constructor returns a renderer, and
on every reachable renderer, for every selector, `illustrate` returns (no `setPixel` of
its loops takes the range-error path: every index is in bounds and every colour painted
has its channels in `[0,255]`), after which each of the three `exportImage` members
returns a text (no `getPixel` of their loops takes the range-error path). -/
theorem C18_draw_export_total (intHeight intWidth : Int)
    (hh : 0 ≤ intHeight ∧ intHeight ≤ 10000) (hw : 0 ≤ intWidth ∧ intWidth ≤ 10000)
    (eType : FlagType) :
    (∃ f, FlagIllustrator.mk2 intHeight intWidth = Except.ok f ∧ f.Reachable) ∧
    (∀ f : FlagIllustrator, f.Reachable →
      (∃ f', f.illustrate eType = Except.ok f' ∧
        (∃ s, ColourIllustrator.exportImage f' = s) ∧
        (∃ s, GrayscaleIllustrator.exportImage f' = Except.ok s) ∧
        (∃ s, BWIllustrator.exportImage f' = Except.ok s)) ∧
      (∃ s, GrayscaleIllustrator.exportImage f = Except.ok s) ∧
      (∃ s, BWIllustrator.exportImage f = Except.ok s) ∧
      (∀ r c, (paint eType f._image.getHeight f._image.getWidth r c).Valid)) := by
  constructor
  · exact ⟨_, flag_mk2_ok intHeight intWidth hh.1 hh.2 hw.1 hw.2,
      FlagIllustrator.Reachable.mk2 intHeight intWidth _
        (flag_mk2_ok intHeight intWidth hh.1 hh.2 hw.1 hw.2)⟩
  · intro f hf
    obtain ⟨a, _⟩ := flag_reachable_inv f hf
    obtain ⟨f', hf', _⟩ := illustrate_fill f a eType
    have gray : ∀ g : FlagIllustrator, ∃ s, GrayscaleIllustrator.exportImage g = Except.ok s := by
      intro g
      have h := export_grid g._image (fun p => decimal (GrayscaleIllustrator.average p))
        ("P2" ++ "\n" ++ decimal g._image.getWidth ++ " " ++ decimal g._image.getHeight
          ++ "\n" ++ decimal 255 ++ "\n")
      exact ⟨_, h⟩
    have bw : ∀ g : FlagIllustrator, ∃ s, BWIllustrator.exportImage g = Except.ok s := by
      intro g
      have h := export_grid g._image
        (fun p => decimal (if BWIllustrator.isWhite p = true then 0 else 1))
        ("P1" ++ "\n" ++ decimal g._image.getWidth ++ " " ++ decimal g._image.getHeight ++ "\n")
      exact ⟨_, h⟩
    exact ⟨⟨f', hf', ⟨_, rfl⟩, gray f', bw f'⟩, gray f, bw f, fun r c => paint_valid _ _ _ r c⟩

/-- Witness of C18 at height 7 and width 2 with the selector `JAPAN`. -/
theorem C18_draw_export_total_witness :
    (0 ≤ (7 : Int) ∧ (7 : Int) ≤ 10000) ∧ (0 ≤ (2 : Int) ∧ (2 : Int) ≤ 10000) ∧
    ∃ f, FlagIllustrator.mk2 7 2 = Except.ok f ∧ f.Reachable :=
  ⟨by decide, by decide, (C18_draw_export_total 7 2 (by decide) (by decide) FlagType.JAPAN).1⟩

/-! ## Band sizes -/

/-- The number of indices below `n` that lie strictly between `T` and `2 * T`. -/
theorem band_count (n T : Nat) (h : 2 * T ≤ n) (p : Nat → Prop) [DecidablePred p]
    (hp : ∀ r, r < n → (p r ↔ T < r ∧ r < 2 * T)) :
    ((Finset.range n).filter p).card = T - 1 := by
  have e : (Finset.range n).filter p = Finset.Ioo T (2 * T) := by
    ext r
    simp only [Finset.mem_filter, Finset.mem_range, Finset.mem_Ioo]
    constructor
    · rintro ⟨h1, h2⟩; exact (hp r h1).1 h2
    · intro h1; exact ⟨by omega, (hp r (by omega)).2 h1⟩
  rw [e, Nat.card_Ioo]
  omega

/-- C19: after `illustrate(AUSTRIA)` on a renderer of height `h`, the number of rows painted
the middle colour is `max(h / 3 - 1, 0)`; for `h < 6` every cell is the outer colour; for
`h ≥ 6` the rows form three non-empty bands that fill the height: the `h / 3 + 1` top rows
are outer, the next `h / 3 - 1` rows are middle and the last `h - 2 * (h / 3)` rows are
outer.  The same holds after `illustrate(NIGERIA)` for the width and the columns. -/
theorem C19_band_sizes (f : FlagIllustrator) (hwf : f._image.WF) :
    (∃ f', f.illustrate FlagType.AUSTRIA = Except.ok f' ∧
      (∀ c, 0 ≤ c → c < f._image.getWidth →
        ((Finset.range f._image.getHeight.toNat).filter (fun (r : Nat) =>
          f'._image.getPixel r c = Except.ok ⟨255, 255, 255⟩)).card
          = (max (f._image.getHeight / 3 - 1) 0).toNat) ∧
      (f._image.getHeight < 6 →
        ∀ r c, 0 ≤ r → r < f._image.getHeight → 0 ≤ c → c < f._image.getWidth →
          f'._image.getPixel r c = Except.ok ⟨239, 51, 64⟩) ∧
      (6 ≤ f._image.getHeight →
        (0 < f._image.getHeight / 3 + 1 ∧ 0 < f._image.getHeight / 3 - 1 ∧
          0 < f._image.getHeight - 2 * (f._image.getHeight / 3)) ∧
        (f._image.getHeight / 3 + 1) + (f._image.getHeight / 3 - 1)
          + (f._image.getHeight - 2 * (f._image.getHeight / 3)) = f._image.getHeight ∧
        ∀ r c, 0 ≤ r → r < f._image.getHeight → 0 ≤ c → c < f._image.getWidth →
          (r < f._image.getHeight / 3 + 1 →
            f'._image.getPixel r c = Except.ok ⟨239, 51, 64⟩) ∧
          (f._image.getHeight / 3 + 1 ≤ r → r < 2 * (f._image.getHeight / 3) →
            f'._image.getPixel r c = Except.ok ⟨255, 255, 255⟩) ∧
          (2 * (f._image.getHeight / 3) ≤ r →
            f'._image.getPixel r c = Except.ok ⟨239, 51, 64⟩))) ∧
    (∃ f', f.illustrate FlagType.NIGERIA = Except.ok f' ∧
      (∀ r, 0 ≤ r → r < f._image.getHeight →
        ((Finset.range f._image.getWidth.toNat).filter (fun (c : Nat) =>
          f'._image.getPixel r c = Except.ok ⟨255, 255, 255⟩)).card
          = (max (f._image.getWidth / 3 - 1) 0).toNat) ∧
      (f._image.getWidth < 6 →
        ∀ r c, 0 ≤ r → r < f._image.getHeight → 0 ≤ c → c < f._image.getWidth →
          f'._image.getPixel r c = Except.ok ⟨27, 115, 57⟩) ∧
      (6 ≤ f._image.getWidth →
        (0 < f._image.getWidth / 3 + 1 ∧ 0 < f._image.getWidth / 3 - 1 ∧
          0 < f._image.getWidth - 2 * (f._image.getWidth / 3)) ∧
        (f._image.getWidth / 3 + 1) + (f._image.getWidth / 3 - 1)
          + (f._image.getWidth - 2 * (f._image.getWidth / 3)) = f._image.getWidth ∧
        ∀ r c, 0 ≤ r → r < f._image.getHeight → 0 ≤ c → c < f._image.getWidth →
          (c < f._image.getWidth / 3 + 1 →
            f'._image.getPixel r c = Except.ok ⟨27, 115, 57⟩) ∧
          (f._image.getWidth / 3 + 1 ≤ c → c < 2 * (f._image.getWidth / 3) →
            f'._image.getPixel r c = Except.ok ⟨255, 255, 255⟩) ∧
          (2 * (f._image.getWidth / 3) ≤ c →
            f'._image.getPixel r c = Except.ok ⟨27, 115, 57⟩))) := by
  simp only [UJImage.getHeight, UJImage.getWidth]
  have hH : 0 ≤ f._image._rows := hwf.1
  constructor
  · obtain ⟨f', hf', a1, a2, a3, a4⟩ := illustrate_fill f hwf FlagType.AUSTRIA
    have hth : Int.tdiv f._image._rows 3 = f._image._rows / 3 :=
      Int.tdiv_eq_ediv hH (by decide)
    have hpix : ∀ r c, 0 ≤ r → r < f._image._rows → 0 ≤ c → c < f._image._cols →
        f'._image.getPixel r c = Except.ok
          (if f._image._rows / 3 < r ∧ r < 2 * (f._image._rows / 3)
            then ⟨255, 255, 255⟩ else ⟨239, 51, 64⟩) := by
      intro r c hr0 hr hc0 hc
      rw [getPixel_ok _ r c hr0 (by omega) hc0 (by omega), a4 r c hr0 hr hc0 hc]
      have e : (r > f._image._rows / 3 ∧ r < f._image._rows / 3 * 2) ↔
          (f._image._rows / 3 < r ∧ r < 2 * (f._image._rows / 3)) := by
        constructor <;> intro h <;> omega
      simp only [paint, hth, e]
    refine ⟨f', hf', ?_, ?_, ?_⟩
    · intro c hc0 hc
      rw [band_count f._image._rows.toNat (f._image._rows / 3).toNat (by omega)]
      · omega
      · intro r hr
        rw [hpix r c (by omega) (by omega) hc0 hc]
        by_cases hm : f._image._rows / 3 < (r : Int) ∧ (r : Int) < 2 * (f._image._rows / 3)
        · simp only [hm, and_self, if_true, true_iff]; omega
        · simp only [hm, if_false]
          constructor
          · intro h; exact absurd h (by decide)
          · intro h; omega
    · intro h6 r c hr0 hr hc0 hc
      rw [hpix r c hr0 hr hc0 hc, if_neg (by omega)]
    · intro h6
      refine ⟨⟨by omega, by omega, by omega⟩, by omega, ?_⟩
      intro r c hr0 hr hc0 hc
      refine ⟨?_, ?_, ?_⟩
      · intro h; rw [hpix r c hr0 hr hc0 hc, if_neg (by omega)]
      · intro h h'; rw [hpix r c hr0 hr hc0 hc, if_pos (by omega)]
      · intro h; rw [hpix r c hr0 hr hc0 hc, if_neg (by omega)]
  · obtain ⟨f', hf', a1, a2, a3, a4⟩ := illustrate_fill f hwf FlagType.NIGERIA
    have hpix : ∀ r c, 0 ≤ r → r < f._image._rows → 0 ≤ c → c < f._image._cols →
        f'._image.getPixel r c = Except.ok
          (if f._image._cols / 3 < c ∧ c < 2 * (f._image._cols / 3)
            then ⟨255, 255, 255⟩ else ⟨27, 115, 57⟩) := by
      intro r c hr0 hr hc0 hc
      have hth : Int.tdiv f._image._cols 3 = f._image._cols / 3 :=
        Int.tdiv_eq_ediv (by omega) (by decide)
      rw [getPixel_ok _ r c hr0 (by omega) hc0 (by omega), a4 r c hr0 hr hc0 hc]
      have e : (c > f._image._cols / 3 ∧ c < f._image._cols / 3 * 2) ↔
          (f._image._cols / 3 < c ∧ c < 2 * (f._image._cols / 3)) := by
        constructor <;> intro h <;> omega
      simp only [paint, hth, e]
    refine ⟨f', hf', ?_, ?_, ?_⟩
    · intro r hr0 hr
      have hW : 0 ≤ f._image._cols := WF_cols_nonneg _ hwf (by omega)
      rw [band_count f._image._cols.toNat (f._image._cols / 3).toNat (by omega)]
      · omega
      · intro c hc
        rw [hpix r c hr0 hr (by omega) (by omega)]
        by_cases hm : f._image._cols / 3 < (c : Int) ∧ (c : Int) < 2 * (f._image._cols / 3)
        · simp only [hm, and_self, if_true, true_iff]; omega
        · simp only [hm, if_false]
          constructor
          · intro h; exact absurd h (by decide)
          · intro h; omega
    · intro h6 r c hr0 hr hc0 hc
      rw [hpix r c hr0 hr hc0 hc, if_neg (by omega)]
    · intro h6
      refine ⟨⟨by omega, by omega, by omega⟩, by omega, ?_⟩
      intro r c hr0 hr hc0 hc
      refine ⟨?_, ?_, ?_⟩
      · intro h; rw [hpix r c hr0 hr hc0 hc, if_neg (by omega)]
      · intro h h'; rw [hpix r c hr0 hr hc0 hc, if_pos (by omega)]
      · intro h; rw [hpix r c hr0 hr hc0 hc, if_neg (by omega)]

/-- Witness of C19 on the 7×2 sample renderer: one middle row. -/
theorem C19_band_sizes_witness :
    sampleFlag._image.WF ∧
    ∃ f', sampleFlag.illustrate FlagType.AUSTRIA = Except.ok f' ∧
      ∀ c, 0 ≤ c → c < sampleFlag._image.getWidth →
        ((Finset.range sampleFlag._image.getHeight.toNat).filter (fun (r : Nat) =>
          f'._image.getPixel r c = Except.ok ⟨255, 255, 255⟩)).card
          = (max (sampleFlag._image.getHeight / 3 - 1) 0).toNat :=
  ⟨by decide, (C19_band_sizes sampleFlag (by decide)).1.imp (fun _ h => ⟨h.1, h.2.1⟩)⟩

/-! ## Binary and grayscale exports agree on white -/

/-- A valid pixel is exactly white when its intensity is 255. -/
theorem isWhite_iff_average (p : UJPixel) (hp : p.Valid) :
    BWIllustrator.isWhite p = true ↔ GrayscaleIllustrator.average p = 255 := by
  obtain ⟨⟨a1, a2⟩, ⟨b1, b2⟩, ⟨c1, c2⟩⟩ := hp
  rw [GrayscaleIllustrator.average, Int.tdiv_eq_ediv (by omega) (by decide)]
  simp only [BWIllustrator.isWhite, Bool.and_eq_true, decide_eq_true_eq]
  constructor
  · rintro ⟨⟨h1, h2⟩, h3⟩; omega
  · intro h; refine ⟨⟨?_, ?_⟩, ?_⟩ <;> omega

/-- C20: for every pixel with channels in `[0,255]`, `isWhite(p)` holds exactly when
`average(p)` is 255; so on every reachable renderer the binary export writes the bit 0 at
exactly the cells where the grayscale export writes the intensity 255. -/
theorem C20_white_agreement (p : UJPixel) (hp : p.Valid) :
    (BWIllustrator.isWhite p = true ↔ GrayscaleIllustrator.average p = 255) ∧
    (∀ f : FlagIllustrator, f.Reachable →
      ∃ bit inten : Nat → Nat → Int,
        (∀ r c : Nat, (r : Int) < f._image.getHeight → (c : Int) < f._image.getWidth →
          (bit r c = 0 ↔ inten r c = 255)) ∧
        BWIllustrator.exportImage f = Except.ok
          ("P1\n" ++ decimal f._image.getWidth ++ " " ++ decimal f._image.getHeight ++ "\n" ++
            String.join ((List.range f._image.getHeight.toNat).map (fun (r : Nat) =>
              String.join ((List.range f._image.getWidth.toNat).map (fun (c : Nat) =>
                decimal (bit r c) ++ " ")) ++ "\n"))) ∧
        GrayscaleIllustrator.exportImage f = Except.ok
          ("P2\n" ++ decimal f._image.getWidth ++ " " ++ decimal f._image.getHeight ++ "\n255\n" ++
            String.join ((List.range f._image.getHeight.toNat).map (fun (r : Nat) =>
              String.join ((List.range f._image.getWidth.toNat).map (fun (c : Nat) =>
                decimal (inten r c) ++ " ")) ++ "\n")))) := by
  refine ⟨isWhite_iff_average p hp, ?_⟩
  intro f hf
  obtain ⟨a, b, _⟩ := flag_reachable_inv f hf
  refine ⟨fun r c => if BWIllustrator.isWhite (f._image.load r c) = true then 0 else 1,
    fun r c => GrayscaleIllustrator.average (f._image.load r c), ?_, ?_, ?_⟩
  · intro r c hr hc
    have hv := load_valid _ a b r c (by omega) hr (by omega) hc
    rw [← isWhite_iff_average _ hv]
    by_cases hw : BWIllustrator.isWhite (f._image.load r c) = true
    · simp [hw]
    · simp [hw]
  · have h := export_grid f._image
      (fun p => decimal (if BWIllustrator.isWhite p = true then 0 else 1))
      ("P1" ++ "\n" ++ decimal f._image.getWidth ++ " " ++ decimal f._image.getHeight ++ "\n")
    rw [BWIllustrator.exportImage]
    simp only [] at h ⊢
    rw [h]
    simp only [String.append_assoc]
    rw [text_P1]
  · have h := export_grid f._image (fun p => decimal (GrayscaleIllustrator.average p))
      ("P2" ++ "\n" ++ decimal f._image.getWidth ++ " " ++ decimal f._image.getHeight
        ++ "\n" ++ decimal 255 ++ "\n")
    rw [GrayscaleIllustrator.exportImage]
    simp only [] at h ⊢
    rw [h]
    simp only [String.append_assoc]
    rw [text_P2, text_255]

/-- Witness of C20 at the pixel `(254,255,255)`, which is neither white nor of intensity
255. -/
theorem C20_white_agreement_witness :
    UJPixel.Valid ⟨254, 255, 255⟩ ∧
    (BWIllustrator.isWhite ⟨254, 255, 255⟩ = true ↔
      GrayscaleIllustrator.average ⟨254, 255, 255⟩ = 255) :=
  ⟨by decide, (C20_white_agreement ⟨254, 255, 255⟩ (by decide)).1⟩

/-! ## Selector extraction in `main` -/

/-- Once a digit has been collected, the loop collects the digits that follow and stops. -/
theorem digitRun_collect (l : List Char) :
    ∀ num : List Char, num ≠ [] → digitRun l num = num ++ l.takeWhile Char.isDigit := by
  induction l with
  | nil => intro num _; simp [digitRun]
  | cons ch rest ih =>
    intro num hnum
    by_cases hd : ch.isDigit = true
    · rw [digitRun, if_pos hd, ih _ (by simp), List.takeWhile_cons_of_pos hd]
      simp
    · rw [digitRun, if_neg hd, if_pos hnum, List.takeWhile_cons_of_neg hd]
      simp

/-- The string `num` that the loop of `tryExtractIntInRange` collects: the first maximal run
of consecutive decimal digits of `s`. -/
theorem digitRun_eq (l : List Char) :
    digitRun l [] = (l.dropWhile (fun ch => !ch.isDigit)).takeWhile Char.isDigit := by
  induction l with
  | nil => simp [digitRun]
  | cons ch rest ih =>
    by_cases hd : ch.isDigit = true
    · rw [digitRun, if_pos hd, digitRun_collect rest _ (by simp),
        List.dropWhile_cons_of_neg (by simp [hd]), List.takeWhile_cons_of_pos hd]
      simp
    · rw [digitRun, if_neg hd, if_neg (by simp), ih,
        List.dropWhile_cons_of_pos (by simpa using hd)]

/-- A value that `tryExtractIntInRange` returns is within the bounds asked for. -/
theorem tryExtract_range (s : String) (minv maxv v : Int)
    (h : tryExtractIntInRange s minv maxv = some v) : minv ≤ v ∧ v ≤ maxv := by
  simp only [tryExtractIntInRange] at h
  split_ifs at h with h1
  cases hs : stoi (digitRun s.data []) with
  | none => simp [hs] at h
  | some val =>
    simp only [hs] at h
    split_ifs at h with h2
    simp only [Option.some.injEq] at h
    omega

/-- Every value that the loop of `main` collects is 0, 1 or 2. -/
theorem mainCollect_range (args : List String) :
    ∀ found : List Int, (∀ v ∈ found, 0 ≤ v ∧ v ≤ 2) →
      ∀ v ∈ mainCollect args found, 0 ≤ v ∧ v ≤ 2 := by
  induction args with
  | nil => intro found h; simpa [mainCollect] using h
  | cons arg rest ih =>
    intro found h
    rw [mainCollect]
    split_ifs with hl
    · cases ht : tryExtractIntInRange arg 0 2 with
      | none => exact ih found h
      | some val =>
        apply ih
        intro v hv
        rcases List.mem_append.1 hv with hv | hv
        · exact h v hv
        · simp only [List.mem_singleton] at hv
          subst hv
          exact tryExtract_range arg 0 2 v ht
    · exact h

/-- The two selectors that `main` goes on with are 0, 1 or 2. -/
theorem mainSelectors_range (args : List String) (a b : Int)
    (h : mainSelectors args = Except.ok (a, b)) : (0 ≤ a ∧ a ≤ 2) ∧ (0 ≤ b ∧ b ≤ 2) := by
  have hr := mainCollect_range args [] (by simp)
  simp only [mainSelectors] at h
  split_ifs at h with h1 h2
  · simp only [Except.ok.injEq, Prod.mk.injEq] at h
    obtain ⟨ha, hb⟩ := h
    have e0 : (mainCollect args []).getD 0 0 = (mainCollect args [])[0] :=
      List.getD_eq_getElem _ _ (by omega)
    have e1 : (mainCollect args []).getD 1 0 = (mainCollect args [])[1] :=
      List.getD_eq_getElem _ _ (by omega)
    rw [← ha, ← hb, e0, e1]
    exact ⟨hr _ (List.getElem_mem _), hr _ (List.getElem_mem _)⟩
  · simp only [Except.ok.injEq, Prod.mk.injEq] at h
    obtain ⟨ha, hb⟩ := h
    rw [← ha, ← hb, List.getD_eq_getElem _ _ (by omega)]
    exact ⟨hr _ (List.getElem_mem _), by decide⟩

/-- On every argument list `main` either ends with the usage error, when no argument
yields a selector, or returns a text: the cast of `found[0]` names an enumerator and the
`default` branch of the exporter `switch` is not taken. -/
theorem main_outcome (args : List String) :
    (∃ text, main args = Except.ok text) ∨
      main args = Except.error (Abort.exit ExitCode.ERROR_ARGS) := by
  cases hs : mainSelectors args with
  | error e =>
    right
    simp only [mainSelectors] at hs
    split_ifs at hs with h1
    simp only [Except.error.injEq] at hs
    have hs' : mainSelectors args = Except.error e := by
      simp only [mainSelectors]; rw [if_pos h1, hs]
    simp only [main, hs']
    rw [← hs]
  | ok p =>
    left
    obtain ⟨a, b⟩ := p
    obtain ⟨⟨a0, a2⟩, ⟨b0, b2⟩⟩ := mainSelectors_range args a b hs
    have hb : b = 0 ∨ b = 1 ∨ b = 2 := by omega
    have hmk : FlagIllustrator.mk0 = Except.ok
        ⟨{ _image := List.replicate (480 : Int).toNat (List.replicate (640 : Int).toNat white),
           _rows := 480, _cols := 640 }⟩ :=
      flag_mk2_ok 480 640 (by decide) (by decide) (by decide) (by decide)
    have hwf := alloc_WF 480 640 (by decide) (by decide)
    obtain ⟨eType, hcast⟩ : ∃ eType, castFlagType a = some eType := by
      have ha : a = 0 ∨ a = 1 ∨ a = 2 := by omega
      rcases ha with rfl | rfl | rfl
      · exact ⟨_, rfl⟩
      · exact ⟨_, rfl⟩
      · exact ⟨_, rfl⟩
    obtain ⟨drawn, hdrawn, _⟩ := illustrate_fill _ hwf eType
    simp only [main, hs, hb, if_true, hmk, hcast, hdrawn]
    have gray := export_grid drawn._image (fun p => decimal (GrayscaleIllustrator.average p))
      ("P2" ++ "\n" ++ decimal drawn._image.getWidth ++ " " ++ decimal drawn._image.getHeight
        ++ "\n" ++ decimal 255 ++ "\n")
    have bw := export_grid drawn._image
      (fun p => decimal (if BWIllustrator.isWhite p = true then 0 else 1))
      ("P1" ++ "\n" ++ decimal drawn._image.getWidth ++ " " ++ decimal drawn._image.getHeight
        ++ "\n")
    have gray' : ∃ t, GrayscaleIllustrator.exportImage drawn = Except.ok t := ⟨_, gray⟩
    have bw' : ∃ t, BWIllustrator.exportImage drawn = Except.ok t := ⟨_, bw⟩
    obtain ⟨t1, ht1⟩ := gray'
    obtain ⟨t2, ht2⟩ := bw'
    rw [ht1, ht2]
    split_ifs
    · exact ⟨_, rfl⟩
    · exact ⟨_, rfl⟩
    · exact ⟨_, rfl⟩

/-- Counterexample to C17 as stated: `"x2"` and `"-1"` do not denote an integer of
`{0,1,2}`, yet `tryExtractIntInRange` returns `true` on them, with `out = 2` and `out = 1`. -/
theorem C17_counterexample :
    tryExtractIntInRange "x2" 0 2 = some 2 ∧ tryExtractIntInRange "-1" 0 2 = some 1 := by
  decide

/-- C17 (amended): `tryExtractIntInRange(s, out, 0, 2)` returns `true` with `out = v` exactly
when `s` has a decimal digit and its first maximal run of consecutive digits, read as a
decimal number, has a value `v` of at most 2; it returns `false` otherwise.  So a value it
returns is 0, 1 or 2; `"7"` is rejected, `"-1"` gives 1 and `"x2"` gives 2.  The two
selectors that `main` goes on with are 0, 1 or 2, the first names a `FlagType`, and `main`
never ends in the `default` branch of the exporter `switch`. -/
theorem C17_selector_extraction (s : String) (args : List String) :
    tryExtractIntInRange s 0 2 =
      (if (s.data.dropWhile (fun ch => !ch.isDigit)).takeWhile Char.isDigit ≠ [] ∧
          ((s.data.dropWhile (fun ch => !ch.isDigit)).takeWhile Char.isDigit).foldl
            (fun acc ch => 10 * acc + (ch.toNat - 48)) 0 ≤ 2
        then some ((((s.data.dropWhile (fun ch => !ch.isDigit)).takeWhile Char.isDigit).foldl
            (fun acc ch => 10 * acc + (ch.toNat - 48)) 0 : Nat) : Int)
        else none) ∧
    (∀ v, tryExtractIntInRange s 0 2 = some v → v = 0 ∨ v = 1 ∨ v = 2) ∧
    tryExtractIntInRange "7" 0 2 = none ∧
    tryExtractIntInRange "-1" 0 2 = some 1 ∧
    tryExtractIntInRange "x2" 0 2 = some 2 ∧
    (∀ a b, mainSelectors args = Except.ok (a, b) →
      (a = 0 ∨ a = 1 ∨ a = 2) ∧ (b = 0 ∨ b = 1 ∨ b = 2) ∧
      ∃ eType, castFlagType a = some eType) ∧
    main args ≠ Except.error (Abort.exit ExitCode.ERROR_CONV) := by
  refine ⟨?_, ?_, by decide, by decide, by decide, ?_, ?_⟩
  · simp only [tryExtractIntInRange, digitRun_eq, stoi]
    generalize (s.data.dropWhile (fun ch => !ch.isDigit)).takeWhile Char.isDigit = run
    generalize hv : run.foldl (fun acc ch => 10 * acc + (ch.toNat - 48)) 0 = v
    by_cases hrun : run = []
    · simp [hrun]
    · by_cases h1 : v > 2147483647
      · have : ¬ v ≤ 2 := by omega
        simp [hrun, h1, this]
      · by_cases h2 : v ≤ 2
        · have : ¬ ((v : Int) < 0 ∨ (v : Int) > 2) := by omega
          simp [hrun, h1, h2, this]
        · have : ((v : Int) < 0 ∨ (v : Int) > 2) := by omega
          simp [hrun, h1, h2, this]
  · intro v hv
    have := tryExtract_range s 0 2 v hv
    omega
  · intro a b h
    obtain ⟨⟨a0, a2⟩, ⟨b0, b2⟩⟩ := mainSelectors_range args a b h
    have ha : a = 0 ∨ a = 1 ∨ a = 2 := by omega
    refine ⟨ha, by omega, ?_⟩
    rcases ha with rfl | rfl | rfl
    · exact ⟨_, rfl⟩
    · exact ⟨_, rfl⟩
    · exact ⟨_, rfl⟩
  · intro h
    rcases main_outcome args with ⟨t, ht⟩ | ht
    · rw [ht] at h; simp at h
    · rw [ht] at h; simp at h

/-- Witness of the amended C17: the arguments `x2` and `1` give the selectors 2 and 1. -/
theorem C17_selector_extraction_witness :
    mainSelectors ["x2", "1"] = Except.ok (2, 1) ∧
    ((2 : Int) = 0 ∨ (2 : Int) = 1 ∨ (2 : Int) = 2) ∧ ((1 : Int) = 0 ∨ (1 : Int) = 1 ∨ (1 : Int) = 2) ∧
      ∃ eType, castFlagType 2 = some eType :=
  ⟨by decide, (C17_selector_extraction "x2" ["x2", "1"]).2.2.2.2.2.1 2 1 (by decide)⟩

/-! ## Frame rules in the free store -/

/-- Invariant rule for a loop that is known to return. -/
theorem loopFrom_ok_inv {σ : Type} (body : Int → σ → Except Abort σ) (P : Int → σ → Prop) :
    ∀ (k : Nat) (i : Int) (s s' : σ), loopFrom body k i s = Except.ok s' → P i s →
      (∀ j t t', i ≤ j → j < i + k → body j t = Except.ok t' → P j t → P (j + 1) t') →
      P (i + k) s' := by
  intro k
  induction k with
  | zero =>
    intro i s s' h hP _
    simp only [loopFrom, Except.ok.injEq] at h
    subst h
    simpa using hP
  | succ k ih =>
    intro i s s' h hP hb
    rw [loopFrom] at h
    cases hs : body i s with
    | error e => simp [hs] at h
    | ok t =>
      simp only [hs] at h
      have := ih (i + 1) t s' h (hb i s t (le_refl i) (by push_cast; omega) hs hP)
        (fun j u u' h1 h2 hu hPu => hb j u u' (by omega) (by push_cast; omega) hu hPu)
      have e : i + ((k + 1 : Nat) : Int) = i + 1 + (k : Int) := by push_cast; ring
      rw [e]; exact this

/-- Invariant rule for a `forUpTo` loop that is known to return, with an invariant that
does not mention the index. -/
theorem forUpTo_ok_inv {σ : Type} (n : Int) (body : Int → σ → Except Abort σ) (P : σ → Prop)
    (s s' : σ) (h : forUpTo n body s = Except.ok s') (hP : P s)
    (hb : ∀ j t t', 0 ≤ j → j < n → body j t = Except.ok t' → P t → P t') : P s' :=
  loopFrom_ok_inv body (fun _ t => P t) n.toNat 0 s s' h hP
    (fun j t t' h1 h2 ht hPt => hb j t t' h1 (by omega) ht hPt)

theorem agreeBelow_refl (L : Nat) (H : Heap) : Heap.AgreeBelow L H H :=
  ⟨rfl, rfl, fun _ _ => rfl⟩

theorem agreeFrom_refl (L : Nat) (H : Heap) : Heap.AgreeFrom L H H :=
  ⟨rfl, rfl, fun _ _ => rfl⟩

/-- A `setPixel` in the free store that returns has checked the row and has written the
cell. -/
theorem heap_setPixel_inv (o : UJImageObj) (H H' : Heap) (r c : Int) (p : UJPixel)
    (h : o.setPixel H r c p = Except.ok H') :
    (0 ≤ r ∧ r < o._rows) ∧ H' = o.store H r c p := by
  by_cases h1 : r < 0 ∨ o._rows - 1 < r
  · simp [UJImageObj.setPixel, enforceRange_error _ _ _ h1] at h
  rw [UJImageObj.setPixel, enforceRange_ok r 0 (o._rows - 1) (by omega) (by omega)] at h
  refine ⟨by omega, ?_⟩
  simp only at h
  split at h
  · simp at h
  · split at h
    · simp at h
    · split at h
      · simp at h
      · split at h
        · simp at h
        · simp only [Except.ok.injEq] at h
          exact h.symm

/-- A write through a row pointer that is at least `L` keeps the store below `L`. -/
theorem store_agreeBelow (L : Nat) (o : UJImageObj) (H0 H : Heap) (r c : Int) (p : UJPixel)
    (hA : Heap.AgreeBelow L H0 H) (ha : L ≤ o.rowAddr H r) :
    Heap.AgreeBelow L H0 (o.store H r c p) := by
  obtain ⟨h1, h2, h3⟩ := hA
  refine ⟨h1, h2, ?_⟩
  intro b hb
  have hne : o.rowAddr H r ≠ b := by omega
  simp only [UJImageObj.store, List.getElem?_modify, hne, if_false]
  rw [← h3 b hb]
  cases H.pix[b]? <;> rfl

/-- A write through a row pointer that is below `L` keeps the store from `L` on. -/
theorem store_agreeFrom (L : Nat) (o : UJImageObj) (H0 H : Heap) (r c : Int) (p : UJPixel)
    (hA : Heap.AgreeFrom L H0 H) (ha : o.rowAddr H r < L) :
    Heap.AgreeFrom L H0 (o.store H r c p) := by
  obtain ⟨h1, h2, h3⟩ := hA
  refine ⟨h1, h2, ?_⟩
  intro b hb
  have hne : o.rowAddr H r ≠ b := by omega
  simp only [UJImageObj.store, List.getElem?_modify, hne, if_false]
  rw [← h3 b hb]
  cases H.pix[b]? <;> rfl

/-- The row pointer of an in-bounds row is an entry of the array of row pointers. -/
theorem rowAddr_mem (o : UJImageObj) (H : Heap) (r : Int) (hr0 : 0 ≤ r) (hr : r < o._rows)
    (hlen : (H.tab.getD o._image []).length = o._rows.toNat) :
    o.rowAddr H r ∈ H.tab.getD o._image [] := by
  have hi : r.toNat < (H.tab.getD o._image []).length := by omega
  rw [UJImageObj.rowAddr, List.getD_eq_getElem _ _ hi]
  exact List.getElem_mem _

/-- The buffer of an object whose row pointers are below `L` is the same in two stores that
agree below `L`. -/
theorem view_agreeBelow (L : Nat) (o : UJImageObj) (H H' : Heap) (hA : Heap.AgreeBelow L H H')
    (hlow : ∀ a ∈ H.tab.getD o._image [], a < L) : o.view H' = o.view H := by
  obtain ⟨h1, h2, h3⟩ := hA
  simp only [UJImageObj.view, h1, UJImage.mk.injEq, and_true]
  apply List.map_congr_left
  intro a ha
  simp only [List.getD_eq_getElem?_getD, h3 a (hlow a ha)]

/-- The buffer of an object whose row pointers are at least `L` is the same in two stores
that agree from `L` on. -/
theorem view_agreeFrom (L : Nat) (o : UJImageObj) (H H' : Heap) (hA : Heap.AgreeFrom L H H')
    (hhigh : ∀ a ∈ H.tab.getD o._image [], L ≤ a) : o.view H' = o.view H := by
  obtain ⟨h1, h2, h3⟩ := hA
  simp only [UJImageObj.view, h1, UJImage.mk.injEq, and_true]
  apply List.map_congr_left
  intro a ha
  simp only [List.getD_eq_getElem?_getD, h3 a (hhigh a ha)]

/-- Invariant rule for two nested loops that are known to return: a property kept by every
step whose row index is in the range of the outer loop holds at the end. -/
theorem nested_ok_inv (P : Heap → Prop) (n : Int) (m : Heap → Int)
    (step : Int → Int → Heap → Except Abort Heap)
    (hstep : ∀ r c s s', 0 ≤ r → r < n → step r c s = Except.ok s' → P s → P s')
    (H H' : Heap)
    (h : forUpTo n (fun r s => forUpTo (m s) (fun c s => step r c s) s) H = Except.ok H')
    (hP : P H) : P H' :=
  forUpTo_ok_inv n _ P H H' h hP (fun r s s' hr0 hr hs hPs =>
    forUpTo_ok_inv (m s) _ P s s' hs hPs (fun c u u' _ _ hu hPu =>
      hstep r c u u' hr0 hr hu hPu))

/-- A `setPixel` that returns, on an object whose row pointers are at least `L`, keeps the
store below `L`. -/
theorem setPixel_agreeBelow (L : Nat) (o : UJImageObj) (H0 H H' : Heap) (r c : Int)
    (p : UJPixel) (hlen : (H0.tab.getD o._image []).length = o._rows.toNat)
    (hhigh : ∀ a ∈ H0.tab.getD o._image [], L ≤ a)
    (h : o.setPixel H r c p = Except.ok H') (hA : Heap.AgreeBelow L H0 H) :
    Heap.AgreeBelow L H0 H' := by
  obtain ⟨⟨hr0, hr⟩, rfl⟩ := heap_setPixel_inv o H H' r c p h
  apply store_agreeBelow L o H0 H r c p hA
  apply hhigh
  rw [← hA.1] at hlen ⊢
  exact rowAddr_mem o H r hr0 hr hlen

/-- A `setPixel` that returns, on an object whose row pointers are below `L`, keeps the
store from `L` on. -/
theorem setPixel_agreeFrom (L : Nat) (o : UJImageObj) (H0 H H' : Heap) (r c : Int)
    (p : UJPixel) (hlen : (H0.tab.getD o._image []).length = o._rows.toNat)
    (hlow : ∀ a ∈ H0.tab.getD o._image [], a < L)
    (h : o.setPixel H r c p = Except.ok H') (hA : Heap.AgreeFrom L H0 H) :
    Heap.AgreeFrom L H0 H' := by
  obtain ⟨⟨hr0, hr⟩, rfl⟩ := heap_setPixel_inv o H H' r c p h
  apply store_agreeFrom L o H0 H r c p hA
  apply hlow
  rw [← hA.1] at hlen ⊢
  exact rowAddr_mem o H r hr0 hr hlen

/-- An `illustrate` that returns keeps every property of the store that each `setPixel` on
the renderer's buffer keeps and that fixes the objects of the store. -/
theorem illustrate_ok_inv (P : Heap → Prop) (f : FlagObj) (H H' : Heap) (eType : FlagType)
    (himg : ∀ s, P s → s.img = H.img)
    (hset : ∀ r c p s s', (f.image H).setPixel s r c p = Except.ok s' → P s → P s')
    (h : f.illustrate H eType = Except.ok H') (hP : P H) : P H' := by
  have him : ∀ s, P s → f.image s = f.image H := by
    intro s hs; simp only [FlagObj.image, himg s hs]
  cases eType
  · exact nested_ok_inv P _ (fun s => (f.image s)._cols) _
      (by
        intro r c s s' _ _ hs hPs
        rw [him s hPs] at hs
        split at hs
        · exact hset r c _ s s' hs hPs
        · exact hset r c _ s s' hs hPs)
      H H' h hP
  · exact nested_ok_inv P _ (fun s => (f.image s)._cols) _
      (by
        intro r c s s' _ _ hs hPs
        rw [him s hPs] at hs
        split at hs
        · exact hset r c _ s s' hs hPs
        · exact hset r c _ s s' hs hPs)
      H H' h hP
  · exact nested_ok_inv P _ (fun s => (f.image s)._cols) _
      (by
        intro r c s s' _ _ hs hPs
        rw [him s hPs] at hs
        split at hs
        · exact hset r c _ s s' hs hPs
        · exact hset r c _ s s' hs hPs)
      H H' h hP

theorem modify_append_last {α : Type} (f : α → α) (A : List α) (t : α) :
    (A ++ [t]).modify f A.length = A ++ [f t] := by
  induction A with
  | nil => rfl
  | cons a A ih => simp [ih]

theorem getD_append_last {α : Type} (A : List α) (t d : α) :
    (A ++ [t]).getD A.length d = t := by
  simp

/-- What `alloc` does to the free store: the new object has a new array of row pointers,
whose entries are addresses of new arrays of pixels, and nothing that was there is
written. -/
theorem heap_alloc_post (H0 : Heap) (R C : Int) (o : UJImageObj) (H : Heap)
    (h : UJImageObj.alloc H0 R C = Except.ok (o, H)) :
    o = ⟨H0.tab.length, R, C⟩ ∧ H.img = H0.img ∧
    (∃ t, H.tab = H0.tab ++ [t] ∧ t.length = R.toNat ∧ ∀ a ∈ t, H0.pix.length ≤ a) ∧
    (∀ b, b < H0.pix.length → H.pix[b]? = H0.pix[b]?) := by
  by_cases hR : R < 0
  · simp [UJImageObj.alloc, hR] at h
  simp only [UJImageObj.alloc, hR, if_false] at h
  split at h
  · simp at h
  rename_i H' hloop
  simp only [Except.ok.injEq, Prod.mk.injEq] at h
  obtain ⟨ho, hH⟩ := h
  subst hH
  refine ⟨ho.symm, ?_⟩
  have key := loopFrom_ok_inv _
    (fun (r : Int) (s : Heap) => s.img = H0.img ∧ H0.pix.length ≤ s.pix.length ∧
      (∀ b, b < H0.pix.length → s.pix[b]? = H0.pix[b]?) ∧
      ∃ t, s.tab = H0.tab ++ [t] ∧ t.length = R.toNat ∧
        ∀ i, i < r.toNat → H0.pix.length ≤ t.getD i 0)
    R.toNat 0 _ _ hloop
    ⟨rfl, le_refl _, fun _ _ => rfl, _, rfl, by simp, by intro i hi; simp at hi⟩
    (by
      intro r s s' hr0 hr hs ⟨q1, q2, q3, t, q4, q5, q6⟩
      split_ifs at hs with hC
      have hinner := forUpTo_ok_inv C _
        (fun (u : Heap) => u.img = H0.img ∧ H0.pix.length ≤ u.pix.length ∧
          (∀ b, b < H0.pix.length → u.pix[b]? = H0.pix[b]?) ∧
          u.tab = H0.tab ++ [t.set r.toNat s.pix.length])
        _ s' hs
        ⟨q1, by simp [UJImageObj.newRow]; omega,
          by
            intro b hb
            simp only [UJImageObj.newRow]
            rw [List.getElem?_append_left (by omega)]
            exact q3 b hb,
          by simp only [UJImageObj.newRow, q4, modify_append_last]⟩
        (by
          intro c u u' _ _ hu ⟨p1, p2, p3, p4⟩
          simp only [Except.ok.injEq] at hu
          subst hu
          have hrow : UJImageObj.rowAddr ⟨H0.tab.length, R, C⟩ u r = s.pix.length := by
            have hi : r.toNat < t.length := by omega
            simp [UJImageObj.rowAddr, p4, hi]
          refine ⟨p1, by simpa [UJImageObj.store] using p2, ?_, p4⟩
          intro b hb
          have hne : UJImageObj.rowAddr ⟨H0.tab.length, R, C⟩ u r ≠ b := by rw [hrow]; omega
          simp only [UJImageObj.store, List.getElem?_modify, hne, if_false]
          rw [← p3 b hb]
          cases u.pix[b]? <;> rfl)
      obtain ⟨p1, p2, p3, p4⟩ := hinner
      refine ⟨p1, p2, p3, _, p4, by simpa using q5, ?_⟩
      intro i hi
      by_cases hir : i = r.toNat
      · subst hir
        have hi' : r.toNat < t.length := by omega
        simp [hi']
        exact q2
      · have := q6 i (by omega)
        have hne : r.toNat ≠ i := fun e => hir e.symm
        simpa [List.getElem?_set, hne] using this)
  obtain ⟨q1, q2, q3, t, q4, q5, q6⟩ := key
  refine ⟨q1, ⟨t, q4, q5, ?_⟩, q3⟩
  intro a ha
  obtain ⟨i, hi, rfl⟩ := List.getElem_of_mem ha
  have := q6 i (by omega)
  rwa [List.getD_eq_getElem _ _ hi] at this

/-- On an object with one row pointer for each row, `getPixel` in the free store reads the
grid of the object. -/
theorem getPixel_view (o : UJImageObj) (H : Heap)
    (hlen : (H.tab.getD o._image []).length = o._rows.toNat) (r c : Int) :
    o.getPixel H r c = (o.view H).getPixel r c := by
  by_cases h1 : r < 0 ∨ o._rows - 1 < r
  · simp [UJImageObj.getPixel, UJImage.getPixel, UJImageObj.view, enforceRange_error _ _ _ h1]
  have e1 := enforceRange_ok r 0 (o._rows - 1) (by omega) (by omega)
  by_cases h2 : c < 0 ∨ o._cols - 1 < c
  · simp [UJImageObj.getPixel, UJImage.getPixel, UJImageObj.view, e1,
      enforceRange_error _ _ _ h2]
  have e2 := enforceRange_ok c 0 (o._cols - 1) (by omega) (by omega)
  have hi : r.toNat < (H.tab.getD o._image []).length := by omega
  simp only [UJImageObj.getPixel, UJImage.getPixel, UJImageObj.view, e1, e2, UJImageObj.load,
    UJImage.load, UJImageObj.rowAddr]
  have ea : (H.tab.getD o._image []).getD r.toNat 0 = (H.tab.getD o._image [])[r.toNat] :=
    List.getD_eq_getElem _ _ hi
  have eb : ((H.tab.getD o._image []).map (fun a => H.pix.getD a [])).getD r.toNat [] =
      H.pix.getD ((H.tab.getD o._image [])[r.toNat]) [] := by
    rw [List.getD_eq_getElem _ _ (by simpa using hi), List.getElem_map]
  rw [ea, eb]

/-- Two stores with the same row-pointer arrays in which an object has the same grid give
the object the same pixels. -/
theorem samePixels_of_view (o : UJImageObj) (H H' : Heap) (htab : H'.tab = H.tab)
    (hlen : (H.tab.getD o._image []).length = o._rows.toNat) (hv : o.view H' = o.view H) :
    o.SamePixels H H' := by
  refine ⟨hv, ?_⟩
  intro r c
  rw [getPixel_view o H hlen, getPixel_view o H' (by rw [htab]; exact hlen), hv]

/-- What a `clone` that returns does to the free store, on an object whose row pointers
are at least `L`: nothing below `L` is written. -/
theorem heap_clone_post (L : Nat) (o X : UJImageObj) (H H' : Heap)
    (hlen : (H.tab.getD o._image []).length = o._rows.toNat)
    (hhigh : ∀ a ∈ H.tab.getD o._image [], L ≤ a)
    (h : o.clone H X = Except.ok H') : Heap.AgreeBelow L H H' := by
  simp only [UJImageObj.clone] at h
  split_ifs at h with h1 h2
  exact nested_ok_inv (Heap.AgreeBelow L H) _ (fun _ => o._cols) _
    (by
      intro r c s s' hr0 hr hs hA
      simp only [Except.ok.injEq] at hs
      subst hs
      apply store_agreeBelow L o H s r c _ hA
      apply hhigh
      rw [← hA.1] at hlen ⊢
      exact rowAddr_mem o s r hr0 hr hlen)
    H H' h (agreeBelow_refl L H)

/-- What a copy construction of a buffer that returns does to the free store. -/
theorem heap_copy_post (H0 : Heap) (X Y : UJImageObj) (H1 : Heap)
    (h : UJImageObj.copy H0 X = Except.ok (Y, H1)) :
    Y = ⟨H0.tab.length, X._rows, X._cols⟩ ∧ H1.img = H0.img ∧
    (∃ t, H1.tab = H0.tab ++ [t] ∧ t.length = X._rows.toNat ∧ ∀ a ∈ t, H0.pix.length ≤ a) ∧
    (∀ b, b < H0.pix.length → H1.pix[b]? = H0.pix[b]?) := by
  simp only [UJImageObj.copy] at h
  split at h
  · simp at h
  rename_i o H' ha
  split at h
  · simp at h
  rename_i H'' hc
  simp only [Except.ok.injEq, Prod.mk.injEq] at h
  obtain ⟨rfl, rfl⟩ := h
  obtain ⟨ho, q1, ⟨t, q2, q3, q4⟩, q5⟩ := heap_alloc_post H0 _ _ o H' ha
  have hA := heap_clone_post H0.pix.length o X H' H''
    (by rw [q2, ho]; simpa using q3)
    (by rw [q2, ho]; simpa using q4) hc
  obtain ⟨p1, p2, p3⟩ := hA
  refine ⟨ho, by rw [p2, q1], ⟨t, by rw [p1, q2], q3, q4⟩, ?_⟩
  intro b hb
  rw [p3 b hb, q5 b hb]

/-- What a `clone` of a renderer that returns does to the free store, when the row
pointers of the renderer's buffer are at least `L`: nothing below `L` is written. -/
theorem heap_flag_clone_post (L : Nat) (f X : FlagObj) (H H' : Heap)
    (hlen : (H.tab.getD (f.image H)._image []).length = (f.image H)._rows.toNat)
    (hhigh : ∀ a ∈ H.tab.getD (f.image H)._image [], L ≤ a)
    (h : f.clone H X = Except.ok H') : Heap.AgreeBelow L H H' := by
  simp only [FlagObj.clone] at h
  split_ifs at h with h1 h2
  exact nested_ok_inv (Heap.AgreeBelow L H) _ (fun s => (f.image s)._cols) _
    (by
      intro r c s s' hr0 hr hs hA
      have him : f.image s = f.image H := by simp only [FlagObj.image, hA.2.1]
      rw [him] at hs
      split at hs
      · simp at hs
      · exact setPixel_agreeBelow L (f.image H) H s s' r c _ hlen hhigh hs hA)
    H H' h (agreeBelow_refl L H)

/-- What a copy construction of a renderer that returns does to the free store: the new
renderer owns a new `UJImage`, with a new array of row pointers whose entries are addresses
of new arrays of pixels, and nothing that was there is written. -/
theorem heap_flag_copy_post (H0 : Heap) (X Y : FlagObj) (H1 : Heap)
    (h : FlagObj.copy H0 X = Except.ok (Y, H1)) :
    Y = ⟨H0.img.length⟩ ∧
    H1.img = H0.img ++ [⟨H0.tab.length, (X.image H0)._rows, (X.image H0)._cols⟩] ∧
    (∃ t, H1.tab = H0.tab ++ [t] ∧ t.length = (X.image H0)._rows.toNat ∧
      ∀ a ∈ t, H0.pix.length ≤ a) ∧
    (∀ b, b < H0.pix.length → H1.pix[b]? = H0.pix[b]?) := by
  simp only [FlagObj.copy] at h
  split at h
  · simp at h
  rename_i f H' hm
  split at h
  · simp at h
  rename_i H'' hc
  simp only [Except.ok.injEq, Prod.mk.injEq] at h
  obtain ⟨rfl, rfl⟩ := h
  simp only [FlagObj.mk2] at hm
  split at hm
  · simp at hm
  split at hm
  · simp at hm
  simp only [FlagObj.alloc] at hm
  split at hm
  · simp at hm
  rename_i o Ha ha
  simp only [Except.ok.injEq, Prod.mk.injEq] at hm
  obtain ⟨rfl, rfl⟩ := hm
  obtain ⟨ho, q1, ⟨t, q2, q3, q4⟩, q5⟩ := heap_alloc_post H0 _ _ o Ha ha
  have him : FlagObj.image ⟨Ha.img.length⟩ { Ha with img := Ha.img ++ [o] } = o := by
    simp [FlagObj.image]
  have hA := heap_flag_clone_post H0.pix.length ⟨Ha.img.length⟩ X
    { Ha with img := Ha.img ++ [o] } H''
    (by rw [him]; simp only [q2, ho]; simpa using q3)
    (by rw [him]; simp only [q2, ho]; simpa using q4) hc
  obtain ⟨p1, p2, p3⟩ := hA
  simp only at p1 p2 p3
  refine ⟨by rw [q1], by rw [p2, q1, ho], ⟨t, by rw [p1, q2], q3, q4⟩, ?_⟩
  intro b hb
  rw [p3 b hb, q5 b hb]

/-! ## Objects that the constructors make are laid out -/

/-- Every object that `alloc` makes is laid out in the store that `alloc` leaves. -/
theorem heap_alloc_owned (H0 : Heap) (R C : Int) (o : UJImageObj) (H : Heap)
    (h : UJImageObj.alloc H0 R C = Except.ok (o, H)) : o.Owned H := by
  by_cases hR : R < 0
  · simp [UJImageObj.alloc, hR] at h
  simp only [UJImageObj.alloc, hR, if_false] at h
  split at h
  · simp at h
  rename_i H' hloop
  simp only [Except.ok.injEq, Prod.mk.injEq] at h
  obtain ⟨ho, hH⟩ := h
  subst hH
  subst ho
  have key := loopFrom_ok_inv _
    (fun (r : Int) (s : Heap) =>
      ∃ t, s.tab = H0.tab ++ [t] ∧ t.length = R.toNat ∧
        ∀ i, i < r.toNat → t.getD i 0 < s.pix.length)
    R.toNat 0 _ _ hloop
    ⟨_, rfl, by simp, by intro i hi; simp at hi⟩
    (by
      intro r s s' hr0 hr hs ⟨t, q4, q5, q6⟩
      split_ifs at hs with hC
      have hinner := forUpTo_ok_inv C _
        (fun (u : Heap) => s.pix.length < u.pix.length ∧
          u.tab = H0.tab ++ [t.set r.toNat s.pix.length])
        _ s' hs
        ⟨by simp [UJImageObj.newRow],
          by simp only [UJImageObj.newRow, q4, modify_append_last]⟩
        (by
          intro c u u' _ _ hu ⟨p2, p4⟩
          simp only [Except.ok.injEq] at hu
          subst hu
          exact ⟨by simpa [UJImageObj.store] using p2, p4⟩)
      obtain ⟨p2, p4⟩ := hinner
      refine ⟨_, p4, by simpa using q5, ?_⟩
      intro i hi
      by_cases hir : i = r.toNat
      · subst hir
        have hi' : r.toNat < t.length := by omega
        simp [hi']
        exact p2
      · have := q6 i (by omega)
        have hne : r.toNat ≠ i := fun e => hir e.symm
        have h2 : (t.set r.toNat s.pix.length).getD i 0 = t.getD i 0 := by
          simp [List.getElem?_set, hne]
        rw [h2]
        omega)
  obtain ⟨t, q4, q5, q6⟩ := key
  have e : H'.tab.getD H0.tab.length [] = t := by rw [q4]; simp
  refine ⟨by rw [q4]; simp, by rw [e]; exact q5, ?_⟩
  rw [e]
  intro a ha
  obtain ⟨i, hi, rfl⟩ := List.getElem_of_mem ha
  have := q6 i (by omega)
  rwa [List.getD_eq_getElem _ _ hi] at this

/-- A `setPixel` that returns keeps every object laid out. -/
theorem heap_setPixel_owned (o o' : UJImageObj) (H H' : Heap) (r c : Int) (p : UJPixel)
    (h : o.setPixel H r c p = Except.ok H') (hO : o'.Owned H) : o'.Owned H' := by
  obtain ⟨_, rfl⟩ := heap_setPixel_inv o H H' r c p h
  simpa [UJImageObj.Owned, UJImageObj.store] using hO

/-- Every renderer that the two-argument constructor makes is laid out in the store that
the constructor leaves. -/
theorem heap_mk2_owned (H0 : Heap) (R C : Int) (f : FlagObj) (H : Heap)
    (h : FlagObj.mk2 H0 R C = Except.ok (f, H)) : f.Owned H := by
  simp only [FlagObj.mk2] at h
  split at h
  · simp at h
  split at h
  · simp at h
  simp only [FlagObj.alloc] at h
  split at h
  · simp at h
  rename_i o H' ha
  simp only [Except.ok.injEq, Prod.mk.injEq] at h
  obtain ⟨rfl, rfl⟩ := h
  have hO := heap_alloc_owned H0 R C o H' ha
  refine ⟨by simp, ?_⟩
  have e : FlagObj.image ⟨H'.img.length⟩ { H' with img := H'.img ++ [o] } = o := by
    simp [FlagObj.image]
  rw [e]
  exact hO

/-! ## Copies share no storage -/

/-- An object has the same pixels in two stores that agree below `L`, when its row
pointers are below `L`. -/
theorem samePixels_below (L : Nat) (o : UJImageObj) (H H' : Heap)
    (hA : Heap.AgreeBelow L H H')
    (hlen : (H.tab.getD o._image []).length = o._rows.toNat)
    (hlow : ∀ a ∈ H.tab.getD o._image [], a < L) : o.SamePixels H H' := by
  have hv := view_agreeBelow L o H H' hA hlow
  refine ⟨hv, ?_⟩
  intro r c
  rw [getPixel_view o H hlen, getPixel_view o H' (by rw [hA.1]; exact hlen), hv]

/-- An object has the same pixels in two stores that agree from `L` on, when its row
pointers are at least `L`. -/
theorem samePixels_from (L : Nat) (o : UJImageObj) (H H' : Heap)
    (hA : Heap.AgreeFrom L H H')
    (hlen : (H.tab.getD o._image []).length = o._rows.toNat)
    (hhigh : ∀ a ∈ H.tab.getD o._image [], L ≤ a) : o.SamePixels H H' := by
  have hv := view_agreeFrom L o H H' hA hhigh
  refine ⟨hv, ?_⟩
  intro r c
  rw [getPixel_view o H hlen, getPixel_view o H' (by rw [hA.1]; exact hlen), hv]

/-- An object that was laid out before a store grew at its end, without a write below `L`,
has the same pixels in the store that has grown. -/
theorem samePixels_grown (o : UJImageObj) (H H1 : Heap) (t : List Nat) (hO : o.Owned H)
    (htab : H1.tab = H.tab ++ [t])
    (hpix : ∀ b, b < H.pix.length → H1.pix[b]? = H.pix[b]?) :
    H1.tab.getD o._image [] = H.tab.getD o._image [] ∧ o.SamePixels H H1 := by
  obtain ⟨a1, a2, a3⟩ := hO
  have e : H1.tab.getD o._image [] = H.tab.getD o._image [] := by
    simp only [List.getD_eq_getElem?_getD, htab]
    rw [List.getElem?_append_left a1]
  have hv : o.view H1 = o.view H := by
    simp only [UJImageObj.view, e, UJImage.mk.injEq, and_true]
    apply List.map_congr_left
    intro a ha
    simp only [List.getD_eq_getElem?_getD, hpix a (a3 a ha)]
  refine ⟨e, hv, ?_⟩
  intro r c
  rw [getPixel_view o H a2, getPixel_view o H1 (by rw [e]; exact a2), hv]

/-- C11: after the copy construction of a buffer `Y` from a buffer `X`, and of a renderer
`Y` from a renderer `X`, the two objects share no storage: `Y` is at a new address, `X`
holds the pixels it held, every `setPixel` on `Y` that returns, and every `illustrate` on
`Y` that returns, leaves `X` the pixels it had, and every `setPixel` and `illustrate` on
`X` that returns leaves `Y` the pixels it had. -/
theorem C11_deep_copy_independence :
    (∀ (H : Heap) (X Y : UJImageObj) (H1 : Heap), X.Owned H →
      UJImageObj.copy H X = Except.ok (Y, H1) →
      Y._image ≠ X._image ∧ X.SamePixels H H1 ∧
      (∀ r c p H2, Y.setPixel H1 r c p = Except.ok H2 → X.SamePixels H1 H2) ∧
      (∀ r c p H2, X.setPixel H1 r c p = Except.ok H2 → Y.SamePixels H1 H2)) ∧
    (∀ (H : Heap) (X Y : FlagObj) (H1 : Heap), X.Owned H →
      FlagObj.copy H X = Except.ok (Y, H1) →
      Y._image ≠ X._image ∧ (Y.image H1)._image ≠ (X.image H1)._image ∧
      X.SamePixels H H1 ∧
      (∀ r c p H2, (Y.image H1).setPixel H1 r c p = Except.ok H2 → X.SamePixels H1 H2) ∧
      (∀ eType H2, Y.illustrate H1 eType = Except.ok H2 → X.SamePixels H1 H2) ∧
      (∀ r c p H2, (X.image H1).setPixel H1 r c p = Except.ok H2 → Y.SamePixels H1 H2) ∧
      (∀ eType H2, X.illustrate H1 eType = Except.ok H2 → Y.SamePixels H1 H2)) := by
  constructor
  · intro H X Y H1 hO h
    obtain ⟨hY, q1, ⟨t, q2, q3, q4⟩, q5⟩ := heap_copy_post H X Y H1 h
    obtain ⟨eX, sX⟩ := samePixels_grown X H H1 t hO q2 q5
    obtain ⟨a1, a2, a3⟩ := hO
    have eY : H1.tab.getD Y._image [] = t := by rw [hY, q2]; simp
    have lenX : (H1.tab.getD X._image []).length = X._rows.toNat := by rw [eX]; exact a2
    have lenY : (H1.tab.getD Y._image []).length = Y._rows.toNat := by rw [eY, hY]; exact q3
    have lowX : ∀ a ∈ H1.tab.getD X._image [], a < H.pix.length := by rw [eX]; exact a3
    have highY : ∀ a ∈ H1.tab.getD Y._image [], H.pix.length ≤ a := by rw [eY]; exact q4
    refine ⟨by rw [hY]; simp only; omega, sX, ?_, ?_⟩
    · intro r c p H2 h2
      exact samePixels_below _ X H1 H2
        (setPixel_agreeBelow _ Y H1 H1 H2 r c p lenY highY h2 (agreeBelow_refl _ _)) lenX lowX
    · intro r c p H2 h2
      exact samePixels_from _ Y H1 H2
        (setPixel_agreeFrom _ X H1 H1 H2 r c p lenX lowX h2 (agreeFrom_refl _ _)) lenY highY
  · intro H X Y H1 hO h
    obtain ⟨hY, q1, ⟨t, q2, q3, q4⟩, q5⟩ := heap_flag_copy_post H X Y H1 h
    obtain ⟨b1, b2⟩ := hO
    obtain ⟨eX, sX⟩ := samePixels_grown (X.image H) H H1 t b2 q2 q5
    obtain ⟨a1, a2, a3⟩ := b2
    have iX : X.image H1 = X.image H := by
      simp only [FlagObj.image, List.getD_eq_getElem?_getD, q1]
      rw [List.getElem?_append_left b1]
    have iY : Y.image H1 = ⟨H.tab.length, (X.image H)._rows, (X.image H)._cols⟩ := by
      rw [hY]; simp [FlagObj.image, q1]
    have eY : H1.tab.getD (Y.image H1)._image [] = t := by rw [iY, q2]; simp
    have lenX : (H1.tab.getD (X.image H1)._image []).length = (X.image H1)._rows.toNat := by
      rw [iX, eX]; exact a2
    have lenY : (H1.tab.getD (Y.image H1)._image []).length = (Y.image H1)._rows.toNat := by
      rw [eY, iY]; exact q3
    have lowX : ∀ a ∈ H1.tab.getD (X.image H1)._image [], a < H.pix.length := by
      rw [iX, eX]; exact a3
    have highY : ∀ a ∈ H1.tab.getD (Y.image H1)._image [], H.pix.length ≤ a := by
      rw [eY]; exact q4
    have below : ∀ H2, Heap.AgreeBelow H.pix.length H1 H2 → X.SamePixels H1 H2 := by
      intro H2 hA
      exact ⟨by simp only [FlagObj.image, hA.2.1], samePixels_below _ _ H1 H2 hA lenX lowX⟩
    have above : ∀ H2, Heap.AgreeFrom H.pix.length H1 H2 → Y.SamePixels H1 H2 := by
      intro H2 hA
      exact ⟨by simp only [FlagObj.image, hA.2.1], samePixels_from _ _ H1 H2 hA lenY highY⟩
    refine ⟨by rw [hY]; simp only; omega, by rw [iY, iX]; simp only; omega,
      ⟨iX, sX⟩, ?_, ?_, ?_, ?_⟩
    · intro r c p H2 h2
      exact below H2
        (setPixel_agreeBelow _ _ H1 H1 H2 r c p lenY highY h2 (agreeBelow_refl _ _))
    · intro eType H2 h2
      exact below H2 (illustrate_ok_inv (Heap.AgreeBelow H.pix.length H1) Y H1 H2 eType
        (fun s hs => hs.2.1)
        (fun r c p s s' hs hA => setPixel_agreeBelow _ _ H1 s s' r c p lenY highY hs hA)
        h2 (agreeBelow_refl _ _))
    · intro r c p H2 h2
      exact above H2
        (setPixel_agreeFrom _ _ H1 H1 H2 r c p lenX lowX h2 (agreeFrom_refl _ _))
    · intro eType H2 h2
      exact above H2 (illustrate_ok_inv (Heap.AgreeFrom H.pix.length H1) X H1 H2 eType
        (fun s hs => hs.2.1)
        (fun r c p s s' hs hA => setPixel_agreeFrom _ _ H1 s s' r c p lenX lowX hs hA)
        h2 (agreeFrom_refl _ _))

/-- Witness of C11: in the sample store the buffer at row-pointer array 0 and the renderer
at address 0 are copied; pattern C is drawn on the copy, and the original keeps its pixels. -/
theorem C11_deep_copy_independence_witness :
    (UJImageObj.Owned ⟨0, 2, 2⟩ { sampleHeap with img := [] } ∧
      UJImageObj.copy { sampleHeap with img := [] } ⟨0, 2, 2⟩
        = Except.ok (⟨1, 2, 2⟩, { sampleHeapCopy with img := [] }) ∧
      (∀ r c p H2,
        UJImageObj.setPixel ⟨1, 2, 2⟩ { sampleHeapCopy with img := [] } r c p = Except.ok H2 →
        UJImageObj.SamePixels ⟨0, 2, 2⟩ { sampleHeapCopy with img := [] } H2)) ∧
    (FlagObj.Owned ⟨0⟩ sampleHeap ∧
      FlagObj.copy sampleHeap ⟨0⟩ = Except.ok (⟨1⟩, sampleHeapCopy) ∧
      (∀ eType H2, FlagObj.illustrate ⟨1⟩ sampleHeapCopy eType = Except.ok H2 →
        FlagObj.SamePixels ⟨0⟩ sampleHeapCopy H2) ∧
      FlagObj.illustrate ⟨1⟩ sampleHeapCopy FlagType.NIGERIA = Except.ok sampleHeapDrawn ∧
      FlagObj.view ⟨0⟩ sampleHeapDrawn = FlagObj.view ⟨0⟩ sampleHeap ∧
      FlagObj.view ⟨1⟩ sampleHeapDrawn ≠ FlagObj.view ⟨0⟩ sampleHeapDrawn) :=
  ⟨⟨by decide, by decide,
      (C11_deep_copy_independence.1 { sampleHeap with img := [] } ⟨0, 2, 2⟩ ⟨1, 2, 2⟩
        { sampleHeapCopy with img := [] } (by decide) (by decide)).2.2.1⟩,
    ⟨by decide, by decide,
      (C11_deep_copy_independence.2 sampleHeap ⟨0⟩ ⟨1⟩ sampleHeapCopy (by decide)
        (by decide)).2.2.2.2.1,
      by decide, by decide, by decide⟩⟩

/-! ## The colour export is lossless -/

theorem digitChar_value (k : Nat) (h : k < 10) : digitValue (Nat.digitChar k) = k := by
  interval_cases k <;> rfl

theorem digitChar_plain (k : Nat) (h : k < 10) :
    Nat.digitChar k ≠ ' ' ∧ Nat.digitChar k ≠ '\n' ∧ Nat.digitChar k ≠ '-' := by
  interval_cases k <;> decide

/-- Reading the digits that `Nat.toDigitsCore` writes gives the number back. -/
theorem readDigits_toDigitsCore :
    ∀ (fuel n : Nat) (ds : List Char), n < fuel →
      readDigits 0 (Nat.toDigitsCore 10 fuel n ds) = readDigits n ds := by
  intro fuel
  induction fuel with
  | zero => intro n ds h; omega
  | succ fuel ih =>
    intro n ds h
    rw [Nat.toDigitsCore]
    split_ifs with h0
    · have hn : n % 10 = n := by omega
      simp only [readDigits, List.foldl_cons, digitChar_value (n % 10) (by omega)]
      rw [hn]
      simp
    · rw [ih (n / 10) _ (by omega)]
      simp only [readDigits, List.foldl_cons, digitChar_value (n % 10) (by omega)]
      congr 1
      omega

/-- No digit that `Nat.toDigitsCore` writes is a space, a newline or a minus sign. -/
theorem toDigitsCore_plain :
    ∀ (fuel n : Nat) (ds : List Char),
      (∀ c ∈ ds, c ≠ ' ' ∧ c ≠ '\n' ∧ c ≠ '-') →
      ∀ c ∈ Nat.toDigitsCore 10 fuel n ds, c ≠ ' ' ∧ c ≠ '\n' ∧ c ≠ '-' := by
  intro fuel
  induction fuel with
  | zero => intro n ds h; simpa [Nat.toDigitsCore] using h
  | succ fuel ih =>
    intro n ds h
    have hcons : ∀ c ∈ Nat.digitChar (n % 10) :: ds, c ≠ ' ' ∧ c ≠ '\n' ∧ c ≠ '-' := by
      intro c hc
      rcases List.mem_cons.1 hc with rfl | hc
      · exact digitChar_plain _ (by omega)
      · exact h c hc
    rw [Nat.toDigitsCore]
    split_ifs with h0
    · exact hcons
    · exact ih _ _ hcons

theorem repr_data (n : Nat) : (Nat.repr n).data = Nat.toDigits 10 n := rfl

/-- The decimal text of a natural number has no space, newline or minus sign. -/
theorem repr_plain (n : Nat) : ∀ c ∈ (Nat.repr n).data, c ≠ ' ' ∧ c ≠ '\n' ∧ c ≠ '-' := by
  rw [repr_data]
  exact toDigitsCore_plain _ _ _ (by simp)

/-- Two natural numbers with the same decimal text are equal. -/
theorem repr_inj (m n : Nat) (h : (Nat.repr m).data = (Nat.repr n).data) : m = n := by
  have hm := readDigits_toDigitsCore (m + 1) m [] (by omega)
  have hn := readDigits_toDigitsCore (n + 1) n [] (by omega)
  rw [repr_data, repr_data, Nat.toDigits] at h
  rw [h] at hm
  simpa [readDigits] using hm.symm.trans hn

/-- The text of an `int` has no space and no newline. -/
theorem decimal_plain (n : Int) : ∀ c ∈ (decimal n).data, c ≠ ' ' ∧ c ≠ '\n' := by
  intro c hc
  cases n with
  | ofNat m => exact ⟨(repr_plain m c hc).1, (repr_plain m c hc).2.1⟩
  | negSucc m =>
    simp only [decimal, String.data_append] at hc
    rcases List.mem_append.1 hc with h | h
    · have : c = '-' := by simpa using h
      subst this
      decide
    · exact ⟨(repr_plain _ c h).1, (repr_plain _ c h).2.1⟩

/-- Two `int` values with the same text are equal. -/
theorem decimal_inj (a b : Int) (h : (decimal a).data = (decimal b).data) : a = b := by
  cases a with
  | ofNat m =>
    cases b with
    | ofNat n => exact congrArg Int.ofNat (repr_inj m n h)
    | negSucc n =>
      exfalso
      simp only [decimal, String.data_append] at h
      have hm : '-' ∈ (Nat.repr m).data := by rw [h]; simp
      exact (repr_plain m _ hm).2.2 rfl
  | negSucc m =>
    cases b with
    | ofNat n =>
      exfalso
      simp only [decimal, String.data_append] at h
      have hn : '-' ∈ (Nat.repr n).data := by rw [← h]; simp
      exact (repr_plain n _ hn).2.2 rfl
    | negSucc n =>
      simp only [decimal, String.data_append] at h
      have := repr_inj _ _ (List.append_cancel_left h)
      have : m = n := by omega
      rw [this]

/-- Two texts that end at the first occurrence of a separator, and are followed by the
same characters, are the same. -/
theorem sep_cancel (sep : Char) :
    ∀ (s t x y : List Char), sep ∉ s → sep ∉ t → s ++ sep :: x = t ++ sep :: y →
      s = t ∧ x = y := by
  intro s
  induction s with
  | nil =>
    intro t x y _ ht h
    cases t with
    | nil => simpa using h
    | cons b t =>
      exfalso
      simp only [List.nil_append, List.cons_append, List.cons.injEq] at h
      exact ht (by rw [← h.1]; simp)
  | cons a s ih =>
    intro t x y hs ht h
    cases t with
    | nil =>
      exfalso
      simp only [List.nil_append, List.cons_append, List.cons.injEq] at h
      exact hs (by rw [h.1]; simp)
    | cons b t =>
      simp only [List.cons_append, List.cons.injEq] at h
      obtain ⟨h1, h2⟩ := h
      obtain ⟨e1, e2⟩ := ih t x y (fun hm => hs (List.mem_cons_of_mem _ hm))
        (fun hm => ht (List.mem_cons_of_mem _ hm)) h2
      exact ⟨by rw [h1, e1], e2⟩

/-- An `int` text followed by a separator that is a space or a newline can be read off the
front of a text. -/
theorem decimal_cancel (sep : Char) (hsep : sep = ' ' ∨ sep = '\n') (a b : Int)
    (x y : List Char)
    (h : (decimal a).data ++ sep :: x = (decimal b).data ++ sep :: y) : a = b ∧ x = y := by
  have na : sep ∉ (decimal a).data := by
    intro hm
    rcases hsep with rfl | rfl
    · exact (decimal_plain a _ hm).1 rfl
    · exact (decimal_plain a _ hm).2 rfl
  have nb : sep ∉ (decimal b).data := by
    intro hm
    rcases hsep with rfl | rfl
    · exact (decimal_plain b _ hm).1 rfl
    · exact (decimal_plain b _ hm).2 rfl
  obtain ⟨e1, e2⟩ := sep_cancel sep _ _ x y na nb h
  exact ⟨decimal_inj a b e1, e2⟩

/-- The text of a cell can be read off the front of a text. -/
theorem cell_cancel (p q : UJPixel) (x y : List Char)
    (h : (cellText p).data ++ x = (cellText q).data ++ y) : p = q ∧ x = y := by
  obtain ⟨a1, a2, a3⟩ := p
  obtain ⟨b1, b2, b3⟩ := q
  simp only [cellText, String.data_append, List.append_assoc] at h
  have s : (" " : String).data = [' '] := rfl
  simp only [s, List.singleton_append] at h
  obtain ⟨e1, h⟩ := decimal_cancel ' ' (Or.inl rfl) _ _ _ _ h
  obtain ⟨e2, h⟩ := decimal_cancel ' ' (Or.inl rfl) _ _ _ _ h
  obtain ⟨e3, h⟩ := decimal_cancel ' ' (Or.inl rfl) _ _ _ _ h
  exact ⟨by rw [e1, e2, e3], h⟩

/-- The texts of the cells of a row can be read off the front of a text, when the number
of cells is known. -/
theorem row_cancel :
    ∀ (ps qs : List UJPixel) (x y : List Char), ps.length = qs.length →
      (ps.map (fun p => (cellText p).data)).flatten ++ x =
        (qs.map (fun p => (cellText p).data)).flatten ++ y →
      ps = qs ∧ x = y := by
  intro ps
  induction ps with
  | nil =>
    intro qs x y hl h
    cases qs with
    | nil => simpa using h
    | cons q qs => simp at hl
  | cons p ps ih =>
    intro qs x y hl h
    cases qs with
    | nil => simp at hl
    | cons q qs =>
      simp only [List.map_cons, List.flatten_cons, List.append_assoc] at h
      obtain ⟨e1, h⟩ := cell_cancel p q _ _ h
      obtain ⟨e2, h⟩ := ih qs x y (by simpa using hl) h
      exact ⟨by rw [e1, e2], h⟩

/-- The texts of the rows can be read back, when the number of rows and the number of
cells of each row are known. -/
theorem rows_cancel (n : Nat) :
    ∀ (rs ss : List (List UJPixel)), rs.length = ss.length →
      (∀ ps ∈ rs, ps.length = n) → (∀ ps ∈ ss, ps.length = n) →
      (rs.map (fun ps => (ps.map (fun p => (cellText p).data)).flatten ++ ['\n'])).flatten =
        (ss.map (fun ps => (ps.map (fun p => (cellText p).data)).flatten ++ ['\n'])).flatten →
      rs = ss := by
  intro rs
  induction rs with
  | nil =>
    intro ss hl _ _ _
    cases ss with
    | nil => rfl
    | cons q qs => simp at hl
  | cons r rs ih =>
    intro ss hl hr hs h
    cases ss with
    | nil => simp at hl
    | cons s ss =>
      simp only [List.map_cons, List.flatten_cons, List.append_assoc] at h
      obtain ⟨e1, h⟩ := row_cancel r s _ _
        (by rw [hr r (List.mem_cons_self _ _), hs s (List.mem_cons_self _ _)]) h
      simp only [List.singleton_append, List.cons.injEq, true_and] at h
      have e2 := ih ss (by simpa using hl)
        (fun ps hp => hr ps (List.mem_cons_of_mem _ hp))
        (fun ps hp => hs ps (List.mem_cons_of_mem _ hp)) h
      rw [e1, e2]

/-- The text that `toPPM` returns: the header, then the cells row by row, each row ended
by a newline. -/
theorem toPPM_text (img : UJImage) :
    img.toPPM =
      "P3\n" ++ decimal img._cols ++ " " ++ decimal img._rows ++ "\n255\n" ++
        String.join (img.cells.map (fun ps =>
          String.join (ps.map cellText) ++ "\n")) := by
  have inner : ∀ (r : Int) (t : String),
      pureForUpTo img._cols
        (fun c ssPPM =>
          ssPPM ++ decimal (img.load r c).intRed ++ " "
            ++ decimal (img.load r c).intGreen ++ " "
            ++ decimal (img.load r c).intBlue ++ " ") t ++ "\n" =
      t ++ (String.join ((List.range img._cols.toNat).map (fun c =>
          cellText (img.load r ((0 : Int) + (c : Nat))))) ++ "\n") := by
    intro r t
    have := pureLoopFrom_append (fun c => cellText (img.load r c)) img._cols.toNat 0 t
    rw [pureForUpTo]
    simp only [cellText, String.append_assoc] at this ⊢
    rw [this, String.append_assoc]
  simp only [UJImage.toPPM, inner]
  rw [pureForUpTo, pureLoopFrom_append]
  simp only [zero_add, String.append_assoc, UJImage.cells, List.map_map, Function.comp_def]
  rw [text_P3, text_255]

/-- The characters that `toPPM` returns. -/
theorem toPPM_data (img : UJImage) :
    img.toPPM.data =
      'P' :: '3' :: '\n' :: ((decimal img._cols).data ++ ' ' :: ((decimal img._rows).data ++
        '\n' :: '2' :: '5' :: '5' :: '\n' ::
        (img.cells.map (fun ps =>
          (ps.map (fun p => (cellText p).data)).flatten ++ ['\n'])).flatten)) := by
  rw [toPPM_text]
  simp only [String.data_append, String.data_join, List.map_map, Function.comp_def,
    List.append_assoc]
  rfl

theorem cells_length (img : UJImage) : img.cells.length = img._rows.toNat := by
  simp [UJImage.cells]

theorem cells_row_length (img : UJImage) : ∀ ps ∈ img.cells, ps.length = img._cols.toNat := by
  intro ps hp
  simp only [UJImage.cells, List.mem_map] at hp
  obtain ⟨r, _, rfl⟩ := hp
  simp

theorem cells_load (img : UJImage) (r c : Int) (hr0 : 0 ≤ r) (hr : r < img._rows)
    (hc0 : 0 ≤ c) (hc : c < img._cols) :
    (img.cells.getD r.toNat []).getD c.toNat indeterminate = img.load r c := by
  have h1 : r.toNat < img._rows.toNat := by omega
  have h2 : c.toNat < img._cols.toNat := by omega
  simp [UJImage.cells, h1, h2, Int.toNat_of_nonneg hr0, Int.toNat_of_nonneg hc0]

/-- Two buffers with the same colour export have the same dimensions and visit the same
cells. -/
theorem toPPM_inj (A B : UJImage) (h : A.toPPM = B.toPPM) :
    A._rows = B._rows ∧ A._cols = B._cols ∧ A.cells = B.cells := by
  have hd := congrArg String.data h
  rw [toPPM_data, toPPM_data] at hd
  simp only [List.cons.injEq, true_and] at hd
  obtain ⟨ec, hd⟩ := decimal_cancel ' ' (Or.inl rfl) _ _ _ _ hd
  obtain ⟨er, hd⟩ := decimal_cancel '\n' (Or.inr rfl) _ _ _ _ hd
  simp only [List.cons.injEq, true_and] at hd
  refine ⟨er, ec, ?_⟩
  exact rows_cancel A._cols.toNat A.cells B.cells
    (by rw [cells_length, cells_length, er])
    (cells_row_length A) (by rw [ec]; exact cells_row_length B) hd

/-- C21: the colour export is lossless. Two buffers with the same `toPPM` text have the same
height and the same width and read the same pixel at every cell of the grid, whatever the
channel values are, so in particular when all channels are in `[0,255]`; two such buffers
that satisfy the representation invariant are the same buffer; and the height, the width
and the pixels of every buffer are a function of its `toPPM` text. -/
theorem C21_colour_export_lossless :
    (∀ A B : UJImage, A.toPPM = B.toPPM →
      A.getHeight = B.getHeight ∧ A.getWidth = B.getWidth ∧
      (∀ r c, 0 ≤ r → r < A.getHeight → 0 ≤ c → c < A.getWidth → A.load r c = B.load r c) ∧
      (A.WF → B.WF → A = B)) ∧
    (∃ decode : String → Int × Int × List (List UJPixel),
      ∀ A : UJImage, decode A.toPPM = (A.getHeight, A.getWidth, A.cells)) := by
  constructor
  · intro A B h
    obtain ⟨er, ec, eg⟩ := toPPM_inj A B h
    have hl : ∀ r c, 0 ≤ r → r < A._rows → 0 ≤ c → c < A._cols → A.load r c = B.load r c := by
      intro r c hr0 hr hc0 hc
      rw [← cells_load A r c hr0 hr hc0 hc, eg,
        cells_load B r c hr0 (by omega) hc0 (by omega)]
    exact ⟨er, ec, hl, fun hA hB => WF_ext A B hA hB er ec hl⟩
  · classical
    refine ⟨fun s =>
      if h : ∃ A : UJImage, A.toPPM = s then
        (h.choose._rows, h.choose._cols, h.choose.cells)
      else (0, 0, []), ?_⟩
    intro A
    have hex : ∃ X : UJImage, X.toPPM = A.toPPM := ⟨A, rfl⟩
    obtain ⟨er, ec, eg⟩ := toPPM_inj _ _ hex.choose_spec
    simp only [dif_pos hex, UJImage.getHeight, UJImage.getWidth, er, ec, eg]

/-- Witness of C21: the buffer `sampleWritten` and the white 2×2 buffer after the write of
`(1,2,3)` at row 0, column 1 have the same export, and are the same buffer; the white
buffer has another export. -/
theorem C21_colour_export_lossless_witness :
    sampleWritten.toPPM = (sampleWhite.store 0 1 ⟨1, 2, 3⟩).toPPM ∧
    sampleWritten = sampleWhite.store 0 1 ⟨1, 2, 3⟩ ∧
    sampleWhite.toPPM ≠ sampleWritten.toPPM :=
  ⟨by decide,
    (C21_colour_export_lossless.1 sampleWritten (sampleWhite.store 0 1 ⟨1, 2, 3⟩)
      (by decide)).2.2.2 (by decide) (by decide),
    fun h => absurd ((C21_colour_export_lossless.1 sampleWhite sampleWritten h).2.2.2
      (by decide) (by decide)) (by decide)⟩

end FlagSpec
